import Mathlib

/-!
Base blockchain transaction system: ledger core

A shallow embedding of the C++ sources (`BC_Utilities`, `BC_CryptoUtils`, `BC_Transaction`,
`BC_Block`, `BC_Blockchain`, the save path of `BC_Controller` and `main`) and theorems about
it.

Modelling conventions
* `std::string` is a Lean `String`; one `Char` stands for one code unit.
* `double` amounts are taken as exact rationals (`ℚ`). The sums and differences of the code
  round; what is proved about a change of a stored amount uses the rendering of the amount and
  the block hash only, no arithmetic on amounts.
* `std::map<std::string, T>` is `StdMap T`: a list of entries with strictly increasing keys,
  so that `operator==` on maps is equality of the entry lists.
* SHA-256, the RSA primitives and the hardware parallelism hint are parameters (`Env`).
* The clock is an explicit argument `now` of every constructor that reads it.
* A C++ exception is an `Except.error`; a search that never finishes is bounded by `fuel`.
* The worker pool of `mineBlock` is given twice: as the search of workers that run one after
  the other (`Block.mineBlock`), and as single steps of the workers under a schedule
  (`Block.mineBlockUnder`); the first is one execution of the second.
* Binary strings (keys, plaintext, ciphertext) are lists of byte values; a length that the
  code converts to `int` is wrapped to 32 bits.
-/

/-! ## std::map -/

/-- Key order of `std::map<std::string, _>`: lexicographic order of the characters. -/
def keyLt (a b : String) : Prop := a.toList < b.toList

instance keyLt.decidable (a b : String) : Decidable (keyLt a b) :=
  inferInstanceAs (Decidable (a.toList < b.toList))

/-- Entry lists whose keys strictly increase. -/
def KeysSorted {β : Type} (l : List (String × β)) : Prop :=
  l.Pairwise (fun a b => keyLt a.1 b.1)

/-- Value stored under `k` in an entry list, if any. -/
def lookupEntry {β : Type} (k : String) : List (String × β) → Option β
  | [] => none
  | (k1, v) :: m => if k = k1 then some v else lookupEntry k m

/-- Entry list after `m[k] = v`. -/
def insertEntry {β : Type} (k : String) (v : β) : List (String × β) → List (String × β)
  | [] => [(k, v)]
  | (k1, v1) :: m =>
    if k = k1 then (k, v) :: m
    else if keyLt k k1 then (k, v) :: (k1, v1) :: m
    else (k1, v1) :: insertEntry k v m

/-- Model of `std::map<std::string, β>`. -/
structure StdMap (β : Type) where
  entries : List (String × β)
  sorted : KeysSorted entries

theorem keyLt_irrefl (a : String) : ¬ keyLt a a := lt_irrefl a.toList

theorem keyLt_trans {a b c : String} (h1 : keyLt a b) (h2 : keyLt b c) : keyLt a c :=
  lt_trans (a := a.toList) h1 h2

theorem keyLt_total (a b : String) : keyLt a b ∨ a = b ∨ keyLt b a := by
  rcases lt_trichotomy a.toList b.toList with h | h | h
  · exact Or.inl h
  · exact Or.inr (Or.inl (String.ext h))
  · exact Or.inr (Or.inr h)

theorem keyLt_ne {a b : String} (h : keyLt a b) : a ≠ b := by
  intro e
  subst e
  exact keyLt_irrefl a h

theorem StdMap.ext_entries {β : Type} {a b : StdMap β} (h : a.entries = b.entries) : a = b := by
  cases a
  cases b
  cases h
  rfl

instance StdMap.instDecidableEq {β : Type} [DecidableEq β] : DecidableEq (StdMap β) :=
  fun a b =>
    if h : a.entries = b.entries then isTrue (StdMap.ext_entries h)
    else isFalse (fun e => h (congrArg StdMap.entries e))

theorem keysSorted_insertEntry {β : Type} (k : String) (v : β) :
    ∀ m : List (String × β), KeysSorted m → KeysSorted (insertEntry k v m)
  | [], _ => by simp [insertEntry, KeysSorted]
  | (k1, v1) :: m, h => by
    have hp := List.pairwise_cons.mp h
    unfold insertEntry
    by_cases e : k = k1
    · subst e
      simp only [if_true]
      exact List.pairwise_cons.mpr ⟨fun x hx => hp.1 x hx, hp.2⟩
    · simp only [e, if_false]
      by_cases l : keyLt k k1
      · simp only [l, if_true]
        refine List.pairwise_cons.mpr ⟨?_, h⟩
        intro x hx
        rcases List.mem_cons.mp hx with hx | hx
        · subst hx
          exact l
        · exact keyLt_trans l (hp.1 x hx)
      · simp only [l, if_false]
        have ih := keysSorted_insertEntry k v m hp.2
        refine List.pairwise_cons.mpr ⟨?_, ih⟩
        intro x hx
        have hk1 : keyLt k1 k := by
          rcases keyLt_total k k1 with h1 | h1 | h1
          · exact absurd h1 l
          · exact absurd h1 e
          · exact h1
        have mem_ins : ∀ (m : List (String × β)) (x : String × β),
            x ∈ insertEntry k v m → x = (k, v) ∨ x ∈ m := by
          intro m
          induction m with
          | nil =>
            intro x hx
            simp [insertEntry] at hx
            exact Or.inl hx
          | cons hd tl ih2 =>
            intro x hx
            obtain ⟨k2, v2⟩ := hd
            unfold insertEntry at hx
            by_cases e2 : k = k2
            · simp only [e2, if_true] at hx
              rcases List.mem_cons.mp hx with hx | hx
              · left
                rw [hx, e2]
              · right
                exact List.mem_cons_of_mem _ hx
            · simp only [e2, if_false] at hx
              by_cases l2 : keyLt k k2
              · simp only [l2, if_true] at hx
                rcases List.mem_cons.mp hx with hx | hx
                · exact Or.inl hx
                · exact Or.inr hx
              · simp only [l2, if_false] at hx
                rcases List.mem_cons.mp hx with hx | hx
                · right
                  rw [hx]
                  exact List.mem_cons_self _ _
                · rcases ih2 x hx with h3 | h3
                  · exact Or.inl h3
                  · exact Or.inr (List.mem_cons_of_mem _ h3)
        rcases mem_ins m x hx with h3 | h3
        · rw [h3]
          exact hk1
        · exact hp.1 x h3

namespace StdMap

variable {β : Type}

/-- The empty map. -/
def empty : StdMap β := ⟨[], List.Pairwise.nil⟩

/-- Lookup, as `find` does: the stored value or nothing. -/
def find? (m : StdMap β) (k : String) : Option β := lookupEntry k m.entries

/-- Test `count(k) != 0`. -/
def contains (m : StdMap β) (k : String) : Bool := (m.find? k).isSome

/-- Assignment `m[k] = v`. -/
def insert (m : StdMap β) (k : String) (v : β) : StdMap β :=
  ⟨insertEntry k v m.entries, keysSorted_insertEntry k v m.entries m.sorted⟩

/-- Erase every entry that fails `p`, keeping the others in order. -/
def filter (p : String → β → Bool) (m : StdMap β) : StdMap β :=
  ⟨m.entries.filter (fun kv => p kv.1 kv.2), List.Pairwise.filter _ m.sorted⟩

/-- Keys in iteration order. -/
def keys (m : StdMap β) : List String := m.entries.map Prod.fst

end StdMap

/-! ## Exceptions -/

deriving instance DecidableEq for Except

/-! ## Environment -/

/-- External collaborators of the core: the hash oracle, the RSA primitives behind
`CryptoUtils::signData` and `CryptoUtils::verifySignature`, and the value returned by
`std::thread::hardware_concurrency()`. -/
structure Env where
  /-- Hex SHA-256 of a string: `CryptoUtils::calculateHash`. -/
  calculateHash : String → String
  /-- Key parsing and `EVP_DigestSign*` of `data` under a private key; `none` on any failure. -/
  evpSign : String → String → Option (List Nat)
  /-- Key parsing and `EVP_DigestVerify*` of `data`, signature bytes, public key; false on any
  failure. -/
  evpVerify : String → List Nat → String → Bool
  /-- Number of mining workers started by `Block::mineBlock`. -/
  hardwareConcurrency : Nat

/-! ## Amount rendering -/

/-- Nearest integer of a non-negative rational, ties to even. -/
def roundHalfEven (x : ℚ) : ℤ :=
  let f := x.floor
  let r := x - f
  if r < 1 / 2 then f else if 1 / 2 < r then f + 1 else if f % 2 = 0 then f else f + 1

/-- Six fractional digits, zero padded on the left. -/
def pad6 (s : String) : String := String.mk (List.replicate (6 - s.length) '0') ++ s

/-- Rendering `std::to_string(double)`, which is also what `std::fixed` streams: the format
`%f`, six digits after the decimal point. -/
def to_string (a : ℚ) : String :=
  let n := (roundHalfEven ((if a < 0 then -a else a) * 1000000)).toNat
  let body := toString (n / 1000000) ++ "." ++ pad6 (toString (n % 1000000))
  if a < 0 then "-" ++ body else body

/-! ## Validator and CryptoUtils -/

namespace Validator

/-- Address rule of `Validator::isAddressFormatValid`. -/
def isAddressFormatValid (address : String) : Bool :=
  if address.length < 3 || address.length > 20 then false
  else address.toList.all (fun c => c.isAlphanum || c == '_')

end Validator

namespace CryptoUtils

/-- Value of one hexadecimal digit. -/
def hexDigitValue (c : Char) : Option Nat :=
  if c.isDigit then some (c.toNat - '0'.toNat)
  else if 'a'.toNat ≤ c.toNat ∧ c.toNat ≤ 'f'.toNat then some (c.toNat - 'a'.toNat + 10)
  else if 'A'.toNat ≤ c.toNat ∧ c.toNat ≤ 'F'.toNat then some (c.toNat - 'A'.toNat + 10)
  else none

/-- Whitespace skipped by `strtol`. -/
def isSpace (c : Char) : Bool :=
  c == ' ' || c == '\t' || c == '\n' || c == '\x0b' || c == '\x0c' || c == '\r'

/-- Hexadecimal value of a digit list. -/
def hexValue (ds : List Char) : Nat :=
  ds.foldl (fun acc c => acc * 16 + (hexDigitValue c).getD 0) 0

/-- Call `std::stoi(s, nullptr, 16)` on a string of at most two characters: leading whitespace
and one sign are skipped, then the longest run of hexadecimal digits is read; `none` stands for
`std::invalid_argument` (no digit could be read). -/
def stoi16 (s : List Char) : Option Int :=
  let s1 := s.dropWhile isSpace
  let neg := s1.head? == some '-'
  let s2 := if s1.head? == some '-' || s1.head? == some '+' then s1.drop 1 else s1
  let ds := s2.takeWhile (fun c => (hexDigitValue c).isSome)
  if ds.isEmpty then none
  else some (if neg then -(hexValue ds : Int) else (hexValue ds : Int))

/-- Conversion `static_cast<unsigned char>(int)`. -/
def toByte (v : Int) : Nat := (v % 256).toNat

/-- First stage of `verifySignature`: the hex signature is cut into pieces of two characters
(the last piece may have one) and every piece goes through `std::stoi`. -/
def hexToBytes : List Char → Except String (List Nat)
  | [] => .ok []
  | [c] =>
    match stoi16 [c] with
    | none => .error "std::invalid_argument"
    | some v => .ok [toByte v]
  | c1 :: c2 :: rest =>
    match stoi16 [c1, c2] with
    | none => .error "std::invalid_argument"
    | some v =>
      match hexToBytes rest with
      | .error e => .error e
      | .ok bs => .ok (toByte v :: bs)

/-- Lowercase hexadecimal digit. -/
def hexDigit (n : Nat) : Char :=
  if n < 10 then Char.ofNat ('0'.toNat + n) else Char.ofNat ('a'.toNat + (n - 10))

/-- Two lowercase hex digits per byte, as `std::hex << std::setw(2) << std::setfill('0')`. -/
def bytesToHex (bs : List Nat) : String :=
  String.mk (bs.flatMap (fun b => [hexDigit (b % 256 / 16), hexDigit (b % 16)]))

/-- Model of `CryptoUtils::signData`: the hex signature, or the empty string when anything
failed (the function catches its own exceptions and clears the result). -/
def signData (env : Env) (data privateKeyPEM : String) : String :=
  match env.evpSign data privateKeyPEM with
  | some sig => bytesToHex sig
  | none => ""

/-- Model of `CryptoUtils::verifySignature`. -/
def verifySignature (env : Env) (data signatureHex publicKeyPEM : String) : Except String Bool :=
  match hexToBytes signatureHex.toList with
  | .error e => .error e
  | .ok sig => .ok (env.evpVerify data sig publicKeyPEM)

end CryptoUtils

/-! ## Transaction -/

/-- Fields of `class Transaction`. -/
structure Transaction where
  sender : String
  receiver : String
  amount : ℚ
  txId : String
  timestamp : String
  metadata : String
  signature : String
deriving DecidableEq

namespace Transaction

/-- Constructor `Transaction(from, to, value, meta)`; `now` is `TimeUtils::getCurrentTime()`. -/
def new (env : Env) (now fromAddr toAddr : String) (value : ℚ) (meta : String) : Transaction :=
  let sender := if Validator.isAddressFormatValid fromAddr then fromAddr else ""
  let receiver := if Validator.isAddressFormatValid toAddr then toAddr else ""
  let amount := if value > 0 then value else 0
  { sender := sender
    receiver := receiver
    amount := amount
    txId := env.calculateHash (sender ++ receiver ++ to_string amount ++ now ++ meta)
    timestamp := now
    metadata := meta
    signature := "" }

/-- Method `getDataToSign`. -/
def getDataToSign (tx : Transaction) : String :=
  tx.txId ++ tx.sender ++ tx.receiver ++ to_string tx.amount ++ tx.timestamp ++ tx.metadata

/-- Method `signTransaction`: an `error` is the `std::runtime_error` it throws. -/
def signTransaction (env : Env) (tx : Transaction) (privateKeyPEM : String) :
    Except String Transaction :=
  if tx.signature ≠ "" then .error "Transaction already signed"
  else if tx.sender = "" ∨ tx.receiver = "" ∨ tx.amount ≤ 0 then
    .error "Invalid transaction parameters"
  else .ok { tx with signature := CryptoUtils.signData env tx.getDataToSign privateKeyPEM }

/-- Method `toString`. -/
def toString (tx : Transaction) : String :=
  "txId: " ++ tx.txId ++ ", " ++ "From: " ++ tx.sender ++ ", " ++ "To: " ++ tx.receiver ++ ", "
    ++ "Amount: " ++ to_string tx.amount ++ " BTC\n" ++ ", "
    ++ "Timestamp: " ++ tx.timestamp ++ ", " ++ "Metadata: " ++ tx.metadata ++ ", "
    ++ "Signature: " ++ tx.signature

end Transaction

/-! ## Block -/

/-- Fields of `class Block`. -/
structure Block where
  index : Int
  timestamp : String
  transactions : List Transaction
  previousHash : String
  hash : String
  nonce : Int
  balanceSnapshot : StdMap ℚ
  difficulty : Nat
deriving DecidableEq

/-- Wrap-around of a 32-bit `int`, as `std::atomic<int>::fetch_add` does. -/
def wrapInt32 (x : Int) : Int := (x + 2147483648) % 4294967296 - 2147483648

namespace Block

/-- Method `calculateBlockHashWithNonce`. -/
def calculateBlockHashWithNonce (env : Env) (b : Block) (testNonce : Int) : String :=
  env.calculateHash
    (toString b.index ++ b.timestamp ++ b.previousHash ++ toString testNonce
      ++ String.join (b.transactions.map Transaction.toString))

/-- Method `calculateBlockHash`. -/
def calculateBlockHash (env : Env) (b : Block) : String :=
  b.calculateBlockHashWithNonce env b.nonce

/-- Test `hash.substr(0, d) == std::string(d, '0')`. -/
def meetsTarget (hash : String) (d : Nat) : Bool :=
  hash.toList.take d == List.replicate d '0'

/-- The worker loop of `mineBlock`, for workers that run one after the other: candidates are
handed out from `nonce` upwards; the first one whose hash meets the target is returned.
`none` when `fuel` candidates were tried without success. -/
def mineLoop (env : Env) (b : Block) (d : Nat) : Nat → Int → Option (Int × String)
  | 0, _ => none
  | fuel + 1, nonce =>
    let currentHash := b.calculateBlockHashWithNonce env nonce
    if meetsTarget currentHash d then some (nonce, currentHash)
    else mineLoop env b d fuel (wrapInt32 (nonce + 1))

/-- Method `mineBlock`, in the execution where the workers run one after the other: with no
worker thread nothing is searched and the block is left as it is; otherwise the first worker
searches from nonce 0 and writes nonce and hash, and the others find the flag set. With one
worker this is the only execution; with two or more it is one execution among those of
`Block.mineBlockUnder`, where several workers may write and the stored hash need not be the
hash of the stored nonce. `none`: the search did not finish within `fuel` candidates. -/
def mineBlock (env : Env) (fuel : Nat) (b : Block) (mine_difficulty : Nat) : Option Block :=
  if env.hardwareConcurrency = 0 then some b
  else
    match mineLoop env b mine_difficulty fuel 0 with
    | some (n, h) => some { b with nonce := n, hash := h }
    | none => none

/-- Constructor `Block(idx, prevHash, txs, snapshot, diff)`; `now` is the clock reading. -/
def new (env : Env) (fuel : Nat) (now : String) (idx : Int) (prevHash : String)
    (txs : List Transaction) (snapshot : StdMap ℚ) (diff : Nat) : Option Block :=
  let b0 : Block :=
    { index := idx, timestamp := now, transactions := txs, previousHash := prevHash,
      hash := "", nonce := 0, balanceSnapshot := snapshot, difficulty := diff }
  let b1 : Block := { b0 with hash := b0.calculateBlockHash env }
  mineBlock env fuel b1 diff

end Block

/-! ## Blockchain -/

/-- Value that `tempBalances[k]` reads: the stored balance, or 0 for a missing key. -/
def StdMap.at0 (m : StdMap ℚ) (k : String) : ℚ := (m.find? k).getD 0

/-- Fields of `class Blockchain` (the mutex apart). -/
structure Blockchain where
  chain : List Block
  balances : StdMap ℚ
deriving DecidableEq

/-- The lambda used twice: `user` is sender or receiver of some transaction of the list. -/
def isInvolved (transactions : List Transaction) (user : String) : Bool :=
  transactions.any (fun tx => tx.sender == user || tx.receiver == user)

/-- How a call of `addBlock` ends. -/
inductive Outcome where
  /-- Normal return after `chain.push_back`. -/
  | appended (s : Blockchain)
  /-- Early `return` out of the transaction loop. -/
  | aborted (s : Blockchain)
  /-- An exception left the call; `s` is the ledger it leaves behind. -/
  | raised (s : Blockchain) (what : String)
  /-- The miner did not finish within the fuel. -/
  | stuck
  /-- Call of `chain.back()` on an empty chain. -/
  | undefined
deriving DecidableEq

/-- How the transaction loop of `addBlock` ends. -/
inductive LoopExit where
  /-- Every transaction was processed. -/
  | finished (balances tempBalances : StdMap ℚ)
  /-- Early `return`. -/
  | returned (balances : StdMap ℚ)
  /-- Exception out of `isTransactionValid`. -/
  | thrown (balances : StdMap ℚ) (what : String)
deriving DecidableEq

namespace Blockchain

/-- Constructor `Blockchain()` with `createGenesisBlock`; `nowTx` and `nowBlock` are the two
clock readings. -/
def new (env : Env) (fuel : Nat) (nowTx nowBlock : String) : Option Blockchain :=
  let balances := (StdMap.empty : StdMap ℚ).insert "Genesis_User" 1000
  let genesisTx := Transaction.new env nowTx "System" "Genesis_User" 1000 ""
  match Block.new env fuel nowBlock 0 "0" [genesisTx] balances 4 with
  | some b => some { chain := [b], balances := balances }
  | none => none

/-- Method `addUser`. -/
def addUser (s : Blockchain) (username : String) : Blockchain :=
  if s.balances.contains username then s
  else if Validator.isAddressFormatValid username then
    { s with balances := s.balances.insert username 0 }
  else s

/-- Method `getBalance`. -/
def getBalance (s : Blockchain) (username : String) : ℚ :=
  match s.balances.find? username with
  | some v => v
  | none => 0

/-- Method `isTransactionValid`. -/
def isTransactionValid (env : Env) (tx : Transaction) (publicKeyPEM : String)
    (tempBalances : StdMap ℚ) : Except String Bool :=
  if tx.sender = "System" then .ok true
  else if tx.signature = "" then .ok false
  else if !tempBalances.contains tx.sender || tempBalances.at0 tx.sender < tx.amount then
    .ok false
  else if tx.amount < 0 then .ok false
  else if tx.receiver = "" then .ok false
  else
    let dataToVerify :=
      tx.txId ++ tx.sender ++ tx.receiver ++ to_string tx.amount ++ tx.timestamp ++ tx.metadata
    match CryptoUtils.verifySignature env dataToVerify tx.signature publicKeyPEM with
    | .error e => .error e
    | .ok false => .ok false
    | .ok true => .ok true

/-- The `for` loop of `addBlock` over the batch; `balances` is the live map, `tempBalances`
the working copy. -/
def addBlockLoop (env : Env) (publicKeys : StdMap String) :
    List Transaction → StdMap ℚ → StdMap ℚ → LoopExit
  | [], balances, tempBalances => .finished balances tempBalances
  | tx :: rest, balances, tempBalances =>
    match publicKeys.find? tx.sender with
    | none => .returned balances
    | some key =>
      if !Validator.isAddressFormatValid tx.receiver then .returned balances
      else
        match isTransactionValid env tx key tempBalances with
        | .error e => .thrown balances e
        | .ok false => .returned balances
        | .ok true =>
          let t1 := tempBalances.insert tx.sender (tempBalances.at0 tx.sender - tx.amount)
          let t2 := t1.insert tx.receiver (t1.at0 tx.receiver + tx.amount)
          let balances1 :=
            if !balances.contains tx.receiver then balances.insert tx.receiver 0 else balances
          addBlockLoop env publicKeys rest balances1 t2

/-- Snapshot filter: users with a non-zero balance or involved in the block. -/
def snapshotFilter (transactions : List Transaction) (m : StdMap ℚ) : StdMap ℚ :=
  m.filter (fun user balance => balance != 0 || isInvolved transactions user)

/-- Method `addBlock`; `now` is the clock reading of the new block. -/
def addBlock (env : Env) (fuel : Nat) (now : String) (s : Blockchain)
    (transactions : List Transaction) (publicKeys : StdMap String) : Outcome :=
  match addBlockLoop env publicKeys transactions s.balances s.balances with
  | .returned balances => .aborted { s with balances := balances }
  | .thrown balances e => .raised { s with balances := balances } e
  | .finished balances tempBalances =>
    let committed :=
      tempBalances.filter (fun user balance => !(balance == 0 && !balances.contains user))
    let snapshot := snapshotFilter transactions committed
    match s.chain.getLast? with
    | none => .undefined
    | some latestBlock =>
      match Block.new env fuel now (latestBlock.index + 1) latestBlock.hash transactions
          snapshot latestBlock.difficulty with
      | none => .stuck
      | some newBlock => .appended { chain := s.chain ++ [newBlock], balances := committed }

/-- The transaction loop inside `isChainValid`, carrying `tempBalances` and `isValid`. The
comparison and the two updates are those of the code on exact amounts. -/
def validateTransactions (env : Env) (publicKeys : StdMap String) :
    List Transaction → StdMap ℚ → Bool → Except String (StdMap ℚ × Bool)
  | [], tempBalances, isValid => .ok (tempBalances, isValid)
  | tx :: rest, tempBalances, isValid =>
    let t0 :=
      if !tempBalances.contains tx.receiver then tempBalances.insert tx.receiver 0
      else tempBalances
    if tx.sender = "System" then
      validateTransactions env publicKeys rest
        (t0.insert tx.receiver (t0.at0 tx.receiver + tx.amount)) isValid
    else
      match publicKeys.find? tx.sender with
      | none => validateTransactions env publicKeys rest t0 false
      | some key =>
        let dataToVerify :=
          tx.txId ++ tx.sender ++ tx.receiver ++ to_string tx.amount ++ tx.timestamp
            ++ tx.metadata
        match CryptoUtils.verifySignature env dataToVerify tx.signature key with
        | .error e => .error e
        | .ok sigOk =>
          let t1 := if !t0.contains tx.sender then t0.insert tx.sender 0 else t0
          let balanceOk := decide (t1.at0 tx.sender ≥ tx.amount)
          let t2 := t1.insert tx.sender (t1.at0 tx.sender - tx.amount)
          let t3 := t2.insert tx.receiver (t2.at0 tx.receiver + tx.amount)
          validateTransactions env publicKeys rest t3 (isValid && sigOk && balanceOk)

/-- The two filters applied to the replayed balances of a block. -/
def filteredTemp (transactions : List Transaction) (tempBalances : StdMap ℚ) : StdMap ℚ :=
  (snapshotFilter transactions tempBalances).filter
    (fun user balance => !(balance == 0 && !isInvolved transactions user))

/-- The block loop of `isChainValid`: `prev` is `chain[i - 1]` (absent for `i = 0`). -/
def validateBlocks (env : Env) (publicKeys : StdMap String) :
    Option Block → StdMap ℚ → Bool → List Block → Except String Bool
  | _, _, isValid, [] => .ok isValid
  | prev, tempBalances, isValid, current :: rest =>
    if current.hash.length < 56 then .error "std::out_of_range"
    else
      let t0 := match prev with
        | some p => p.balanceSnapshot
        | none => tempBalances
      let v1 := isValid && Block.meetsTarget current.hash current.difficulty
      let v2 := v1 && decide (current.hash = current.calculateBlockHash env)
      let v3 := match prev with
        | some p => v2 && decide (current.previousHash = p.hash)
        | none => v2
      match validateTransactions env publicKeys current.transactions t0 v3 with
      | .error e => .error e
      | .ok (t1, v4) =>
        let filtered := filteredTemp current.transactions t1
        let v5 := v4 && decide (current.balanceSnapshot = filtered)
        validateBlocks env publicKeys (some current) filtered v5 rest

/-- Method `isChainValid`. -/
def isChainValid (env : Env) (s : Blockchain) (publicKeys : StdMap String) :
    Except String Bool :=
  validateBlocks env publicKeys none StdMap.empty true s.chain

end Blockchain

/-! ## Definitions used to state the properties -/

/-- Sum of all values of a balance map. -/
def StdMap.total (m : StdMap ℚ) : ℚ := (m.entries.map Prod.snd).sum

/-- One transaction applied to a working balance map: the amount is subtracted from the
entry of the sender and added to the entry of the receiver, a missing entry counting as 0. -/
def applyTransaction (working : StdMap ℚ) (tx : Transaction) : StdMap ℚ :=
  let t1 := working.insert tx.sender (working.at0 tx.sender - tx.amount)
  t1.insert tx.receiver (t1.at0 tx.receiver + tx.amount)

/-- A batch applied in the order given by the caller. -/
def applyBatch (working : StdMap ℚ) (transactions : List Transaction) : StdMap ℚ :=
  transactions.foldl applyTransaction working

/-- Acceptance of a batch, in the words of the specification: going through the batch in order,
every transaction has a key entry for its sender, a receiver that is a valid address, and
passes transaction validation against the working balances left by the earlier ones. -/
def batchAccepted (env : Env) (publicKeys : StdMap String) :
    List Transaction → StdMap ℚ → Prop
  | [], _ => True
  | tx :: rest, working =>
    (∃ key, publicKeys.find? tx.sender = some key
        ∧ Validator.isAddressFormatValid tx.receiver = true
        ∧ Blockchain.isTransactionValid env tx key working = .ok true)
      ∧ batchAccepted env publicKeys rest (applyTransaction working tx)

/-- The miner can succeed at difficulty `d`: every block content has a candidate nonce whose
hash meets the target. -/
def Mineable (env : Env) (d : Nat) : Prop :=
  ∀ b : Block, ∃ n : Nat, Block.meetsTarget (b.calculateBlockHashWithNonce env (wrapInt32 n)) d = true

/-- Digests are at least as long as the 56 characters `isChainValid` prints from (a hex
SHA-256 has 64). -/
def WideDigest (env : Env) : Prop := ∀ s : String, 56 ≤ (env.calculateHash s).length

/-- One transaction replayed by the chain validator: the receiver entry is created when
missing, a `System` transaction only credits, any other debits and credits. -/
def replayTransaction (tempBalances : StdMap ℚ) (tx : Transaction) : StdMap ℚ :=
  let t0 :=
    if !tempBalances.contains tx.receiver then tempBalances.insert tx.receiver 0
    else tempBalances
  if tx.sender = "System" then t0.insert tx.receiver (t0.at0 tx.receiver + tx.amount)
  else
    let t1 := if !t0.contains tx.sender then t0.insert tx.sender 0 else t0
    let t2 := t1.insert tx.sender (t1.at0 tx.sender - tx.amount)
    t2.insert tx.receiver (t2.at0 tx.receiver + tx.amount)

/-- The balances replayed over the transactions of a block. -/
def replay (tempBalances : StdMap ℚ) (transactions : List Transaction) : StdMap ℚ :=
  transactions.foldl replayTransaction tempBalances

/-- The checks on the transactions of a block: every non-System transaction has a public key
for its sender, a signature that verifies over the signing payload, and a replayed sender
balance of at least the amount. -/
def transactionChecks (env : Env) (publicKeys : StdMap String) :
    List Transaction → StdMap ℚ → Prop
  | [], _ => True
  | tx :: rest, tempBalances =>
    (tx.sender ≠ "System" →
        ∃ key, publicKeys.find? tx.sender = some key
          ∧ CryptoUtils.verifySignature env tx.getDataToSign tx.signature key = .ok true
          ∧ tx.amount ≤ tempBalances.at0 tx.sender)
      ∧ transactionChecks env publicKeys rest (replayTransaction tempBalances tx)

/-- Balances from which block `i` is replayed: the snapshot of block `i - 1`, or nothing for
the first block. -/
def seedBalances (prev : Option Block) : StdMap ℚ :=
  match prev with
  | some p => p.balanceSnapshot
  | none => StdMap.empty

/-- Every sub-check of one block; `prev` is the block before it, if any. -/
def blockChecks (env : Env) (publicKeys : StdMap String) (prev : Option Block) (b : Block) :
    Prop :=
  Block.meetsTarget b.hash b.difficulty = true
    ∧ b.hash = b.calculateBlockHashWithNonce env b.nonce
    ∧ (∀ p, prev = some p → b.previousHash = p.hash)
    ∧ transactionChecks env publicKeys b.transactions (seedBalances prev)
    ∧ Blockchain.snapshotFilter b.transactions (replay (seedBalances prev) b.transactions)
        = b.balanceSnapshot

/-- Every block of a chain passes every sub-check. -/
def chainChecks (env : Env) (publicKeys : StdMap String) : Option Block → List Block → Prop
  | _, [] => True
  | prev, b :: rest => blockChecks env publicKeys prev b ∧ chainChecks env publicKeys (some b) rest

/-- Ledgers reachable from a freshly constructed one by calls of `addUser` and `addBlock`:
`keys` restricts the key maps the calls of `addBlock` may pass, `allowed` the batches that get
appended. -/
inductive Reachable (env : Env) (keys : StdMap String → Prop)
    (allowed : List Transaction → Prop) : Blockchain → Prop where
  | fresh (fuel : Nat) (nowTx nowBlock : String) (s : Blockchain) :
      Blockchain.new env fuel nowTx nowBlock = some s → Reachable env keys allowed s
  | addUser (s : Blockchain) (username : String) :
      Reachable env keys allowed s → Reachable env keys allowed (s.addUser username)
  | appended (s s1 : Blockchain) (fuel : Nat) (now : String) (txs : List Transaction)
      (publicKeys : StdMap String) :
      Reachable env keys allowed s → keys publicKeys → allowed txs →
      Blockchain.addBlock env fuel now s txs publicKeys = .appended s1 →
      Reachable env keys allowed s1
  | aborted (s s1 : Blockchain) (fuel : Nat) (now : String) (txs : List Transaction)
      (publicKeys : StdMap String) :
      Reachable env keys allowed s → keys publicKeys →
      Blockchain.addBlock env fuel now s txs publicKeys = .aborted s1 →
      Reachable env keys allowed s1
  | raised (s s1 : Blockchain) (fuel : Nat) (now : String) (txs : List Transaction)
      (publicKeys : StdMap String) (what : String) :
      Reachable env keys allowed s → keys publicKeys →
      Blockchain.addBlock env fuel now s txs publicKeys = .raised s1 what →
      Reachable env keys allowed s1

/-! ## A concrete environment for examples -/

/-- A stand-in hash that never collides: 64 zeros followed by the input. -/
def demoHash (s : String) : String := String.mk (List.replicate 64 '0') ++ s

/-- Signature bytes of the stand-in scheme: the character codes of key and data. -/
def demoSignature (data key : String) : List Nat :=
  (key ++ data).toList.map (fun c => c.toNat % 256)

/-- An environment with stand-in primitives and one mining worker. -/
def demoEnv : Env where
  calculateHash := demoHash
  evpSign := fun data key => some (demoSignature data key)
  evpVerify := fun data sig key => decide (sig = demoSignature data key)
  hardwareConcurrency := 1

/-- Key map with entries for `Genesis_User` and `Alice`. -/
def demoKeys : StdMap String :=
  ((StdMap.empty : StdMap String).insert "Genesis_User" "kG").insert "Alice" "kA"

/-- The key map `demoKeys` with an entry for `System` as well. -/
def demoKeysSystem : StdMap String := demoKeys.insert "System" "kS"

/-- The transaction of a signing result, or an unsigned empty one if signing threw. -/
def signedOrEmpty (r : Except String Transaction) : Transaction :=
  match r with
  | .ok tx => tx
  | .error _ => Transaction.new demoEnv "" "" "" 0 ""

/-- A transaction built and signed through the public interface. -/
def demoSigned (now fromAddr toAddr : String) (value : ℚ) (key : String) : Transaction :=
  signedOrEmpty
    (Transaction.signTransaction demoEnv (Transaction.new demoEnv now fromAddr toAddr value "") key)

/-- The ledger an outcome leaves behind, if the call came back. -/
def Outcome.state? : Outcome → Option Blockchain
  | .appended s => some s
  | .aborted s => some s
  | .raised s _ => some s
  | .stuck => none
  | .undefined => none

/-- A freshly constructed ledger. -/
def demoFresh : Blockchain :=
  (Blockchain.new demoEnv 1 "2025-01-01 00:00:00" "2025-01-01 00:00:00").getD ⟨[], StdMap.empty⟩

/-- Clock reading used in the examples. -/
def demoNow : String := "2025-01-01 00:00:00"

/-- Batch of two signed transfers of `Genesis_User`: 10 to the unregistered `Bob`, then 5000
to `Carol`, which exceeds the balance. -/
def demoBatchOverdraw : List Transaction :=
  [demoSigned demoNow "Genesis_User" "Bob" 10 "kG",
   demoSigned demoNow "Genesis_User" "Carol" 5000 "kG"]

/-- Unsigned transfer from `Alice` to `Bob` of 12. -/
def demoToBob : Transaction := Transaction.new demoEnv demoNow "Alice" "Bob" 12 ""

/-- Metadata of 513 characters. -/
def demoLongMetadata : String := String.mk (List.replicate 513 'm')

/-- Ledger with the balances `Alice: 100`, `Genesis_User: 1000` on the fresh chain. -/
def demoFunded : Blockchain :=
  { chain := demoFresh.chain, balances := demoFresh.balances.insert "Alice" 100 }

/-- The signed transfer `Genesis_User -> Alice` of 250. -/
def demoTransfer250 : Transaction := demoSigned demoNow "Genesis_User" "Alice" 250 "kG"

/-- The ledger `demoFunded` after the block holding `demoTransfer250`. -/
def demoAfterTransfer : Blockchain :=
  ((Blockchain.addBlock demoEnv 1 demoNow demoFunded [demoTransfer250] demoKeys).state?).getD
    demoFunded

/-- The signed transfer `Genesis_User -> Alice` of 100. -/
def demoGenesisToAlice : Transaction := demoSigned demoNow "Genesis_User" "Alice" 100 "kG"

/-- The signed transfer `Alice -> Bob` of 100. -/
def demoAliceToBob : Transaction := demoSigned demoNow "Alice" "Bob" 100 "kA"

/-- The fresh ledger after registering `Alice` and appending `demoTransfer250`. -/
def demoReached : Blockchain :=
  ((Blockchain.addBlock demoEnv 1 demoNow (demoFresh.addUser "Alice") [demoTransfer250]
    demoKeys).state?).getD demoFresh

/-- The genesis block of the fresh ledger. -/
def demoGenesisBlock : Block :=
  (demoFresh.chain.getLast?).getD
    { index := 0, timestamp := "", transactions := [], previousHash := "", hash := "",
      nonce := 0, balanceSnapshot := StdMap.empty, difficulty := 0 }

/-- The checks of `isChainValid` on the header of a block: proof of work, hash, and link to
the block before it. -/
def headerOk (env : Env) (prev : Option Block) (current : Block) : Bool :=
  Block.meetsTarget current.hash current.difficulty
    && decide (current.hash = current.calculateBlockHash env)
    && (match prev with
      | some p => decide (current.previousHash = p.hash)
      | none => true)

/-- Balances from which `isChainValid` replays a block, given the map carried by the loop. -/
def seedOr (prev : Option Block) (tempBalances : StdMap ℚ) : StdMap ℚ :=
  match prev with
  | some p => p.balanceSnapshot
  | none => tempBalances

/-- Net change that replaying `tx` makes to the balance read for `k`. -/
def netEffect (tx : Transaction) (k : String) : ℚ :=
  (if k = tx.receiver then tx.amount else 0)
    - (if tx.sender = "System" then 0 else if k = tx.sender then tx.amount else 0)

/-- The block before the one that follows the blocks `pre`, when the block before `pre` is
`prev`. -/
def lastOr : Option Block → List Block → Option Block
  | prev, [] => prev
  | _, b :: rest => lastOr (some b) rest

/-- Every signature that `isChainValid` passes to `verifySignature` is made of pieces that
`std::stoi` accepts. -/
def signaturesDecodable (publicKeys : StdMap String) (txs : List Transaction) : Prop :=
  ∀ tx ∈ txs, tx.sender ≠ "System" → ∀ key, publicKeys.find? tx.sender = some key →
    ∃ bytes, CryptoUtils.hexToBytes tx.signature.toList = .ok bytes

/-- Every block has a hash of at least 56 characters and decodable signatures, so that
`isChainValid` raises nothing. -/
def blocksReadable (publicKeys : StdMap String) (blocks : List Block) : Prop :=
  ∀ b ∈ blocks, 56 ≤ b.hash.length ∧ signaturesDecodable publicKeys b.transactions

/-- The signed self-transfer `Genesis_User -> Genesis_User` of 1. -/
def demoSelfTransfer : Transaction :=
  demoSigned demoNow "Genesis_User" "Genesis_User" 1 "kG"

/-- The fresh ledger after appending `demoSelfTransfer`. -/
def demoSelf : Blockchain :=
  ((Blockchain.addBlock demoEnv 1 demoNow demoFresh [demoSelfTransfer] demoKeys).state?).getD
    demoFresh

/-- The block of `demoSelf` that holds the self-transfer. -/
def demoSelfBlock : Block := (demoSelf.chain.getLast?).getD demoGenesisBlock

/-- The ledger `demoSelf` in which the stored amount 1 of the self-transfer has been replaced
by `1 + 2^-24` (about 1.00000006, a value a `double` holds exactly), everything else as
stored. -/
def demoSelfTampered : Blockchain :=
  { chain :=
      [demoGenesisBlock,
       { demoSelfBlock with
         transactions := [{ demoSelfTransfer with amount := 1 + 1 / 16777216 }] }]
    balances := demoSelf.balances }

/-- The block of `demoReached` that holds the transfer of 250. -/
def demoReachedBlock : Block := (demoReached.chain.getLast?).getD demoGenesisBlock

/-- The live balances map that the loop of `addBlock` leaves behind. -/
def LoopExit.live : LoopExit → StdMap ℚ
  | .finished balances _ => balances
  | .returned balances => balances
  | .thrown balances _ => balances

/-- The system transaction `System -> Alice` of 100. -/
def demoSystemToAlice : Transaction := Transaction.new demoEnv demoNow "System" "Alice" 100 ""

/-- The fresh ledger after registering `Alice` and appending `demoSystemToAlice` with a key
map that has an entry for `System`. -/
def demoSystemPaid : Blockchain :=
  ((Blockchain.addBlock demoEnv 1 demoNow (demoFresh.addUser "Alice") [demoSystemToAlice]
    demoKeysSystem).state?).getD demoFresh

/-! ## Definitions for signing and verification -/

/-- A call of the method `signTransaction` on a transaction object: the object after the call
and the message of the exception, if one was thrown. Both `throw` statements come before the
assignment to `signature`, so a throwing call leaves the object as it was. -/
def Transaction.signCall (env : Env) (tx : Transaction) (privateKeyPEM : String) :
    Transaction × Option String :=
  match tx.signTransaction env privateKeyPEM with
  | .ok signed => (signed, none)
  | .error what => (tx, some what)

/-- The object after calls of `signTransaction` with the given keys, one after the other. -/
def Transaction.signCalls (env : Env) (tx : Transaction) (keys : List String) : Transaction :=
  keys.foldl (fun t key => (t.signCall env key).1) tx

/-- Signing payload in the words of the specification: the six parts, joined in the order
`tx_id ‖ sender ‖ receiver ‖ to_string(amount) ‖ timestamp ‖ metadata`. -/
def signing_payload (tx : Transaction) : String :=
  String.join [tx.txId, tx.sender, tx.receiver, to_string tx.amount, tx.timestamp, tx.metadata]

/-- The environment `demoEnv` in which the empty string is not a private key: parsing it
fails, so the signing primitive fails. -/
def demoEnvStrict : Env :=
  { demoEnv with
    evpSign := fun data key => if key = "" then none else some (demoSignature data key) }

/-- The system transaction `System -> Alice` of 0. -/
def demoSystemZero : Transaction := Transaction.new demoEnv demoNow "System" "Alice" 0 ""

/-- The transfer `Genesis_User -> Carol` of 0; it cannot be signed. -/
def demoZeroToCarol : Transaction := Transaction.new demoEnv demoNow "Genesis_User" "Carol" 0 ""

/-- Batch of the signed transfer `Genesis_User -> Bob` of 10 and the unsigned transfer
`Genesis_User -> Carol` of 0. -/
def demoBatchZero : List Transaction :=
  [demoSigned demoNow "Genesis_User" "Bob" 10 "kG", demoZeroToCarol]

/-- The fresh ledger after registering `Alice` and appending `demoSystemZero` with a key map
that has an entry for `System`. -/
def demoZeroPaid : Blockchain :=
  ((Blockchain.addBlock demoEnv 1 demoNow (demoFresh.addUser "Alice") [demoSystemZero]
    demoKeysSystem).state?).getD demoFresh

/-- ASCII letters, ASCII digits and the underscore, by character code. -/
def isAsciiWordChar (c : Char) : Prop :=
  (97 ≤ c.toNat ∧ c.toNat ≤ 122) ∨ (65 ≤ c.toNat ∧ c.toNat ≤ 90)
    ∨ (48 ≤ c.toNat ∧ c.toNat ≤ 57) ∨ c.toNat = 95

/-- Address rule in the words of the specification: between 3 and 20 characters, each an ASCII
letter, an ASCII digit or the underscore. -/
def is_valid (s : String) : Prop :=
  3 ≤ s.length ∧ s.length ≤ 20 ∧ ∀ c ∈ s.toList, isAsciiWordChar c

/-- A stand-in hash whose digests begin with `f`: 64 times `f`, followed by the input. -/
def demoHashF (s : String) : String := String.mk (List.replicate 64 'f') ++ s

/-- An environment in which `std::thread::hardware_concurrency()` returns 0 and digests begin
with `f`. -/
def demoEnvNoWorker : Env :=
  { demoEnv with calculateHash := demoHashF, hardwareConcurrency := 0 }

/-- The ledger constructed in the environment `demoEnvNoWorker`. -/
def demoUnmined : Blockchain :=
  (Blockchain.new demoEnvNoWorker 1 demoNow demoNow).getD ⟨[], StdMap.empty⟩

/-- Link of a block `b` to the block `a` before it: previous hash, index and difficulty. -/
def blockLinked (a b : Block) : Prop :=
  b.previousHash = a.hash ∧ b.index = a.index + 1 ∧ b.difficulty = a.difficulty

/-- Every block after the first is linked to the block before it. -/
def chainLinked : List Block → Prop
  | [] => True
  | [_] => True
  | a :: b :: rest => blockLinked a b ∧ chainLinked (b :: rest)

/-- First stage of the filter of `isChainValid`: keep the users whose balance is non-zero or
who are sender or receiver of some transaction of the block. -/
def filterStageOne (transactions : List Transaction) (tempBalances : StdMap ℚ) : StdMap ℚ :=
  tempBalances.filter (fun user balance => balance != 0 || isInvolved transactions user)

/-- Second stage of the filter of `isChainValid`: erase the users whose balance is zero and who
are in no transaction of the block. -/
def filterStageTwo (transactions : List Transaction) (filteredTemp : StdMap ℚ) : StdMap ℚ :=
  filteredTemp.filter (fun user balance => !(balance == 0 && !isInvolved transactions user))

/-- The block loop of `isChainValid` with the assignment `tempBalances = filteredTemp` at the
end of each iteration removed: the next iteration finds in `tempBalances` the balances that the
transaction loop left there. -/
def Blockchain.validateBlocksUnpropagated (env : Env) (publicKeys : StdMap String) :
    Option Block → StdMap ℚ → Bool → List Block → Except String Bool
  | _, _, isValid, [] => .ok isValid
  | prev, tempBalances, isValid, current :: rest =>
    if current.hash.length < 56 then .error "std::out_of_range"
    else
      let t0 := match prev with
        | some p => p.balanceSnapshot
        | none => tempBalances
      let v1 := isValid && Block.meetsTarget current.hash current.difficulty
      let v2 := v1 && decide (current.hash = current.calculateBlockHash env)
      let v3 := match prev with
        | some p => v2 && decide (current.previousHash = p.hash)
        | none => v2
      match Blockchain.validateTransactions env publicKeys current.transactions t0 v3 with
      | .error e => .error e
      | .ok (t1, v4) =>
        let filtered := Blockchain.filteredTemp current.transactions t1
        let v5 := v4 && decide (current.balanceSnapshot = filtered)
        Blockchain.validateBlocksUnpropagated env publicKeys (some current) t1 v5 rest

/-- The check of one block, in the words of the claim: it reads the block, the hash and the
snapshot of the block before it (nothing for the first block) and the public keys. An `error`
is an exception raised while checking. -/
def blockVerdict (env : Env) (publicKeys : StdMap String) (before : Option (String × StdMap ℚ))
    (current : Block) : Except String Bool :=
  if current.hash.length < 56 then .error "std::out_of_range"
  else
    let seed := match before with
      | some p => p.2
      | none => StdMap.empty
    let header :=
      Block.meetsTarget current.hash current.difficulty
        && decide (current.hash = current.calculateBlockHash env)
        && (match before with
          | some p => decide (current.previousHash = p.1)
          | none => true)
    match Blockchain.validateTransactions env publicKeys current.transactions seed true with
    | .error e => .error e
    | .ok (t1, v) =>
      .ok (header && v
        && decide (current.balanceSnapshot = Blockchain.filteredTemp current.transactions t1))

/-- The verdicts of the blocks of a chain, in chain order; `prev` is the block before the
first one of the list, if any. -/
def blockVerdicts (env : Env) (publicKeys : StdMap String) :
    Option Block → List Block → List (Except String Bool)
  | _, [] => []
  | prev, current :: rest =>
    blockVerdict env publicKeys (prev.map (fun p => (p.hash, p.balanceSnapshot))) current
      :: blockVerdicts env publicKeys (some current) rest

/-- Conjunction of verdicts taken in order; the first exception ends the run. -/
def conjVerdicts : List (Except String Bool) → Except String Bool
  | [] => .ok true
  | .error e :: _ => .error e
  | .ok v :: rest =>
    match conjVerdicts rest with
    | .error e => .error e
    | .ok w => .ok (v && w)

/-- Method `isChainValid` with the block loop `validateBlocksUnpropagated`. -/
def Blockchain.isChainValidUnpropagated (env : Env) (s : Blockchain)
    (publicKeys : StdMap String) : Except String Bool :=
  Blockchain.validateBlocksUnpropagated env publicKeys none StdMap.empty true s.chain

/-- Every entry of a balance map other than the entry of `System` is at least 0. -/
def nonNegative (m : StdMap ℚ) : Prop :=
  ∀ k v, k ≠ "System" → m.find? k = some v → 0 ≤ v

/-! ## The worker pool of mineBlock -/

/-- Program points of `mining_task`, the body that every worker of `mineBlock` runs. -/
inductive WorkerPoint where
  /-- At the loop test `!found.load(...)`. -/
  | loopTest
  /-- At `atomicNonce.fetch_add(1)`; the hash of the candidate is computed and tested next. -/
  | fetchNonce
  /-- At the assignment `nonce = currentNonce`. -/
  | writeNonce (currentNonce : Int) (currentHash : String)
  /-- At the assignment `hash = currentHash`. -/
  | writeHash (currentHash : String)
  /-- At `found.store(true)`. -/
  | storeFound
  /-- The task has returned. -/
  | finished
deriving DecidableEq

/-- What the workers of one call of `mineBlock` share: the two atomics and the block they
write to, together with the program point of every worker. -/
structure MinerState where
  found : Bool
  atomicNonce : Int
  block : Block
  workers : List WorkerPoint
deriving DecidableEq

namespace MinerState

/-- One step of worker `i` of `mining_task`; every access to shared data is one step. A worker
that has returned, or an index without a worker, changes nothing. -/
def step (env : Env) (mine_difficulty : Nat) (st : MinerState) (i : Nat) : MinerState :=
  match st.workers[i]? with
  | none => st
  | some .loopTest =>
    { st with workers := st.workers.set i (if st.found then .finished else .fetchNonce) }
  | some .fetchNonce =>
    let currentNonce := st.atomicNonce
    let currentHash := st.block.calculateBlockHashWithNonce env currentNonce
    { st with
      atomicNonce := wrapInt32 (st.atomicNonce + 1)
      workers := st.workers.set i
        (if Block.meetsTarget currentHash mine_difficulty then
          .writeNonce currentNonce currentHash
        else .loopTest) }
  | some (.writeNonce currentNonce currentHash) =>
    { st with
      block := { st.block with nonce := currentNonce }
      workers := st.workers.set i (.writeHash currentHash) }
  | some (.writeHash currentHash) =>
    { st with
      block := { st.block with hash := currentHash }
      workers := st.workers.set i .storeFound }
  | some .storeFound => { st with found := true, workers := st.workers.set i .finished }
  | some .finished => st

/-- The steps of a schedule, one after the other; a schedule names the worker of each step. -/
def run (env : Env) (mine_difficulty : Nat) (st : MinerState) (schedule : List Nat) :
    MinerState :=
  schedule.foldl (step env mine_difficulty) st

/-- Every worker has returned, so that every `join` returns. -/
def joined (st : MinerState) : Bool := st.workers.all (fun w => w == .finished)

end MinerState

/-- State of `mineBlock` when the workers are started. -/
def Block.mineStart (b : Block) (numThreads : Nat) : MinerState :=
  { found := false, atomicNonce := 0, block := b,
    workers := List.replicate numThreads .loopTest }

/-- Method `mineBlock` under a schedule of its workers: the state after the steps of the
schedule; the block of a state in which every worker has returned is the mined block. -/
def Block.mineBlockUnder (env : Env) (b : Block) (mine_difficulty : Nat)
    (schedule : List Nat) : MinerState :=
  MinerState.run env mine_difficulty (b.mineStart env.hardwareConcurrency) schedule

/-- The states that the only worker of a pool of one goes through at difficulty 0. -/
def singleWorkerStage (env : Env) (b : Block) : Nat → MinerState
  | 0 => { found := false, atomicNonce := 0, block := b, workers := [.loopTest] }
  | 1 => { found := false, atomicNonce := 0, block := b, workers := [.fetchNonce] }
  | 2 =>
    { found := false, atomicNonce := 1, block := b,
      workers := [.writeNonce 0 (b.calculateBlockHashWithNonce env 0)] }
  | 3 =>
    { found := false, atomicNonce := 1, block := { b with nonce := 0 },
      workers := [.writeHash (b.calculateBlockHashWithNonce env 0)] }
  | 4 =>
    { found := false, atomicNonce := 1,
      block := { b with nonce := 0, hash := b.calculateBlockHashWithNonce env 0 },
      workers := [.storeFound] }
  | _ =>
    { found := true, atomicNonce := 1,
      block := { b with nonce := 0, hash := b.calculateBlockHashWithNonce env 0 },
      workers := [.finished] }

/-- The environment `demoEnv` with two mining workers. -/
def demoEnvTwoWorkers : Env := { demoEnv with hardwareConcurrency := 2 }

/-- A block as the constructor leaves it before mining. -/
def demoCandidate : Block :=
  { index := 1, timestamp := demoNow, transactions := [], previousHash := "0",
    hash := Block.calculateBlockHashWithNonce demoEnv
      { index := 1, timestamp := demoNow, transactions := [], previousHash := "0", hash := "",
        nonce := 0, balanceSnapshot := StdMap.empty, difficulty := 4 } 0,
    nonce := 0, balanceSnapshot := StdMap.empty, difficulty := 4 }

/-- A schedule of two workers in which both find a hash and their writes interleave. -/
def demoRaceSchedule : List Nat := [0, 0, 1, 1, 0, 1, 1, 0, 0, 1]

/-- A schedule of two workers in which both find a hash and the second one writes last. -/
def demoLateSchedule : List Nat := [0, 0, 1, 1, 0, 0, 0, 1, 1, 1]

/-! ## PersistenceManager and the save action -/

/-- External collaborators of `encryptString`: the OpenSSL cipher `EVP_aes_256_cbc()` and the
random generator. Strings of bytes are lists of byte values. -/
structure CipherEnv where
  /-- Call `EVP_CIPHER_CTX_new()` returns a context. -/
  ctxNew : Bool
  /-- Value of `EVP_CIPHER_iv_length(cipher)`. -/
  ivLength : Nat
  /-- Value of `EVP_CIPHER_block_size(cipher)`. -/
  blockSize : Nat
  /-- Number of bytes that `EVP_EncryptInit_ex` reads at the key pointer. -/
  keyLength : Nat
  /-- Content of the buffer `iv` after `RAND_bytes(iv, n)`; the code does not look at the
  return value of the call. -/
  randBytes : Nat → List Nat
  /-- Success of `EVP_EncryptInit_ex` for the key bytes and the IV. -/
  encryptInit : List Nat → List Nat → Bool
  /-- Output of `EVP_EncryptUpdate` for key bytes, IV and input; `none` when the call fails. -/
  encryptUpdate : List Nat → List Nat → List Nat → Option (List Nat)
  /-- Output of `EVP_EncryptFinal_ex` after that update; `none` when the call fails. -/
  encryptFinal : List Nat → List Nat → List Nat → Option (List Nat)

/-- The bytes read at `key.data()` when `n` bytes are read: the characters of a `std::string`
are followed by one zero byte; `none` when the read goes past it. -/
def keyBytesRead (key : List Nat) (n : Nat) : Option (List Nat) :=
  if n ≤ key.length + 1 then some ((key ++ [0]).take n) else none

namespace PersistenceManager

/-- Method `encryptString`. The length of the plaintext goes through `static_cast<int>`; an
`error` is an exception, or behaviour that the language leaves undefined. -/
def encryptString (cenv : CipherEnv) (plaintext key : List Nat) : Except String (List Nat) :=
  if !cenv.ctxNew then .error "Failed to create encryption context"
  else
    let iv := cenv.randBytes cenv.ivLength
    let inl := wrapInt32 plaintext.length
    let ciphertext_len := inl + cenv.blockSize
    if ciphertext_len > 2147483647 then .error "undefined: signed overflow"
    else if ciphertext_len < 0 then .error "std::length_error"
    else
      match keyBytesRead key cenv.keyLength with
      | none => .error "undefined: read past the end of the key"
      | some keyBytes =>
        if !cenv.encryptInit keyBytes iv then .error "Encryption initialization failed"
        else if inl < 0 then .error "Encryption update failed"
        else
          match cenv.encryptUpdate keyBytes iv (plaintext.take inl.toNat) with
          | none => .error "Encryption update failed"
          | some updated =>
            match cenv.encryptFinal keyBytes iv (plaintext.take inl.toNat) with
            | none => .error "Encryption finalization failed"
            | some final => .ok (iv.take cenv.ivLength ++ (updated ++ final))

end PersistenceManager

/-- Bytes of a string of ASCII characters. -/
def stringBytes (s : String) : List Nat := s.toList.map Char.toNat

namespace BlockchainController

/-- Method `saveBlockchainToFile` up to the write to the file: `blockchainData` stands for
`save_blockchain.serialize()`, the result is `encryptedData`. -/
def saveBlockchainToFile (cenv : CipherEnv) (blockchainData : List Nat) (key : String) :
    Except String (List Nat) :=
  PersistenceManager.encryptString cenv blockchainData (stringBytes key)

/-- Method `saveBlockchain`. -/
def saveBlockchain (cenv : CipherEnv) (blockchainData : List Nat) (key : String) :
    Except String (List Nat) :=
  saveBlockchainToFile cenv blockchainData key

end BlockchainController

/-- The literal `encryptionKey` in case 6 of `main`. -/
def main.encryptionKey : String := "mysecretkeymysecretkeymysecretkey!!"

/-- Case 6 of `main`: the call `controller.saveBlockchain(filename, encryptionKey)`. -/
def main.saveAction (cenv : CipherEnv) (blockchainData : List Nat) : Except String (List Nat) :=
  BlockchainController.saveBlockchain cenv blockchainData main.encryptionKey

/-- A stand-in cipher with the sizes of AES-256-CBC: the update call returns the full blocks,
the final call the padded last block; every byte is increased by one. The random generator
returns sevens. -/
def demoCipher : CipherEnv where
  ctxNew := true
  ivLength := 16
  blockSize := 16
  keyLength := 32
  randBytes := fun n => List.replicate n 7
  encryptInit := fun keyBytes _ => keyBytes.length == 32
  encryptUpdate := fun _ _ input =>
    some ((input.take (input.length / 16 * 16)).map (fun x => (x + 1) % 256))
  encryptFinal := fun _ _ input =>
    some ((input.drop (input.length / 16 * 16)
      ++ List.replicate (16 - input.length % 16) (16 - input.length % 16)).map
        (fun x => (x + 1) % 256))

/-- A key of 32 bytes. -/
def demoKey32 : List Nat := List.replicate 32 107

/-- A plaintext of `2^32 + 5` zero bytes. -/
def demoHugePlaintext : List Nat := List.replicate 4294967301 0

/-- The string that `calculateBlockHashWithNonce` hashes. -/
def Block.hashInput (b : Block) (testNonce : Int) : String :=
  toString b.index ++ b.timestamp ++ b.previousHash ++ toString testNonce
    ++ String.join (b.transactions.map Transaction.toString)

/-- The hash oracle does not collide on two given strings. -/
def noCollision (env : Env) (x y : String) : Prop :=
  env.calculateHash x = env.calculateHash y → x = y

/-- The block of `demoReached` with the signature of its transfer replaced by `zz`. -/
def demoBadSignatureBlock : Block :=
  { demoReachedBlock with transactions := [{ demoTransfer250 with signature := "zz" }] }

/-- A third block without transactions whose hash and snapshot are in order and whose previous
hash is not the hash of any block. -/
def demoBrokenLinkBlock : Block :=
  { index := 2, timestamp := demoNow, transactions := [], previousHash := "broken",
    hash := Block.calculateBlockHashWithNonce demoEnv
      { index := 2, timestamp := demoNow, transactions := [], previousHash := "broken",
        hash := "", nonce := 0, balanceSnapshot := StdMap.empty, difficulty := 4 } 0,
    nonce := 0, balanceSnapshot := demoReachedBlock.balanceSnapshot, difficulty := 4 }

/-- The chain of `demoReached` followed by the block with the broken link. -/
def demoUnlinked : Blockchain :=
  { chain := [demoGenesisBlock, demoReachedBlock, demoBrokenLinkBlock],
    balances := demoReached.balances }

/-- The chain `demoUnlinked` with the signature in its second block replaced by `zz`. -/
def demoRaising : Blockchain :=
  { chain := [demoGenesisBlock, demoBadSignatureBlock, demoBrokenLinkBlock],
    balances := demoReached.balances }

/-- The chain of `demoReached` with the hash of its second block cut to eight characters. -/
def demoShortHash : Blockchain :=
  { chain := [demoGenesisBlock, { demoReachedBlock with hash := "00000000" }],
    balances := demoReached.balances }

/-! ## Facts about the map model -/

theorem lookupEntry_insertEntry {β : Type} (k : String) (v : β) (j : String) :
    ∀ m : List (String × β),
      lookupEntry j (insertEntry k v m) = if j = k then some v else lookupEntry j m
  | [] => by simp [insertEntry, lookupEntry]
  | (k1, v1) :: m => by
    unfold insertEntry
    by_cases e : k = k1
    · subst e
      by_cases ej : j = k <;> simp [lookupEntry, ej]
    · by_cases l : keyLt k k1
      · simp [e, l, lookupEntry]
      · have ih := lookupEntry_insertEntry k v j m
        by_cases ej : j = k
        · subst ej
          simp [e, l, lookupEntry, ih]
        · by_cases ej1 : j = k1
          · subst ej1
            simp [e, l, lookupEntry, ej]
          · simp [e, l, lookupEntry, ih, ej, ej1]

theorem lookupEntry_mem {β : Type} {k : String} {v : β} :
    ∀ {m : List (String × β)}, lookupEntry k m = some v → (k, v) ∈ m
  | [], h => by simp [lookupEntry] at h
  | (k1, v1) :: m, h => by
    unfold lookupEntry at h
    by_cases e : k = k1
    · simp only [e, if_true, Option.some.injEq] at h
      subst e
      subst h
      exact List.mem_cons_self _ _
    · simp only [e, if_false] at h
      exact List.mem_cons_of_mem _ (lookupEntry_mem h)

theorem lookupEntry_none_of_lt {β : Type} {k : String} :
    ∀ {m : List (String × β)}, (∀ x ∈ m, keyLt k x.1) → lookupEntry k m = none
  | [], _ => rfl
  | (k1, v1) :: m, h => by
    have h1 : keyLt k k1 := h (k1, v1) (List.mem_cons_self _ _)
    have ne : k ≠ k1 := keyLt_ne h1
    simp only [lookupEntry, ne, if_false]
    exact lookupEntry_none_of_lt (fun x hx => h x (List.mem_cons_of_mem _ hx))

theorem lookupEntry_tail_none {β : Type} {k1 : String} {v1 : β} {m : List (String × β)}
    (h : KeysSorted ((k1, v1) :: m)) : lookupEntry k1 m = none :=
  lookupEntry_none_of_lt (fun x hx => (List.pairwise_cons.mp h).1 x hx)

theorem lookupEntry_filter {β : Type} (q : String × β → Bool) (k : String) :
    ∀ m : List (String × β), KeysSorted m →
      lookupEntry k (m.filter q) = (lookupEntry k m).filter (fun v => q (k, v))
  | [], _ => rfl
  | (k1, v1) :: m, h => by
    have hs := (List.pairwise_cons.mp h).2
    have ih := lookupEntry_filter q k m hs
    by_cases e : k = k1
    · subst e
      have hn : lookupEntry k m = none := lookupEntry_tail_none h
      rw [hn] at ih
      by_cases hq : q (k, v1) = true
      · simp [List.filter, hq, lookupEntry, Option.filter]
      · simp only [Bool.not_eq_true] at hq
        simp [List.filter, hq, lookupEntry, Option.filter, ih]
    · by_cases hq : q (k1, v1) = true
      · simp [List.filter, hq, lookupEntry, e, ih]
      · simp only [Bool.not_eq_true] at hq
        simp [List.filter, hq, lookupEntry, e, ih]

theorem entries_ext {β : Type} :
    ∀ (a b : List (String × β)), KeysSorted a → KeysSorted b →
      (∀ k, lookupEntry k a = lookupEntry k b) → a = b
  | [], [], _, _, _ => rfl
  | [], (k2, v2) :: b, _, _, h => by
    have := h k2
    simp [lookupEntry] at this
  | (k1, v1) :: a, [], _, _, h => by
    have := h k1
    simp [lookupEntry] at this
  | (k1, v1) :: a, (k2, v2) :: b, ha, hb, h => by
    have hk : k1 = k2 := by
      by_contra ne
      have h1 := h k1
      simp only [lookupEntry, if_true, ne, if_false] at h1
      have m1 := lookupEntry_mem h1.symm
      have l1 : keyLt k2 k1 := (List.pairwise_cons.mp hb).1 _ m1
      have h2 := h k2
      have ne2 : k2 ≠ k1 := fun e => ne e.symm
      simp only [lookupEntry, if_true, ne2, if_false] at h2
      have m2 := lookupEntry_mem h2
      have l2 : keyLt k1 k2 := (List.pairwise_cons.mp ha).1 _ m2
      exact keyLt_irrefl _ (keyLt_trans l1 l2)
    subst hk
    have hv : v1 = v2 := by
      have h1 := h k1
      simpa [lookupEntry] using h1
    subst hv
    have ht : a = b := by
      apply entries_ext a b (List.pairwise_cons.mp ha).2 (List.pairwise_cons.mp hb).2
      intro k
      by_cases e : k = k1
      · subst e
        rw [lookupEntry_tail_none ha, lookupEntry_tail_none hb]
      · have h1 := h k
        simpa [lookupEntry, e] using h1
    rw [ht]

namespace StdMap

variable {β : Type}

theorem find?_insert (m : StdMap β) (k : String) (v : β) (j : String) :
    (m.insert k v).find? j = if j = k then some v else m.find? j :=
  lookupEntry_insertEntry k v j m.entries

theorem find?_filter (p : String → β → Bool) (m : StdMap β) (k : String) :
    (m.filter p).find? k = (m.find? k).filter (p k) :=
  lookupEntry_filter (fun kv => p kv.1 kv.2) k m.entries m.sorted

theorem find?_empty (k : String) : (StdMap.empty : StdMap β).find? k = none := rfl

theorem ext_find? {a b : StdMap β} (h : ∀ k, a.find? k = b.find? k) : a = b :=
  ext_entries (entries_ext a.entries b.entries a.sorted b.sorted h)

end StdMap

/-! ## Transactions: construction, signing payload, validation -/

theorem string_append_inj {a b c d : String} (h : a ++ b = c ++ d) (hl : a.length = c.length) :
    a = c ∧ b = d := by
  have h1 : a.data ++ b.data = c.data ++ d.data := by
    have h0 := congrArg String.data h
    rw [String.data_append, String.data_append] at h0
    exact h0
  have h2 := List.append_inj h1 hl
  exact ⟨String.ext h2.1, String.ext h2.2⟩

theorem isTransactionValid_ok_true (env : Env) (tx : Transaction) (publicKeyPEM : String)
    (tempBalances : StdMap ℚ) :
    Blockchain.isTransactionValid env tx publicKeyPEM tempBalances = .ok true ↔
      tx.sender = "System" ∨
        (tx.signature ≠ ""
          ∧ (∃ balance, tempBalances.find? tx.sender = some balance ∧ tx.amount ≤ balance)
          ∧ 0 ≤ tx.amount
          ∧ tx.receiver ≠ ""
          ∧ CryptoUtils.verifySignature env
              (tx.txId ++ tx.sender ++ tx.receiver ++ to_string tx.amount ++ tx.timestamp
                ++ tx.metadata)
              tx.signature publicKeyPEM = .ok true) := by
  unfold Blockchain.isTransactionValid
  by_cases hs : tx.sender = "System"
  · simp [hs]
  · by_cases hsig : tx.signature = ""
    · simp [hs, hsig]
    · cases hf : tempBalances.find? tx.sender with
      | none => simp [hs, hsig, StdMap.contains, hf]
      | some bal =>
        by_cases hb : bal < tx.amount
        · simp [hs, hsig, StdMap.contains, StdMap.at0, hf, hb]
        · by_cases hn : tx.amount < 0
          · simp [hs, hsig, StdMap.contains, StdMap.at0, hf, hb, hn]
          · by_cases hr : tx.receiver = ""
            · simp [hs, hsig, StdMap.contains, StdMap.at0, hf, hb, hn, hr]
            · have hb1 : tx.amount ≤ bal := not_lt.mp hb
              have hn1 : 0 ≤ tx.amount := not_lt.mp hn
              simp only [hs, hsig, StdMap.contains, StdMap.at0, hf, hb, hn, hr, if_false]
              cases hv : CryptoUtils.verifySignature env
                  (tx.txId ++ tx.sender ++ tx.receiver ++ to_string tx.amount ++ tx.timestamp
                    ++ tx.metadata) tx.signature publicKeyPEM with
              | error e => simp [hb, hn1]
              | ok r => cases r <;> simp [hb, hb1, hn1, hsig, hr]

/-- Claim C6: transaction validation returns true exactly when the sender is `System`, or the
signature is non-empty, the working balances hold an entry for the sender of at least the
amount, the amount is not negative, the receiver is non-empty and the signature verifies over
`tx_id ‖ sender ‖ receiver ‖ decimal(amount) ‖ timestamp ‖ metadata`; whether the receiver is
a valid address plays no part in the result. -/
theorem isTransactionValid_true_iff (env : Env) (tx : Transaction) (publicKeyPEM : String)
    (tempBalances : StdMap ℚ) :
    Blockchain.isTransactionValid env tx publicKeyPEM tempBalances = .ok true ↔
      tx.sender = "System" ∨
        (tx.signature ≠ ""
          ∧ (∃ balance, tempBalances.find? tx.sender = some balance ∧ tx.amount ≤ balance)
          ∧ 0 ≤ tx.amount
          ∧ tx.receiver ≠ ""
          ∧ CryptoUtils.verifySignature env
              (tx.txId ++ tx.sender ++ tx.receiver ++ to_string tx.amount ++ tx.timestamp
                ++ tx.metadata)
              tx.signature publicKeyPEM = .ok true) :=
  isTransactionValid_ok_true env tx publicKeyPEM tempBalances

/-- Claim C10, evaluated at a metadata string of 513 characters: the constructor stores its
metadata argument as it is, so the stored metadata has length 513, above the bound of 512 that
the class documentation states. -/
theorem c10_metadata_not_truncated :
    (Transaction.new demoEnv demoNow "Alice" "Bob" 1 demoLongMetadata).metadata.length = 513 := by
  show (List.replicate 513 'm').length = 513
  exact List.length_replicate 513 'm'

set_option maxRecDepth 100000 in
unseal Rat.add Rat.sub Rat.mul Rat.inv in
/-- Claim C1, evaluated at a failing batch: on a fresh ledger where `Bob` is not registered, the
signed batch `Genesis_User -> Bob 10`, `Genesis_User -> Carol 5000` is aborted at its second
transaction, the chain is unchanged, and the balances map has gained the entry `Bob: 0`. -/
theorem c1_abort_registers_receiver :
    demoFresh.balances.entries = [("Genesis_User", 1000)]
      ∧ Blockchain.addBlock demoEnv 1 demoNow demoFresh demoBatchOverdraw demoKeys
          = .aborted { chain := demoFresh.chain,
                       balances := demoFresh.balances.insert "Bob" 0 }
      ∧ (demoFresh.balances.insert "Bob" 0).entries = [("Bob", 0), ("Genesis_User", 1000)] := by
  decide

/-! ## Balances: values read and sums -/

namespace StdMap

theorem at0_insert (m : StdMap ℚ) (k : String) (v : ℚ) (j : String) :
    (m.insert k v).at0 j = if j = k then v else m.at0 j := by
  unfold at0
  rw [find?_insert]
  by_cases e : j = k <;> simp [e]

theorem contains_insert {β : Type} (m : StdMap β) (k : String) (v : β) (j : String) :
    (m.insert k v).contains j = (decide (j = k) || m.contains j) := by
  unfold contains
  rw [find?_insert]
  by_cases e : j = k <;> simp [e]

theorem at0_of_not_contains (m : StdMap ℚ) (k : String) (h : m.contains k = false) :
    m.at0 k = 0 := by
  unfold contains at h
  unfold at0
  cases hf : m.find? k with
  | none => rfl
  | some v => simp [hf] at h

theorem at0_filter (p : String → ℚ → Bool) (m : StdMap ℚ)
    (hp : ∀ k v, p k v = false → v = 0) (k : String) : (m.filter p).at0 k = m.at0 k := by
  unfold at0
  rw [find?_filter]
  cases hf : m.find? k with
  | none => rfl
  | some v =>
    by_cases h : p k v = true
    · simp [Option.filter, h]
    · simp only [Bool.not_eq_true] at h
      have hz := hp k v h
      subst hz
      simp [Option.filter, h]

end StdMap

theorem sum_insertEntry (k : String) (v : ℚ) :
    ∀ m : List (String × ℚ), KeysSorted m →
      ((insertEntry k v m).map Prod.snd).sum
        = (m.map Prod.snd).sum - (lookupEntry k m).getD 0 + v
  | [], _ => by simp [insertEntry, lookupEntry]
  | (k1, v1) :: m, h => by
    unfold insertEntry
    by_cases e : k = k1
    · subst e
      simp [lookupEntry]
      ring
    · by_cases l : keyLt k k1
      · have hn : lookupEntry k ((k1, v1) :: m) = none := by
          apply lookupEntry_none_of_lt
          intro x hx
          rcases List.mem_cons.mp hx with hx | hx
          · rw [hx]
            exact l
          · exact keyLt_trans l ((List.pairwise_cons.mp h).1 x hx)
        rw [hn]
        simp [e, l]
        ring
      · have ih := sum_insertEntry k v m (List.pairwise_cons.mp h).2
        simp [e, l, lookupEntry, ih]
        ring

theorem sum_filter_zero (q : String × ℚ → Bool) :
    ∀ m : List (String × ℚ), (∀ x ∈ m, q x = false → x.2 = 0) →
      ((m.filter q).map Prod.snd).sum = (m.map Prod.snd).sum
  | [], _ => rfl
  | x :: m, h => by
    have ih := sum_filter_zero q m (fun y hy => h y (List.mem_cons_of_mem _ hy))
    by_cases hq : q x = true
    · simp [List.filter, hq, ih]
    · simp only [Bool.not_eq_true] at hq
      have hz := h x (List.mem_cons_self _ _) hq
      simp [List.filter, hq, ih, hz]

namespace StdMap

theorem total_insert (m : StdMap ℚ) (k : String) (v : ℚ) :
    (m.insert k v).total = m.total - m.at0 k + v :=
  sum_insertEntry k v m.entries m.sorted

theorem total_filter (p : String → ℚ → Bool) (m : StdMap ℚ)
    (hp : ∀ k v, p k v = false → v = 0) : (m.filter p).total = m.total :=
  sum_filter_zero (fun kv => p kv.1 kv.2) m.entries (fun x _ hx => hp x.1 x.2 hx)

theorem total_insert_zero (m : StdMap ℚ) (k : String) (h : m.contains k = false) :
    (m.insert k 0).total = m.total := by
  rw [total_insert, at0_of_not_contains m k h]
  ring

end StdMap

theorem total_applyTransaction (working : StdMap ℚ) (tx : Transaction) :
    (applyTransaction working tx).total = working.total := by
  unfold applyTransaction
  simp only [StdMap.total_insert]
  ring

/-! ## The batch loop of addBlock -/

theorem addBlockLoop_finished (env : Env) (publicKeys : StdMap String) :
    ∀ (txs : List Transaction) (balances temp balances1 temp1 : StdMap ℚ),
      Blockchain.addBlockLoop env publicKeys txs balances temp = .finished balances1 temp1 →
        temp1 = applyBatch temp txs
          ∧ (∀ k, balances1.contains k
              = (balances.contains k || txs.any (fun tx => tx.receiver == k)))
          ∧ balances1.total = balances.total
          ∧ batchAccepted env publicKeys txs temp
  | [], balances, temp, balances1, temp1, h => by
    simp only [Blockchain.addBlockLoop, LoopExit.finished.injEq] at h
    obtain ⟨h1, h2⟩ := h
    subst h1
    subst h2
    simp [applyBatch, batchAccepted]
  | tx :: rest, balances, temp, balances1, temp1, h => by
    unfold Blockchain.addBlockLoop at h
    cases hk : publicKeys.find? tx.sender with
    | none => simp [hk] at h
    | some key =>
      simp only [hk] at h
      by_cases ha : Validator.isAddressFormatValid tx.receiver = true
      · simp only [ha, Bool.not_true, Bool.false_eq_true, if_false] at h
        cases hv : Blockchain.isTransactionValid env tx key temp with
        | error e => simp [hv] at h
        | ok r =>
          cases r with
          | false => simp [hv] at h
          | true =>
            simp only [hv] at h
            have ih := addBlockLoop_finished env publicKeys rest _ _ balances1 temp1 h
            obtain ⟨i1, i2, i3, i4⟩ := ih
            refine ⟨?_, ?_, ?_, ?_⟩
            · rw [i1]
              rfl
            · intro k
              rw [i2 k]
              by_cases hc : balances.contains tx.receiver = true
              · simp only [hc, Bool.not_true, Bool.false_eq_true, if_false, List.any_cons]
                by_cases ek : tx.receiver = k
                · subst ek
                  simp [hc]
                · have ek1 : (tx.receiver == k) = false := by simpa using ek
                  rw [ek1, Bool.false_or]
              · simp only [Bool.not_eq_true] at hc
                simp only [hc, Bool.not_false, if_true, List.any_cons,
                  StdMap.contains_insert]
                by_cases ek : k = tx.receiver
                · subst ek
                  simp
                · have ek1 : (tx.receiver == k) = false := by
                    simpa using (fun e : tx.receiver = k => ek e.symm)
                  rw [ek1, Bool.false_or]
                  simp [ek]
            · rw [i3]
              by_cases hc : balances.contains tx.receiver = true
              · simp [hc]
              · simp only [Bool.not_eq_true] at hc
                simp only [hc, Bool.not_false, if_true]
                exact StdMap.total_insert_zero _ _ hc
            · exact ⟨⟨key, hk, ha, hv⟩, i4⟩
      · simp [ha] at h

theorem addBlockLoop_not_finished (env : Env) (publicKeys : StdMap String) :
    ∀ (txs : List Transaction) (balances temp : StdMap ℚ),
      (∃ balances1, Blockchain.addBlockLoop env publicKeys txs balances temp
          = .finished balances1 (applyBatch temp txs))
        ∨ (¬ batchAccepted env publicKeys txs temp
            ∧ ∃ balances1, balances1.total = balances.total
                ∧ (Blockchain.addBlockLoop env publicKeys txs balances temp
                    = .returned balances1
                  ∨ ∃ e, Blockchain.addBlockLoop env publicKeys txs balances temp
                    = .thrown balances1 e))
  | [], balances, temp => Or.inl ⟨balances, rfl⟩
  | tx :: rest, balances, temp => by
    unfold Blockchain.addBlockLoop
    cases hk : publicKeys.find? tx.sender with
    | none =>
      right
      refine ⟨?_, balances, rfl, Or.inl rfl⟩
      intro hacc
      obtain ⟨⟨key, h1, -⟩, -⟩ := hacc
      rw [hk] at h1
      cases h1
    | some key =>
      by_cases ha : Validator.isAddressFormatValid tx.receiver = true
      · cases hv : Blockchain.isTransactionValid env tx key temp with
        | error e =>
          right
          refine ⟨?_, balances, rfl, Or.inr ⟨e, by simp [ha, hv]⟩⟩
          intro hacc
          obtain ⟨⟨key1, h1, -, h3⟩, -⟩ := hacc
          rw [hk] at h1
          cases h1
          rw [hv] at h3
          cases h3
        | ok r =>
          cases r with
          | false =>
            right
            refine ⟨?_, balances, rfl, Or.inl (by simp [ha, hv])⟩
            intro hacc
            obtain ⟨⟨key1, h1, -, h3⟩, -⟩ := hacc
            rw [hk] at h1
            cases h1
            rw [hv] at h3
            cases h3
          | true =>
            simp only [ha, hv, Bool.not_true, Bool.false_eq_true, if_false]
            have htot : (if (!balances.contains tx.receiver) = true
                then balances.insert tx.receiver 0 else balances).total = balances.total := by
              by_cases hc : balances.contains tx.receiver = true
              · simp [hc]
              · simp only [Bool.not_eq_true] at hc
                simp only [hc, Bool.not_false, if_true]
                exact StdMap.total_insert_zero _ _ hc
            rcases addBlockLoop_not_finished env publicKeys rest
                (if (!balances.contains tx.receiver) = true
                  then balances.insert tx.receiver 0 else balances)
                (applyTransaction temp tx) with ih | ih
            · left
              exact ih
            · right
              obtain ⟨hn, b1, ht, hr⟩ := ih
              refine ⟨fun hacc => hn hacc.2, b1, ht.trans htot, hr⟩
      · right
        refine ⟨?_, balances, rfl, Or.inl (by simp [ha])⟩
        intro hacc
        obtain ⟨⟨key1, -, h2, -⟩, -⟩ := hacc
        exact ha h2

theorem total_applyBatch (txs : List Transaction) :
    ∀ working : StdMap ℚ, (applyBatch working txs).total = working.total := by
  induction txs with
  | nil => intro working; rfl
  | cons tx rest ih =>
    intro working
    show (applyBatch (applyTransaction working tx) rest).total = working.total
    rw [ih, total_applyTransaction]

theorem addBlockLoop_total (env : Env) (publicKeys : StdMap String) (txs : List Transaction)
    (balances temp : StdMap ℚ) :
    match Blockchain.addBlockLoop env publicKeys txs balances temp with
    | .finished b t => b.total = balances.total ∧ t.total = temp.total
    | .returned b => b.total = balances.total
    | .thrown b _ => b.total = balances.total := by
  cases hl : Blockchain.addBlockLoop env publicKeys txs balances temp with
  | finished b t =>
    obtain ⟨h1, -, h3, -⟩ := addBlockLoop_finished env publicKeys txs balances temp b t hl
    exact ⟨h3, by rw [h1, total_applyBatch]⟩
  | returned b =>
    rcases addBlockLoop_not_finished env publicKeys txs balances temp with h | h
    · obtain ⟨b1, hb⟩ := h
      rw [hl] at hb
      cases hb
    · obtain ⟨-, b1, ht, hr⟩ := h
      rw [hl] at hr
      rcases hr with hr | ⟨e, hr⟩
      · cases hr
        exact ht
      · cases hr
  | thrown b e =>
    rcases addBlockLoop_not_finished env publicKeys txs balances temp with h | h
    · obtain ⟨b1, hb⟩ := h
      rw [hl] at hb
      cases hb
    · obtain ⟨-, b1, ht, hr⟩ := h
      rw [hl] at hr
      rcases hr with hr | ⟨e1, hr⟩
      · cases hr
      · cases hr
        exact ht

/-! ## The miner -/

theorem wrapInt32_succ (x : Int) : wrapInt32 (wrapInt32 x + 1) = wrapInt32 (x + 1) := by
  unfold wrapInt32
  omega

theorem mineLoop_sound (env : Env) (b : Block) (d : Nat) :
    ∀ (fuel : Nat) (nonce n : Int) (h : String),
      Block.mineLoop env b d fuel nonce = some (n, h) →
        Block.meetsTarget h d = true ∧ h = b.calculateBlockHashWithNonce env n
  | 0, _, _, _, hm => by simp [Block.mineLoop] at hm
  | fuel + 1, nonce, n, h, hm => by
    unfold Block.mineLoop at hm
    by_cases ht : Block.meetsTarget (b.calculateBlockHashWithNonce env nonce) d = true
    · simp only [ht, if_true, Option.some.injEq, Prod.mk.injEq] at hm
      obtain ⟨h1, h2⟩ := hm
      subst h1
      subst h2
      exact ⟨ht, rfl⟩
    · simp only [ht, if_false] at hm
      exact mineLoop_sound env b d fuel _ n h hm

theorem mineLoop_finds (env : Env) (b : Block) (d : Nat) :
    ∀ (fuel j : Nat),
      (∃ n, j ≤ n ∧ n < j + fuel
        ∧ Block.meetsTarget (b.calculateBlockHashWithNonce env (wrapInt32 n)) d = true) →
      (Block.mineLoop env b d fuel (wrapInt32 j)).isSome = true
  | 0, j, h => by
    obtain ⟨n, h1, h2, -⟩ := h
    omega
  | fuel + 1, j, h => by
    unfold Block.mineLoop
    by_cases ht : Block.meetsTarget (b.calculateBlockHashWithNonce env (wrapInt32 j)) d = true
    · simp [ht]
    · simp only [ht, if_false]
      obtain ⟨n, h1, h2, h3⟩ := h
      have hne : n ≠ j := by
        intro e
        subst e
        exact ht h3
      have hw : wrapInt32 (wrapInt32 (j : Int) + 1) = wrapInt32 ((j + 1 : Nat) : Int) := by
        rw [wrapInt32_succ, Nat.cast_add, Nat.cast_one]
      rw [hw]
      exact mineLoop_finds env b d fuel (j + 1) ⟨n, by omega, by omega, h3⟩

theorem Block.new_fields (env : Env) (fuel : Nat) (now : String) (idx : Int) (prevHash : String)
    (txs : List Transaction) (snapshot : StdMap ℚ) (diff : Nat) (b : Block)
    (h : Block.new env fuel now idx prevHash txs snapshot diff = some b) :
    b.index = idx ∧ b.timestamp = now ∧ b.transactions = txs ∧ b.previousHash = prevHash
      ∧ b.balanceSnapshot = snapshot ∧ b.difficulty = diff := by
  unfold Block.new Block.mineBlock at h
  by_cases hc : env.hardwareConcurrency = 0
  · simp only [hc, if_true, Option.some.injEq] at h
    subst h
    exact ⟨rfl, rfl, rfl, rfl, rfl, rfl⟩
  · simp only [hc, if_false] at h
    split at h
    · simp only [Option.some.injEq] at h
      subst h
      exact ⟨rfl, rfl, rfl, rfl, rfl, rfl⟩
    · cases h

theorem Block.new_mined (env : Env) (fuel : Nat) (now : String) (idx : Int) (prevHash : String)
    (txs : List Transaction) (snapshot : StdMap ℚ) (diff : Nat) (b : Block)
    (hc : 0 < env.hardwareConcurrency)
    (h : Block.new env fuel now idx prevHash txs snapshot diff = some b) :
    Block.meetsTarget b.hash diff = true := by
  unfold Block.new Block.mineBlock at h
  have hc0 : env.hardwareConcurrency ≠ 0 := by omega
  simp only [hc0, if_false] at h
  split at h
  · rename_i n hh hm
    simp only [Option.some.injEq] at h
    subst h
    exact (mineLoop_sound env _ diff fuel 0 n hh hm).1
  · cases h

theorem Block.new_returns (env : Env) (now : String) (idx : Int) (prevHash : String)
    (txs : List Transaction) (snapshot : StdMap ℚ) (diff : Nat) (hm : Mineable env diff) :
    ∃ fuel0, ∀ fuel, fuel0 ≤ fuel →
      (Block.new env fuel now idx prevHash txs snapshot diff).isSome = true := by
  obtain ⟨n, hn⟩ := hm
    { index := idx, timestamp := now, transactions := txs, previousHash := prevHash,
      hash := Block.calculateBlockHash env
        { index := idx, timestamp := now, transactions := txs, previousHash := prevHash,
          hash := "", nonce := 0, balanceSnapshot := snapshot, difficulty := diff },
      nonce := 0, balanceSnapshot := snapshot, difficulty := diff }
  refine ⟨n + 1, fun fuel hf => ?_⟩
  unfold Block.new Block.mineBlock
  by_cases hc : env.hardwareConcurrency = 0
  · simp [hc]
  · simp only [hc, if_false]
    have hfind := mineLoop_finds env
      { index := idx, timestamp := now, transactions := txs, previousHash := prevHash,
        hash := Block.calculateBlockHash env
          { index := idx, timestamp := now, transactions := txs, previousHash := prevHash,
            hash := "", nonce := 0, balanceSnapshot := snapshot, difficulty := diff },
        nonce := 0, balanceSnapshot := snapshot, difficulty := diff } diff fuel 0
      ⟨n, by omega, by omega, hn⟩
    have h0 : wrapInt32 ((0 : Nat) : Int) = 0 := by decide
    rw [h0] at hfind
    cases hl : Block.mineLoop env
      { index := idx, timestamp := now, transactions := txs, previousHash := prevHash,
        hash := Block.calculateBlockHash env
          { index := idx, timestamp := now, transactions := txs, previousHash := prevHash,
            hash := "", nonce := 0, balanceSnapshot := snapshot, difficulty := diff },
        nonce := 0, balanceSnapshot := snapshot, difficulty := diff } diff fuel 0 with
    | none => rw [hl] at hfind; cases hfind
    | some r => rfl

/-! ## addBlock: what gets appended and committed -/

theorem addBlock_appended_inv (env : Env) (fuel : Nat) (now : String) (s s1 : Blockchain)
    (txs : List Transaction) (publicKeys : StdMap String)
    (h : Blockchain.addBlock env fuel now s txs publicKeys = .appended s1) :
    ∃ balances1 temp1 latest newBlock,
      Blockchain.addBlockLoop env publicKeys txs s.balances s.balances
          = .finished balances1 temp1
        ∧ s.chain.getLast? = some latest
        ∧ Block.new env fuel now (latest.index + 1) latest.hash txs
            (Blockchain.snapshotFilter txs
              (temp1.filter (fun user balance => !(balance == 0 && !balances1.contains user))))
            latest.difficulty = some newBlock
        ∧ s1.chain = s.chain ++ [newBlock]
        ∧ s1.balances
            = temp1.filter (fun user balance => !(balance == 0 && !balances1.contains user)) := by
  unfold Blockchain.addBlock at h
  cases hl : Blockchain.addBlockLoop env publicKeys txs s.balances s.balances with
  | returned b => simp [hl] at h
  | thrown b e => simp [hl] at h
  | finished b t =>
    rw [hl] at h
    dsimp only at h
    cases hg : s.chain.getLast? with
    | none =>
      rw [hg] at h
      cases h
    | some latest =>
      rw [hg] at h
      dsimp only at h
      cases hn : Block.new env fuel now (latest.index + 1) latest.hash txs
          (Blockchain.snapshotFilter txs
            (t.filter (fun user balance => !(balance == 0 && !b.contains user))))
          latest.difficulty with
      | none =>
        rw [hn] at h
        cases h
      | some nb =>
        rw [hn] at h
        dsimp only at h
        cases h
        exact ⟨b, t, latest, nb, rfl, rfl, hn, rfl, rfl⟩

/-- Claim C4: when `addBlock` succeeds, the committed balances are the previous map with every
transaction of the batch applied in order (amount subtracted from the sender entry, added to
the receiver entry, a missing entry counting as 0), from which exactly the entries are dropped
that are 0 and belong neither to a previously registered user nor to a receiver of the
batch. -/
theorem addBlock_commits_applied_batch (env : Env) (fuel : Nat) (now : String)
    (s s1 : Blockchain) (txs : List Transaction) (publicKeys : StdMap String)
    (h : Blockchain.addBlock env fuel now s txs publicKeys = .appended s1) :
    s1.balances
      = (applyBatch s.balances txs).filter
          (fun user balance =>
            !(balance == 0
              && !(s.balances.contains user || txs.any (fun tx => tx.receiver == user)))) := by
  obtain ⟨b, t, latest, nb, hl, -, -, -, hb⟩ :=
    addBlock_appended_inv env fuel now s s1 txs publicKeys h
  obtain ⟨h1, h2, -, -⟩ := addBlockLoop_finished env publicKeys txs _ _ b t hl
  rw [hb, h1]
  congr 1
  funext user balance
  rw [h2 user]

set_option maxRecDepth 100000 in
unseal Rat.add Rat.sub Rat.mul Rat.inv in
/-- Witness for claim C4: from `Genesis_User = 1000` and `Alice = 100` the signed transfer
`Genesis_User -> Alice` of 250 is appended and yields `Genesis_User = 750`, `Alice = 350`. -/
theorem addBlock_commits_applied_batch_witness :
    Blockchain.addBlock demoEnv 1 demoNow demoFunded [demoTransfer250] demoKeys
        = .appended demoAfterTransfer
      ∧ demoAfterTransfer.balances
          = (applyBatch demoFunded.balances [demoTransfer250]).filter
              (fun user balance =>
                !(balance == 0
                  && !(demoFunded.balances.contains user
                    || [demoTransfer250].any (fun tx => tx.receiver == user))))
      ∧ demoFunded.balances.entries = [("Alice", 100), ("Genesis_User", 1000)]
      ∧ demoAfterTransfer.balances.entries = [("Alice", 350), ("Genesis_User", 750)] :=
  have hrun : Blockchain.addBlock demoEnv 1 demoNow demoFunded [demoTransfer250] demoKeys
      = .appended demoAfterTransfer := by decide
  ⟨hrun,
    addBlock_commits_applied_batch demoEnv 1 demoNow demoFunded demoAfterTransfer
      [demoTransfer250] demoKeys hrun,
    by decide, by decide⟩

/-! ## Conservation -/

theorem total_genesis : ((StdMap.empty : StdMap ℚ).insert "Genesis_User" 1000).total = 1000 := by
  simp [StdMap.total, StdMap.insert, StdMap.empty, insertEntry]

theorem new_balances (env : Env) (fuel : Nat) (nowTx nowBlock : String) (s : Blockchain)
    (h : Blockchain.new env fuel nowTx nowBlock = some s) :
    s.balances = (StdMap.empty : StdMap ℚ).insert "Genesis_User" 1000 := by
  unfold Blockchain.new at h
  dsimp only at h
  split at h
  · simp only [Option.some.injEq] at h
    subst h
    rfl
  · cases h

theorem addUser_total (s : Blockchain) (username : String) :
    (s.addUser username).balances.total = s.balances.total := by
  unfold Blockchain.addUser
  by_cases hc : s.balances.contains username = true
  · simp [hc]
  · simp only [Bool.not_eq_true] at hc
    by_cases hv : Validator.isAddressFormatValid username = true
    · simp only [hc, Bool.false_eq_true, if_false, hv, if_true]
      exact StdMap.total_insert_zero _ _ hc
    · simp [hc, hv]

theorem addBlock_total (env : Env) (fuel : Nat) (now : String) (s : Blockchain)
    (txs : List Transaction) (publicKeys : StdMap String) (s1 : Blockchain)
    (h : (Blockchain.addBlock env fuel now s txs publicKeys).state? = some s1) :
    s1.balances.total = s.balances.total := by
  have ht := addBlockLoop_total env publicKeys txs s.balances s.balances
  unfold Blockchain.addBlock at h
  cases hl : Blockchain.addBlockLoop env publicKeys txs s.balances s.balances with
  | returned b =>
    rw [hl] at ht
    simp only [hl, Outcome.state?, Option.some.injEq] at h
    subst h
    exact ht
  | thrown b e =>
    rw [hl] at ht
    simp only [hl, Outcome.state?, Option.some.injEq] at h
    subst h
    exact ht
  | finished b t =>
    rw [hl] at ht
    rw [hl] at h
    dsimp only at h
    cases hg : s.chain.getLast? with
    | none =>
      rw [hg] at h
      cases h
    | some latest =>
      rw [hg] at h
      dsimp only at h
      split at h
      · cases h
      · simp only [Outcome.state?, Option.some.injEq] at h
        subst h
        show (t.filter _).total = s.balances.total
        rw [StdMap.total_filter, ht.2]
        intro k v hp
        simp only [Bool.not_eq_eq_eq_not, Bool.not_false, Bool.and_eq_true, beq_iff_eq] at hp
        exact hp.1

theorem reachable_total (env : Env) (keys : StdMap String → Prop)
    (allowed : List Transaction → Prop) (s : Blockchain)
    (h : Reachable env keys allowed s) : s.balances.total = 1000 := by
  induction h with
  | fresh fuel nowTx nowBlock s hs =>
    rw [new_balances env fuel nowTx nowBlock s hs]
    exact total_genesis
  | addUser s username _ ih =>
    rw [addUser_total]
    exact ih
  | appended s s1 fuel now txs publicKeys _ _ _ ha ih =>
    rw [addBlock_total env fuel now s txs publicKeys s1 (by rw [ha]; rfl)]
    exact ih
  | aborted s s1 fuel now txs publicKeys _ _ ha ih =>
    rw [addBlock_total env fuel now s txs publicKeys s1 (by rw [ha]; rfl)]
    exact ih
  | raised s s1 fuel now txs publicKeys what _ _ ha ih =>
    rw [addBlock_total env fuel now s txs publicKeys s1 (by rw [ha]; rfl)]
    exact ih

/-- Claim C5: with amounts taken as exact numbers, in every ledger reached from a freshly
constructed one by registrations and calls of `addBlock` (whatever their batches, key maps
and outcomes), the sum of all values of the balances map is 1000. -/
theorem balances_sum_is_1000 (env : Env) (s : Blockchain)
    (h : Reachable env (fun _ => True) (fun _ => True) s) : s.balances.total = 1000 :=
  reachable_total env (fun _ => True) (fun _ => True) s h

set_option maxRecDepth 100000 in
unseal Rat.add Rat.sub Rat.mul Rat.inv in
/-- Witness for claim C5: the fresh ledger after registering `Alice` and appending the signed
transfer `Genesis_User -> Alice` of 250 is reachable and its balances sum to 1000. -/
theorem balances_sum_is_1000_witness :
    Reachable demoEnv (fun _ => True) (fun _ => True) demoReached
      ∧ demoReached.balances.entries = [("Alice", 250), ("Genesis_User", 750)]
      ∧ demoReached.balances.total = 1000 :=
  have hfresh : Blockchain.new demoEnv 1 demoNow demoNow = some demoFresh := by decide
  have hrun : Blockchain.addBlock demoEnv 1 demoNow (demoFresh.addUser "Alice")
      [demoTransfer250] demoKeys = .appended demoReached := by decide
  have hreach : Reachable demoEnv (fun _ => True) (fun _ => True) demoReached :=
    Reachable.appended (demoFresh.addUser "Alice") demoReached 1 demoNow [demoTransfer250]
      demoKeys
      (Reachable.addUser demoFresh "Alice" (Reachable.fresh 1 demoNow demoNow demoFresh hfresh))
      trivial trivial hrun
  ⟨hreach, by decide, balances_sum_is_1000 demoEnv demoReached hreach⟩

theorem addBlock_of_finished (env : Env) (fuel : Nat) (now : String) (s : Blockchain)
    (txs : List Transaction) (publicKeys : StdMap String) (b t : StdMap ℚ) (latest : Block)
    (hl : Blockchain.addBlockLoop env publicKeys txs s.balances s.balances = .finished b t)
    (hg : s.chain.getLast? = some latest) :
    Blockchain.addBlock env fuel now s txs publicKeys
      = match Block.new env fuel now (latest.index + 1) latest.hash txs
            (Blockchain.snapshotFilter txs
              (t.filter (fun user balance => !(balance == 0 && !b.contains user))))
            latest.difficulty with
        | none => .stuck
        | some newBlock =>
          .appended
            { chain := s.chain ++ [newBlock],
              balances := t.filter (fun user balance => !(balance == 0 && !b.contains user)) } := by
  unfold Blockchain.addBlock
  rw [hl]
  dsimp only
  rw [hg]

theorem addBlock_accepted (env : Env) (fuel : Nat) (now : String) (s : Blockchain)
    (txs : List Transaction) (publicKeys : StdMap String) (latest : Block)
    (hg : s.chain.getLast? = some latest)
    (hacc : batchAccepted env publicKeys txs s.balances) :
    ∃ snapshot committed,
      (Block.new env fuel now (latest.index + 1) latest.hash txs snapshot latest.difficulty = none
          ∧ Blockchain.addBlock env fuel now s txs publicKeys = .stuck)
        ∨ ∃ b, Block.new env fuel now (latest.index + 1) latest.hash txs snapshot
              latest.difficulty = some b
            ∧ Blockchain.addBlock env fuel now s txs publicKeys
                = .appended { chain := s.chain ++ [b], balances := committed } := by
  rcases addBlockLoop_not_finished env publicKeys txs s.balances s.balances with h | h
  · obtain ⟨b1, hb⟩ := h
    have ha := addBlock_of_finished env fuel now s txs publicKeys b1 _ latest hb hg
    refine ⟨Blockchain.snapshotFilter txs
        ((applyBatch s.balances txs).filter
          (fun user balance => !(balance == 0 && !b1.contains user))),
      (applyBatch s.balances txs).filter
        (fun user balance => !(balance == 0 && !b1.contains user)), ?_⟩
    cases hn : Block.new env fuel now (latest.index + 1) latest.hash txs
        (Blockchain.snapshotFilter txs
          ((applyBatch s.balances txs).filter
            (fun user balance => !(balance == 0 && !b1.contains user))))
        latest.difficulty with
    | none =>
      left
      rw [hn] at ha
      exact ⟨rfl, ha⟩
    | some nb =>
      right
      rw [hn] at ha
      exact ⟨nb, rfl, ha⟩
  · exact absurd hacc h.1

theorem addBlock_rejected (env : Env) (fuel : Nat) (now : String) (s : Blockchain)
    (txs : List Transaction) (publicKeys : StdMap String)
    (hrej : ¬ batchAccepted env publicKeys txs s.balances) :
    ∃ s1, s1.chain = s.chain
      ∧ (Blockchain.addBlock env fuel now s txs publicKeys = .aborted s1
        ∨ ∃ e, Blockchain.addBlock env fuel now s txs publicKeys = .raised s1 e) := by
  rcases addBlockLoop_not_finished env publicKeys txs s.balances s.balances with h | h
  · obtain ⟨b1, hb⟩ := h
    exact absurd (addBlockLoop_finished env publicKeys txs _ _ _ _ hb).2.2.2 hrej
  · obtain ⟨-, b1, -, hr⟩ := h
    refine ⟨{ s with balances := b1 }, rfl, ?_⟩
    unfold Blockchain.addBlock
    rcases hr with hr | ⟨e, hr⟩
    · left
      rw [hr]
    · right
      refine ⟨e, ?_⟩
      rw [hr]

/-- Claim C3: on a ledger whose last block is `latest`, a batch that is accepted (in the
caller's order every transaction has a key entry for its sender, a valid receiver address and
passes transaction validation against the working balances left by the earlier transactions)
is appended as one block holding exactly the given transactions as soon as the miner returns,
and the miner returns for every large enough fuel when the difficulty can be met; a batch that
is not accepted leaves the chain unchanged. -/
theorem addBlock_appends_iff_accepted (env : Env) (fuel : Nat) (now : String) (s : Blockchain)
    (txs : List Transaction) (publicKeys : StdMap String) (latest : Block)
    (hg : s.chain.getLast? = some latest) :
    (batchAccepted env publicKeys txs s.balances →
        Blockchain.addBlock env fuel now s txs publicKeys = .stuck
          ∨ ∃ b s1, Blockchain.addBlock env fuel now s txs publicKeys = .appended s1
              ∧ s1.chain = s.chain ++ [b] ∧ b.transactions = txs)
      ∧ (¬ batchAccepted env publicKeys txs s.balances →
          ∃ s1, s1.chain = s.chain
            ∧ (Blockchain.addBlock env fuel now s txs publicKeys = .aborted s1
              ∨ ∃ e, Blockchain.addBlock env fuel now s txs publicKeys = .raised s1 e))
      ∧ (batchAccepted env publicKeys txs s.balances → Mineable env latest.difficulty →
          ∃ fuel0, ∀ f, fuel0 ≤ f →
            ∃ b s1, Blockchain.addBlock env f now s txs publicKeys = .appended s1
              ∧ s1.chain = s.chain ++ [b] ∧ b.transactions = txs) := by
  refine ⟨?_, ?_, ?_⟩
  · intro hacc
    obtain ⟨snap, com, h⟩ := addBlock_accepted env fuel now s txs publicKeys latest hg hacc
    rcases h with ⟨-, h⟩ | ⟨b, hb, h⟩
    · exact Or.inl h
    · exact Or.inr ⟨b, _, h, rfl, (Block.new_fields _ _ _ _ _ _ _ _ b hb).2.2.1⟩
  · exact addBlock_rejected env fuel now s txs publicKeys
  · intro hacc hm
    rcases addBlockLoop_not_finished env publicKeys txs s.balances s.balances with h | h
    · obtain ⟨b1, hb⟩ := h
      obtain ⟨fuel0, hf⟩ := Block.new_returns env now (latest.index + 1) latest.hash txs
        (Blockchain.snapshotFilter txs
          ((applyBatch s.balances txs).filter
            (fun user balance => !(balance == 0 && !b1.contains user))))
        latest.difficulty hm
      refine ⟨fuel0, fun f hle => ?_⟩
      have ha := addBlock_of_finished env f now s txs publicKeys b1 _ latest hb hg
      have hs := hf f hle
      cases hn : Block.new env f now (latest.index + 1) latest.hash txs
          (Blockchain.snapshotFilter txs
            ((applyBatch s.balances txs).filter
              (fun user balance => !(balance == 0 && !b1.contains user))))
          latest.difficulty with
      | none =>
        rw [hn] at hs
        cases hs
      | some nb =>
        rw [hn] at ha
        exact ⟨nb, _, ha, rfl, (Block.new_fields _ _ _ _ _ _ _ _ nb hn).2.2.1⟩
    · exact absurd hacc h.1

set_option maxRecDepth 100000 in
unseal Rat.add Rat.sub Rat.mul Rat.inv in
/-- Witness for claim C3: on the fresh ledger, where `Alice` holds nothing, the batch
`Genesis_User -> Alice 100`, `Alice -> Bob 100` is appended, and the same two transactions in
the opposite order leave the chain unchanged. -/
theorem addBlock_appends_iff_accepted_witness :
    demoFresh.chain.getLast? = some demoGenesisBlock
      ∧ (∃ b s1, Blockchain.addBlock demoEnv 1 demoNow demoFresh
            [demoGenesisToAlice, demoAliceToBob] demoKeys = .appended s1
          ∧ s1.chain = demoFresh.chain ++ [b]
          ∧ b.transactions = [demoGenesisToAlice, demoAliceToBob])
      ∧ (∃ s1, s1.chain = demoFresh.chain
          ∧ (Blockchain.addBlock demoEnv 1 demoNow demoFresh
                [demoAliceToBob, demoGenesisToAlice] demoKeys = .aborted s1
            ∨ ∃ e, Blockchain.addBlock demoEnv 1 demoNow demoFresh
                [demoAliceToBob, demoGenesisToAlice] demoKeys = .raised s1 e)) :=
  have hg : demoFresh.chain.getLast? = some demoGenesisBlock := by decide
  have hacc : batchAccepted demoEnv demoKeys [demoGenesisToAlice, demoAliceToBob]
      demoFresh.balances :=
    ⟨⟨"kG", by decide, by decide, by decide⟩, ⟨"kA", by decide, by decide, by decide⟩, trivial⟩
  have hrej : ¬ batchAccepted demoEnv demoKeys [demoAliceToBob, demoGenesisToAlice]
      demoFresh.balances := by
    intro h
    obtain ⟨⟨key, hk, -, hv⟩, -⟩ := h
    have hk1 : demoKeys.find? demoAliceToBob.sender = some "kA" := by decide
    rw [hk1] at hk
    cases hk
    revert hv
    decide
  have hns : Blockchain.addBlock demoEnv 1 demoNow demoFresh
      [demoGenesisToAlice, demoAliceToBob] demoKeys ≠ .stuck := by decide
  have hthm := addBlock_appends_iff_accepted demoEnv 1 demoNow demoFresh
  ⟨hg,
    ((hthm [demoGenesisToAlice, demoAliceToBob] demoKeys demoGenesisBlock hg).1 hacc).resolve_left
      hns,
    (hthm [demoAliceToBob, demoGenesisToAlice] demoKeys demoGenesisBlock hg).2.1 hrej⟩

/-! ## Chain validation: the transaction loop -/

theorem filteredTemp_eq_snapshotFilter (txs : List Transaction) (m : StdMap ℚ) :
    Blockchain.filteredTemp txs m = Blockchain.snapshotFilter txs m := by
  apply StdMap.ext_entries
  show (m.entries.filter _).filter _ = m.entries.filter _
  rw [List.filter_filter]
  apply List.filter_congr
  intro x _
  cases h1 : (x.2 != 0) <;> cases h2 : isInvolved txs x.1 <;> simp_all

theorem at0_ensure (m : StdMap ℚ) (k j : String) :
    (if (!m.contains k) = true then m.insert k 0 else m).at0 j = m.at0 j := by
  by_cases hc : m.contains k = true
  · simp [hc]
  · simp only [Bool.not_eq_true] at hc
    simp only [hc, Bool.not_false, if_true, StdMap.at0_insert]
    by_cases e : j = k
    · subst e
      simp [StdMap.at0_of_not_contains m j hc]
    · simp [e]

theorem validateTransactions_system (env : Env) (publicKeys : StdMap String) (tx : Transaction)
    (rest : List Transaction) (temp : StdMap ℚ) (isValid : Bool) (hs : tx.sender = "System") :
    Blockchain.validateTransactions env publicKeys (tx :: rest) temp isValid
      = Blockchain.validateTransactions env publicKeys rest (replayTransaction temp tx)
          isValid := by
  simp only [Blockchain.validateTransactions, replayTransaction, hs, if_true]

theorem validateTransactions_nokey (env : Env) (publicKeys : StdMap String) (tx : Transaction)
    (rest : List Transaction) (temp : StdMap ℚ) (isValid : Bool) (hs : tx.sender ≠ "System")
    (hk : publicKeys.find? tx.sender = none) :
    Blockchain.validateTransactions env publicKeys (tx :: rest) temp isValid
      = Blockchain.validateTransactions env publicKeys rest
          (if (!temp.contains tx.receiver) = true then temp.insert tx.receiver 0 else temp)
          false := by
  simp only [Blockchain.validateTransactions, hs, if_false, hk]

theorem validateTransactions_error (env : Env) (publicKeys : StdMap String) (tx : Transaction)
    (rest : List Transaction) (temp : StdMap ℚ) (isValid : Bool) (key e : String)
    (hs : tx.sender ≠ "System") (hk : publicKeys.find? tx.sender = some key)
    (hv : CryptoUtils.verifySignature env tx.getDataToSign tx.signature key = .error e) :
    Blockchain.validateTransactions env publicKeys (tx :: rest) temp isValid = .error e := by
  unfold Transaction.getDataToSign at hv
  simp only [Blockchain.validateTransactions, hs, if_false, hk, hv]

theorem validateTransactions_verified (env : Env) (publicKeys : StdMap String)
    (tx : Transaction) (rest : List Transaction) (temp : StdMap ℚ) (isValid : Bool)
    (key : String) (sigOk : Bool)
    (hs : tx.sender ≠ "System") (hk : publicKeys.find? tx.sender = some key)
    (hv : CryptoUtils.verifySignature env tx.getDataToSign tx.signature key = .ok sigOk) :
    Blockchain.validateTransactions env publicKeys (tx :: rest) temp isValid
      = Blockchain.validateTransactions env publicKeys rest (replayTransaction temp tx)
          (isValid && sigOk && decide (tx.amount ≤ temp.at0 tx.sender)) := by
  have h1 : (if (!(if (!temp.contains tx.receiver) = true then temp.insert tx.receiver 0
        else temp).contains tx.sender) = true
      then (if (!temp.contains tx.receiver) = true then temp.insert tx.receiver 0
        else temp).insert tx.sender 0
      else (if (!temp.contains tx.receiver) = true then temp.insert tx.receiver 0
        else temp)).at0 tx.sender = temp.at0 tx.sender := by
    rw [at0_ensure, at0_ensure]
  unfold Transaction.getDataToSign at hv
  simp only [Blockchain.validateTransactions, replayTransaction, hs, if_false, hk, hv, h1,
    ge_iff_le]

theorem validateTransactions_flag (env : Env) (publicKeys : StdMap String) :
    ∀ (txs : List Transaction) (temp : StdMap ℚ) (isValid : Bool),
      Blockchain.validateTransactions env publicKeys txs temp isValid
        = match Blockchain.validateTransactions env publicKeys txs temp true with
          | .error e => .error e
          | .ok (t, v) => .ok (t, isValid && v)
  | [], temp, isValid => by simp [Blockchain.validateTransactions]
  | tx :: rest, temp, isValid => by
    by_cases hs : tx.sender = "System"
    · rw [validateTransactions_system env publicKeys tx rest temp isValid hs,
        validateTransactions_system env publicKeys tx rest temp true hs]
      exact validateTransactions_flag env publicKeys rest _ isValid
    · cases hk : publicKeys.find? tx.sender with
      | none =>
        rw [validateTransactions_nokey env publicKeys tx rest temp isValid hs hk,
          validateTransactions_nokey env publicKeys tx rest temp true hs hk]
        rw [validateTransactions_flag env publicKeys rest _ false]
        cases Blockchain.validateTransactions env publicKeys rest
            (if (!temp.contains tx.receiver) = true then temp.insert tx.receiver 0 else temp)
            true with
        | error e => rfl
        | ok r => simp
      | some key =>
        cases hv : CryptoUtils.verifySignature env tx.getDataToSign tx.signature key with
        | error e =>
          rw [validateTransactions_error env publicKeys tx rest temp isValid key e hs hk hv,
            validateTransactions_error env publicKeys tx rest temp true key e hs hk hv]
        | ok sigOk =>
          rw [validateTransactions_verified env publicKeys tx rest temp isValid key sigOk hs hk
              hv,
            validateTransactions_verified env publicKeys tx rest temp true key sigOk hs hk hv]
          rw [validateTransactions_flag env publicKeys rest _
              (isValid && sigOk && decide (tx.amount ≤ temp.at0 tx.sender)),
            validateTransactions_flag env publicKeys rest _
              (true && sigOk && decide (tx.amount ≤ temp.at0 tx.sender))]
          cases Blockchain.validateTransactions env publicKeys rest (replayTransaction temp tx)
              true with
          | error e => rfl
          | ok r => simp [Bool.and_assoc]

theorem validateTransactions_of_checks (env : Env) (publicKeys : StdMap String) :
    ∀ (txs : List Transaction) (temp : StdMap ℚ) (isValid : Bool),
      transactionChecks env publicKeys txs temp →
        Blockchain.validateTransactions env publicKeys txs temp isValid
          = .ok (replay temp txs, isValid)
  | [], temp, isValid, _ => rfl
  | tx :: rest, temp, isValid, hc => by
    obtain ⟨h1, h2⟩ := hc
    by_cases hs : tx.sender = "System"
    · rw [validateTransactions_system env publicKeys tx rest temp isValid hs]
      exact validateTransactions_of_checks env publicKeys rest _ isValid h2
    · obtain ⟨key, hk, hv, ha⟩ := h1 hs
      rw [validateTransactions_verified env publicKeys tx rest temp isValid key true hs hk hv]
      rw [validateTransactions_of_checks env publicKeys rest _ _ h2]
      simp [ha, replay]

theorem validateTransactions_true (env : Env) (publicKeys : StdMap String) :
    ∀ (txs : List Transaction) (temp t : StdMap ℚ) (isValid : Bool),
      Blockchain.validateTransactions env publicKeys txs temp isValid = .ok (t, true) →
        isValid = true ∧ transactionChecks env publicKeys txs temp ∧ t = replay temp txs
  | [], temp, t, isValid, h => by
    simp only [Blockchain.validateTransactions, Except.ok.injEq, Prod.mk.injEq] at h
    exact ⟨h.2, trivial, h.1.symm⟩
  | tx :: rest, temp, t, isValid, h => by
    by_cases hs : tx.sender = "System"
    · rw [validateTransactions_system env publicKeys tx rest temp isValid hs] at h
      obtain ⟨i1, i2, i3⟩ := validateTransactions_true env publicKeys rest _ t isValid h
      exact ⟨i1, ⟨fun hn => absurd hs hn, i2⟩, i3⟩
    · cases hk : publicKeys.find? tx.sender with
      | none =>
        rw [validateTransactions_nokey env publicKeys tx rest temp isValid hs hk] at h
        have := (validateTransactions_true env publicKeys rest _ t false h).1
        cases this
      | some key =>
        cases hv : CryptoUtils.verifySignature env tx.getDataToSign tx.signature key with
        | error e =>
          rw [validateTransactions_error env publicKeys tx rest temp isValid key e hs hk hv] at h
          cases h
        | ok sigOk =>
          rw [validateTransactions_verified env publicKeys tx rest temp isValid key sigOk hs hk
            hv] at h
          obtain ⟨i1, i2, i3⟩ := validateTransactions_true env publicKeys rest _ t _ h
          simp only [Bool.and_eq_true, decide_eq_true_eq] at i1
          obtain ⟨⟨j1, j2⟩, j3⟩ := i1
          subst j2
          exact ⟨j1, ⟨fun _ => ⟨key, hk, hv, j3⟩, i2⟩, i3⟩

/-! ## Chain validation: the block loop -/

theorem validateBlocks_short (env : Env) (publicKeys : StdMap String) (prev : Option Block)
    (temp : StdMap ℚ) (isValid : Bool) (current : Block) (rest : List Block)
    (h : current.hash.length < 56) :
    Blockchain.validateBlocks env publicKeys prev temp isValid (current :: rest)
      = .error "std::out_of_range" := by
  simp only [Blockchain.validateBlocks, h, if_true]

theorem validateBlocks_step (env : Env) (publicKeys : StdMap String) (prev : Option Block)
    (temp : StdMap ℚ) (isValid : Bool) (current : Block) (rest : List Block)
    (h : ¬ current.hash.length < 56) :
    Blockchain.validateBlocks env publicKeys prev temp isValid (current :: rest)
      = match Blockchain.validateTransactions env publicKeys current.transactions
            (seedOr prev temp) (isValid && headerOk env prev current) with
        | .error e => .error e
        | .ok (t1, v4) =>
          Blockchain.validateBlocks env publicKeys (some current)
            (Blockchain.filteredTemp current.transactions t1)
            (v4 && decide (current.balanceSnapshot
              = Blockchain.filteredTemp current.transactions t1)) rest := by
  cases prev with
  | none =>
    simp only [Blockchain.validateBlocks, h, if_false, seedOr, headerOk, Bool.and_true,
      Bool.and_assoc]
  | some p =>
    simp only [Blockchain.validateBlocks, h, if_false, seedOr, headerOk, Bool.and_assoc]

theorem validateBlocks_flag (env : Env) (publicKeys : StdMap String) :
    ∀ (blocks : List Block) (prev : Option Block) (temp : StdMap ℚ) (isValid : Bool),
      Blockchain.validateBlocks env publicKeys prev temp isValid blocks
        = match Blockchain.validateBlocks env publicKeys prev temp true blocks with
          | .error e => .error e
          | .ok v => .ok (isValid && v)
  | [], prev, temp, isValid => by simp [Blockchain.validateBlocks]
  | current :: rest, prev, temp, isValid => by
    by_cases h : current.hash.length < 56
    · rw [validateBlocks_short env publicKeys prev temp isValid current rest h,
        validateBlocks_short env publicKeys prev temp true current rest h]
    · rw [validateBlocks_step env publicKeys prev temp isValid current rest h,
        validateBlocks_step env publicKeys prev temp true current rest h]
      rw [validateTransactions_flag env publicKeys current.transactions (seedOr prev temp)
          (isValid && headerOk env prev current),
        validateTransactions_flag env publicKeys current.transactions (seedOr prev temp)
          (true && headerOk env prev current)]
      cases Blockchain.validateTransactions env publicKeys current.transactions
          (seedOr prev temp) true with
      | error e => rfl
      | ok r =>
        obtain ⟨t, v⟩ := r
        simp only []
        rw [validateBlocks_flag env publicKeys rest (some current) _
            (isValid && headerOk env prev current && v
              && decide (current.balanceSnapshot
                = Blockchain.filteredTemp current.transactions t)),
          validateBlocks_flag env publicKeys rest (some current) _
            (true && headerOk env prev current && v
              && decide (current.balanceSnapshot
                = Blockchain.filteredTemp current.transactions t))]
        cases Blockchain.validateBlocks env publicKeys (some current)
            (Blockchain.filteredTemp current.transactions t) true rest with
        | error e => rfl
        | ok w => simp [Bool.and_assoc]

theorem headerOk_of_checks (env : Env) (publicKeys : StdMap String) (prev : Option Block)
    (b : Block) (h : blockChecks env publicKeys prev b) : headerOk env prev b = true := by
  obtain ⟨h1, h2, h3, -, -⟩ := h
  unfold headerOk
  cases prev with
  | none => simp [h1, Block.calculateBlockHash, ← h2]
  | some p => simp [h1, Block.calculateBlockHash, ← h2, h3 p rfl]

theorem validateBlocks_of_checks (env : Env) (publicKeys : StdMap String)
    (hw : WideDigest env) :
    ∀ (blocks : List Block) (prev : Option Block) (temp : StdMap ℚ) (isValid : Bool),
      (prev = none → temp = StdMap.empty) → chainChecks env publicKeys prev blocks →
        Blockchain.validateBlocks env publicKeys prev temp isValid blocks = .ok isValid
  | [], _, _, _, _, _ => rfl
  | current :: rest, prev, temp, isValid, ht, hc => by
    obtain ⟨hb, hrest⟩ := hc
    have hhead := headerOk_of_checks env publicKeys prev current hb
    obtain ⟨-, h2, -, h4, h5⟩ := hb
    have hlen : ¬ current.hash.length < 56 := by
      rw [h2]
      exact not_lt.mpr (hw _)
    have hseed : seedOr prev temp = seedBalances prev := by
      cases prev with
      | none => simp [seedOr, seedBalances, ht rfl]
      | some p => rfl
    rw [validateBlocks_step env publicKeys prev temp isValid current rest hlen, hseed,
      validateTransactions_of_checks env publicKeys current.transactions _ _ h4]
    simp only []
    rw [validateBlocks_of_checks env publicKeys hw rest (some current) _ _
      (fun h => by cases h) hrest]
    simp [hhead, filteredTemp_eq_snapshotFilter, h5]

theorem validateBlocks_true (env : Env) (publicKeys : StdMap String) :
    ∀ (blocks : List Block) (prev : Option Block) (temp : StdMap ℚ) (isValid : Bool),
      (prev = none → temp = StdMap.empty) →
      Blockchain.validateBlocks env publicKeys prev temp isValid blocks = .ok true →
        isValid = true ∧ chainChecks env publicKeys prev blocks
  | [], _, _, isValid, _, h => by
    simp only [Blockchain.validateBlocks, Except.ok.injEq] at h
    exact ⟨h, trivial⟩
  | current :: rest, prev, temp, isValid, ht, h => by
    by_cases hlen : current.hash.length < 56
    · rw [validateBlocks_short env publicKeys prev temp isValid current rest hlen] at h
      cases h
    · rw [validateBlocks_step env publicKeys prev temp isValid current rest hlen] at h
      have hseed : seedOr prev temp = seedBalances prev := by
        cases prev with
        | none => simp [seedOr, seedBalances, ht rfl]
        | some p => rfl
      rw [hseed] at h
      cases hv : Blockchain.validateTransactions env publicKeys current.transactions
          (seedBalances prev) (isValid && headerOk env prev current) with
      | error e =>
        rw [hv] at h
        cases h
      | ok r =>
        obtain ⟨t1, v4⟩ := r
        rw [hv] at h
        simp only [] at h
        obtain ⟨i1, i2⟩ := validateBlocks_true env publicKeys rest (some current) _ _
          (fun h => by cases h) h
        simp only [Bool.and_eq_true, decide_eq_true_eq] at i1
        obtain ⟨j1, j2⟩ := i1
        subst j1
        obtain ⟨k1, k2, k3⟩ := validateTransactions_true env publicKeys current.transactions
          _ t1 _ hv
        simp only [Bool.and_eq_true] at k1
        obtain ⟨l1, l2⟩ := k1
        refine ⟨l1, ⟨?_, i2⟩⟩
        unfold headerOk at l2
        simp only [Bool.and_eq_true, decide_eq_true_eq] at l2
        obtain ⟨⟨m1, m2⟩, m3⟩ := l2
        refine ⟨m1, m2, ?_, k2, ?_⟩
        · intro p hp
          subst hp
          simpa using m3
        · rw [j2, k3, filteredTemp_eq_snapshotFilter]

theorem isChainValid_ok_true_iff (env : Env) (hw : WideDigest env) (s : Blockchain)
    (publicKeys : StdMap String) :
    Blockchain.isChainValid env s publicKeys = .ok true
      ↔ chainChecks env publicKeys none s.chain := by
  constructor
  · intro h
    exact (validateBlocks_true env publicKeys s.chain none StdMap.empty true (fun _ => rfl)
      h).2
  · intro h
    exact validateBlocks_of_checks env publicKeys hw s.chain none StdMap.empty true
      (fun _ => rfl) h

theorem demoEnv_wide : WideDigest demoEnv := by
  intro s
  show 56 ≤ (String.mk (List.replicate 64 '0') ++ s).length
  rw [String.length_append]
  have h : (String.mk (List.replicate 64 '0')).length = 64 := List.length_replicate 64 '0'
  omega

/-! ## Replayed balances -/

theorem at0_replayTransaction (t : StdMap ℚ) (tx : Transaction) (k : String) :
    (replayTransaction t tx).at0 k = t.at0 k + netEffect tx k := by
  unfold replayTransaction netEffect
  by_cases hs : tx.sender = "System"
  · simp only [hs, if_true, StdMap.at0_insert, at0_ensure]
    by_cases hk : k = tx.receiver <;> simp [hk]
  · simp only [hs, if_false, StdMap.at0_insert, at0_ensure]
    by_cases hk : k = tx.receiver
    · subst hk
      by_cases hr : tx.receiver = tx.sender
      · simp [hr]
      · simp [hr]
    · by_cases hks : k = tx.sender
      · subst hks
        have hk1 : ¬ tx.receiver = tx.sender := fun e => hk e.symm
        simp [hk, hk1]
        ring
      · simp [hk, hks]

theorem at0_replay (txs : List Transaction) (k : String) :
    ∀ t : StdMap ℚ, (replay t txs).at0 k = t.at0 k + (txs.map (fun tx => netEffect tx k)).sum := by
  induction txs with
  | nil => intro t; simp [replay]
  | cons tx rest ih =>
    intro t
    show (replay (replayTransaction t tx) rest).at0 k = _
    rw [ih, at0_replayTransaction]
    simp only [List.map_cons, List.sum_cons]
    ring

theorem at0_snapshotFilter (txs : List Transaction) (m : StdMap ℚ) (k : String) :
    (Blockchain.snapshotFilter txs m).at0 k = m.at0 k := by
  unfold Blockchain.snapshotFilter
  apply StdMap.at0_filter
  intro j v h
  simp only [Bool.or_eq_false_iff, bne_eq_false_iff_eq] at h
  exact h.1

theorem chainChecks_block (env : Env) (publicKeys : StdMap String) :
    ∀ (pre : List Block) (prev : Option Block) (b : Block) (post : List Block),
      chainChecks env publicKeys prev (pre ++ b :: post) →
        blockChecks env publicKeys (lastOr prev pre) b
  | [], _, _, _, h => h.1
  | x :: pre, _, b, post, h => chainChecks_block env publicKeys pre (some x) b post h.2

/-! ## When isChainValid returns -/

theorem verifySignature_decodable (env : Env) (data sig key : String) :
    (∃ r, CryptoUtils.verifySignature env data sig key = .ok r)
      ↔ ∃ bytes, CryptoUtils.hexToBytes sig.toList = .ok bytes := by
  unfold CryptoUtils.verifySignature
  cases h : CryptoUtils.hexToBytes sig.toList with
  | error e => simp
  | ok bs => simp

theorem validateTransactions_returns (env : Env) (publicKeys : StdMap String) :
    ∀ (txs : List Transaction) (temp : StdMap ℚ) (isValid : Bool),
      (∃ r, Blockchain.validateTransactions env publicKeys txs temp isValid = .ok r)
        ↔ signaturesDecodable publicKeys txs
  | [], temp, isValid => by
    simp [Blockchain.validateTransactions, signaturesDecodable]
  | tx :: rest, temp, isValid => by
    have hcons : signaturesDecodable publicKeys (tx :: rest)
        ↔ (tx.sender ≠ "System" → ∀ key, publicKeys.find? tx.sender = some key →
            ∃ bytes, CryptoUtils.hexToBytes tx.signature.toList = .ok bytes)
          ∧ signaturesDecodable publicKeys rest := by
      unfold signaturesDecodable
      simp only [List.mem_cons, forall_eq_or_imp]
    rw [hcons]
    by_cases hs : tx.sender = "System"
    · rw [validateTransactions_system env publicKeys tx rest temp isValid hs,
        validateTransactions_returns env publicKeys rest _ isValid]
      simp [hs]
    · cases hk : publicKeys.find? tx.sender with
      | none =>
        rw [validateTransactions_nokey env publicKeys tx rest temp isValid hs hk,
          validateTransactions_returns env publicKeys rest _ false]
        simp
      | some key =>
        cases hv : CryptoUtils.verifySignature env tx.getDataToSign tx.signature key with
        | error e =>
          rw [validateTransactions_error env publicKeys tx rest temp isValid key e hs hk hv]
          have hno : ¬ ∃ bytes, CryptoUtils.hexToBytes tx.signature.toList = .ok bytes := by
            intro hd
            obtain ⟨r, hr⟩ := (verifySignature_decodable env tx.getDataToSign tx.signature
              key).mpr hd
            rw [hv] at hr
            cases hr
          constructor
          · intro h
            obtain ⟨r, hr⟩ := h
            cases hr
          · intro h
            exact absurd (h.1 hs key rfl) hno
        | ok sigOk =>
          rw [validateTransactions_verified env publicKeys tx rest temp isValid key sigOk hs hk
              hv,
            validateTransactions_returns env publicKeys rest _ _]
          have hyes : ∃ bytes, CryptoUtils.hexToBytes tx.signature.toList = .ok bytes :=
            (verifySignature_decodable env tx.getDataToSign tx.signature key).mp ⟨sigOk, hv⟩
          constructor
          · intro h
            refine ⟨fun _ key1 hk1 => hyes, h⟩
          · intro h
            exact h.2

theorem validateBlocks_returns (env : Env) (publicKeys : StdMap String) :
    ∀ (blocks : List Block) (prev : Option Block) (temp : StdMap ℚ) (isValid : Bool),
      (∃ v, Blockchain.validateBlocks env publicKeys prev temp isValid blocks = .ok v)
        ↔ blocksReadable publicKeys blocks
  | [], prev, temp, isValid => by
    simp [Blockchain.validateBlocks, blocksReadable]
  | current :: rest, prev, temp, isValid => by
    have hcons : blocksReadable publicKeys (current :: rest)
        ↔ (56 ≤ current.hash.length ∧ signaturesDecodable publicKeys current.transactions)
          ∧ blocksReadable publicKeys rest := by
      unfold blocksReadable
      simp only [List.mem_cons, forall_eq_or_imp]
    rw [hcons]
    by_cases hlen : current.hash.length < 56
    · rw [validateBlocks_short env publicKeys prev temp isValid current rest hlen]
      constructor
      · intro h
        obtain ⟨v, hv⟩ := h
        cases hv
      · intro h
        omega
    · rw [validateBlocks_step env publicKeys prev temp isValid current rest hlen]
      have hd := validateTransactions_returns env publicKeys current.transactions
        (seedOr prev temp) (isValid && headerOk env prev current)
      cases hv : Blockchain.validateTransactions env publicKeys current.transactions
          (seedOr prev temp) (isValid && headerOk env prev current) with
      | error e =>
        rw [hv] at hd
        constructor
        · intro h
          obtain ⟨v, hv1⟩ := h
          cases hv1
        · intro h
          obtain ⟨r, hr⟩ := hd.mpr h.1.2
          cases hr
      | ok r =>
        obtain ⟨t1, v4⟩ := r
        rw [hv] at hd
        simp only []
        rw [validateBlocks_returns env publicKeys rest (some current) _ _]
        constructor
        · intro h
          exact ⟨⟨by omega, hd.mp ⟨_, rfl⟩⟩, h⟩
        · intro h
          exact h.2

/-! ## Tampering with a stored amount -/

set_option maxRecDepth 100000 in
unseal Rat.add Rat.sub Rat.mul Rat.inv in
/-- Claim C8, as stated, fails: in a valid chain whose second block holds the signed
self-transfer `Genesis_User -> Genesis_User` of 1, replacing the stored amount 1 by `1 + 2^-24`
and leaving everything else as stored gives a chain on which `isChainValid` still returns
true: both amounts render as `1.000000`, so hash pre-image and signing payload are unchanged,
and a self-transfer does not move the replayed balances. -/
theorem c8_small_change_of_self_transfer_passes :
    demoSelf.chain = [demoGenesisBlock, demoSelfBlock]
      ∧ demoSelfBlock.transactions = [demoSelfTransfer]
      ∧ demoSelfTransfer.amount = 1
      ∧ (1 + 1 / 16777216 : ℚ) ≠ 1
      ∧ Blockchain.isChainValid demoEnv demoSelf demoKeys = .ok true
      ∧ demoSelfTampered.chain
          = [demoGenesisBlock,
             { demoSelfBlock with
               transactions := [{ demoSelfTransfer with amount := 1 + 1 / 16777216 }] }]
      ∧ Blockchain.isChainValid demoEnv demoSelfTampered demoKeys = .ok true := by
  decide

/-! ## Replay and working balances -/

theorem lastOr_of_getLast? :
    ∀ (l : List Block) (prev : Option Block) (latest : Block),
      l.getLast? = some latest → lastOr prev l = some latest
  | [], _, _, h => by simp at h
  | [x], _, latest, h => by
    simp only [List.getLast?_singleton, Option.some.injEq] at h
    subst h
    rfl
  | x :: y :: rest, _, latest, h => by
    rw [List.getLast?_cons_cons] at h
    exact lastOr_of_getLast? (y :: rest) (some x) latest h

theorem chainChecks_append_one (env : Env) (publicKeys : StdMap String) (b : Block) :
    ∀ (l : List Block) (prev : Option Block),
      chainChecks env publicKeys prev l → blockChecks env publicKeys (lastOr prev l) b →
        chainChecks env publicKeys prev (l ++ [b])
  | [], _, _, hb => ⟨hb, trivial⟩
  | x :: rest, _, hc, hb =>
    ⟨hc.1, chainChecks_append_one env publicKeys b rest (some x) hc.2 hb⟩

theorem at0_applyTransaction (w : StdMap ℚ) (tx : Transaction) (k : String) :
    (applyTransaction w tx).at0 k
      = w.at0 k + ((if k = tx.receiver then tx.amount else 0)
          - (if k = tx.sender then tx.amount else 0)) := by
  unfold applyTransaction
  simp only [StdMap.at0_insert]
  by_cases hk : k = tx.receiver
  · subst hk
    by_cases hr : tx.receiver = tx.sender
    · simp [hr]
    · simp [hr]
  · by_cases hks : k = tx.sender
    · subst hks
      have hk1 : ¬ tx.receiver = tx.sender := fun e => hk e.symm
      simp [hk, hk1]
      ring
    · simp [hk, hks]

theorem contains_ensure {β : Type} (m : StdMap β) (k j : String) (v : β) :
    (if (!m.contains k) = true then m.insert k v else m).contains j
      = (decide (j = k) || m.contains j) := by
  by_cases hc : m.contains k = true
  · simp only [hc, Bool.not_true, Bool.false_eq_true, if_false]
    by_cases e : j = k
    · subst e
      simp [hc]
    · simp [e]
  · simp only [Bool.not_eq_true] at hc
    simp only [hc, Bool.not_false, if_true, StdMap.contains_insert]

theorem contains_applyTransaction (w : StdMap ℚ) (tx : Transaction) (k : String) :
    (applyTransaction w tx).contains k
      = (decide (k = tx.receiver) || decide (k = tx.sender) || w.contains k) := by
  unfold applyTransaction
  simp only [StdMap.contains_insert, Bool.or_assoc]

theorem contains_replayTransaction (t : StdMap ℚ) (tx : Transaction) (k : String)
    (hs : tx.sender ≠ "System") :
    (replayTransaction t tx).contains k
      = (decide (k = tx.receiver) || decide (k = tx.sender) || t.contains k) := by
  unfold replayTransaction
  dsimp only
  rw [if_neg hs, StdMap.contains_insert, StdMap.contains_insert, contains_ensure,
    contains_ensure]
  cases decide (k = tx.receiver) <;> cases decide (k = tx.sender) <;> simp

theorem contains_applyBatch_mono (txs : List Transaction) (k : String) :
    ∀ w : StdMap ℚ, w.contains k = true → (applyBatch w txs).contains k = true := by
  induction txs with
  | nil => intro w h; exact h
  | cons tx rest ih =>
    intro w h
    show (applyBatch (applyTransaction w tx) rest).contains k = true
    apply ih
    rw [contains_applyTransaction, h]
    simp

theorem contains_replay_mono (txs : List Transaction) (k : String)
    (hns : ∀ tx ∈ txs, tx.sender ≠ "System") :
    ∀ t : StdMap ℚ, t.contains k = true → (replay t txs).contains k = true := by
  induction txs with
  | nil => intro t h; exact h
  | cons tx rest ih =>
    intro t h
    show (replay (replayTransaction t tx) rest).contains k = true
    apply ih (fun x hx => hns x (List.mem_cons_of_mem _ hx))
    rw [contains_replayTransaction t tx k (hns tx (List.mem_cons_self _ _)), h]
    simp

theorem involved_cons (tx : Transaction) (rest : List Transaction) (k : String) :
    isInvolved (tx :: rest) k = (decide (k = tx.sender) || decide (k = tx.receiver)
      || isInvolved rest k) := by
  have e1 : (tx.sender == k) = decide (k = tx.sender) := by
    by_cases h : k = tx.sender
    · subst h
      simp
    · have h1 : ¬ tx.sender = k := fun e => h e.symm
      simp [h, h1]
  have e2 : (tx.receiver == k) = decide (k = tx.receiver) := by
    by_cases h : k = tx.receiver
    · subst h
      simp
    · have h1 : ¬ tx.receiver = k := fun e => h e.symm
      simp [h, h1]
  unfold isInvolved
  rw [List.any_cons, e1, e2]

theorem contains_replay_involved (txs : List Transaction) (k : String) :
    (∀ tx ∈ txs, tx.sender ≠ "System") → isInvolved txs k = true →
      ∀ t : StdMap ℚ, (replay t txs).contains k = true := by
  induction txs with
  | nil => intro _ h; simp [isInvolved] at h
  | cons tx rest ih =>
    intro hns h t
    have hns1 : ∀ x ∈ rest, x.sender ≠ "System" := fun x hx => hns x (List.mem_cons_of_mem _ hx)
    show (replay (replayTransaction t tx) rest).contains k = true
    rw [involved_cons] at h
    by_cases hr : isInvolved rest k = true
    · exact ih hns1 hr _
    · simp only [Bool.not_eq_true] at hr
      apply contains_replay_mono rest k hns1
      rw [contains_replayTransaction t tx k (hns tx (List.mem_cons_self _ _))]
      rw [hr, Bool.or_false] at h
      cases h1 : decide (k = tx.sender) <;> cases h2 : decide (k = tx.receiver) <;> simp_all

theorem accepted_sender_contained (env : Env) (tx : Transaction) (key : String)
    (w : StdMap ℚ) (hs : tx.sender ≠ "System")
    (hv : Blockchain.isTransactionValid env tx key w = .ok true) :
    w.contains tx.sender = true ∧ tx.amount ≤ w.at0 tx.sender
      ∧ CryptoUtils.verifySignature env tx.getDataToSign tx.signature key = .ok true := by
  rcases (isTransactionValid_ok_true env tx key w).mp hv with h | h
  · exact absurd h hs
  · obtain ⟨-, ⟨bal, hb1, hb2⟩, -, -, hsig⟩ := h
    refine ⟨by simp [StdMap.contains, hb1], by simp [StdMap.at0, hb1, hb2], hsig⟩

theorem contains_applyBatch_involved (env : Env) (publicKeys : StdMap String)
    (txs : List Transaction) (k : String) :
    (∀ tx ∈ txs, tx.sender ≠ "System") → isInvolved txs k = true →
      ∀ w : StdMap ℚ, batchAccepted env publicKeys txs w →
        (applyBatch w txs).contains k = true := by
  induction txs with
  | nil => intro _ h; simp [isInvolved] at h
  | cons tx rest ih =>
    intro hns h w hacc
    have hns1 : ∀ x ∈ rest, x.sender ≠ "System" := fun x hx => hns x (List.mem_cons_of_mem _ hx)
    show (applyBatch (applyTransaction w tx) rest).contains k = true
    rw [involved_cons] at h
    by_cases hr : isInvolved rest k = true
    · exact ih hns1 hr _ hacc.2
    · simp only [Bool.not_eq_true] at hr
      apply contains_applyBatch_mono rest k
      rw [contains_applyTransaction]
      rw [hr, Bool.or_false] at h
      cases h1 : decide (k = tx.sender) <;> cases h2 : decide (k = tx.receiver) <;> simp_all

theorem contains_applyBatch_accepted (env : Env) (publicKeys : StdMap String)
    (txs : List Transaction) (k : String) :
    (∀ tx ∈ txs, tx.sender ≠ "System") →
      ∀ w : StdMap ℚ, batchAccepted env publicKeys txs w →
        (applyBatch w txs).contains k
          = (w.contains k || txs.any (fun tx => tx.receiver == k)) := by
  induction txs with
  | nil => intro _ w _; simp [applyBatch]
  | cons tx rest ih =>
    intro hns w hacc
    have hns1 : ∀ x ∈ rest, x.sender ≠ "System" := fun x hx => hns x (List.mem_cons_of_mem _ hx)
    obtain ⟨⟨key, -, -, hv⟩, hrest⟩ := hacc
    have hsc := (accepted_sender_contained env tx key w (hns tx (List.mem_cons_self _ _)) hv).1
    show (applyBatch (applyTransaction w tx) rest).contains k = _
    rw [ih hns1 _ hrest, contains_applyTransaction, List.any_cons]
    by_cases h1 : k = tx.sender
    · subst h1
      simp [hsc]
    · by_cases h2 : k = tx.receiver
      · subst h2
        simp
      · have h3 : (tx.receiver == k) = false := by
          simpa using (fun e : tx.receiver = k => h2 e.symm)
        rw [h3, Bool.false_or]
        simp [h1, h2]

theorem accepted_checks (env : Env) (publicKeys : StdMap String) :
    ∀ (txs : List Transaction) (w t : StdMap ℚ),
      (∀ tx ∈ txs, tx.sender ≠ "System") → batchAccepted env publicKeys txs w →
      (∀ k, t.at0 k = w.at0 k) →
        transactionChecks env publicKeys txs t
          ∧ ∀ k, (replay t txs).at0 k = (applyBatch w txs).at0 k
  | [], w, t, _, _, hag => ⟨trivial, hag⟩
  | tx :: rest, w, t, hns, hacc, hag => by
    have hs := hns tx (List.mem_cons_self _ _)
    have hns1 : ∀ x ∈ rest, x.sender ≠ "System" := fun x hx => hns x (List.mem_cons_of_mem _ hx)
    obtain ⟨⟨key, hk, -, hv⟩, hrest⟩ := hacc
    obtain ⟨-, hle, hsig⟩ := accepted_sender_contained env tx key w hs hv
    have hag1 : ∀ k, (replayTransaction t tx).at0 k = (applyTransaction w tx).at0 k := by
      intro k
      rw [at0_replayTransaction, at0_applyTransaction, hag k]
      unfold netEffect
      simp only [hs, if_false]
    obtain ⟨i1, i2⟩ := accepted_checks env publicKeys rest (applyTransaction w tx)
      (replayTransaction t tx) hns1 hrest hag1
    refine ⟨⟨fun _ => ⟨key, hk, hsig, ?_⟩, i1⟩, i2⟩
    rw [hag tx.sender]
    exact hle

theorem snapshotFilter_congr (txs : List Transaction) (m1 m2 : StdMap ℚ)
    (hag : ∀ k, m1.at0 k = m2.at0 k)
    (hin : ∀ k, isInvolved txs k = true → m1.contains k = true ∧ m2.contains k = true) :
    Blockchain.snapshotFilter txs m1 = Blockchain.snapshotFilter txs m2 := by
  apply StdMap.ext_find?
  intro k
  unfold Blockchain.snapshotFilter
  rw [StdMap.find?_filter, StdMap.find?_filter]
  have ha := hag k
  unfold StdMap.at0 at ha
  by_cases hi : isInvolved txs k = true
  · obtain ⟨c1, c2⟩ := hin k hi
    unfold StdMap.contains at c1 c2
    cases h1 : m1.find? k with
    | none => simp [h1] at c1
    | some v1 =>
      cases h2 : m2.find? k with
      | none => simp [h2] at c2
      | some v2 =>
        simp only [h1, h2, Option.getD_some] at ha
        rw [ha]
  · simp only [Bool.not_eq_true] at hi
    cases h1 : m1.find? k with
    | none =>
      cases h2 : m2.find? k with
      | none => rfl
      | some v2 =>
        simp only [h1, h2, Option.getD_some, Option.getD_none] at ha
        subst ha
        simp [Option.filter, hi]
    | some v1 =>
      cases h2 : m2.find? k with
      | none =>
        simp only [h1, h2, Option.getD_some, Option.getD_none] at ha
        subst ha
        simp [Option.filter, hi]
      | some v2 =>
        simp only [h1, h2, Option.getD_some] at ha
        rw [ha]

theorem addBlockLoop_live_at0 (env : Env) (publicKeys : StdMap String) (k : String) :
    ∀ (txs : List Transaction) (balances temp : StdMap ℚ),
      (Blockchain.addBlockLoop env publicKeys txs balances temp).live.at0 k = balances.at0 k
  | [], _, _ => rfl
  | tx :: rest, balances, temp => by
    unfold Blockchain.addBlockLoop
    cases hk : publicKeys.find? tx.sender with
    | none => rfl
    | some key =>
      dsimp only
      by_cases ha : Validator.isAddressFormatValid tx.receiver = true
      · rw [if_neg (by simp [ha])]
        cases hv : Blockchain.isTransactionValid env tx key temp with
        | error e => rfl
        | ok r =>
          cases r with
          | false => rfl
          | true =>
            dsimp only
            rw [addBlockLoop_live_at0 env publicKeys k rest _ _, at0_ensure]
      · rw [if_pos (by simp [ha])]
        rfl

theorem genesis_fields (env : Env) (now : String) :
    (Transaction.new env now "System" "Genesis_User" 1000 "").sender = "System"
      ∧ (Transaction.new env now "System" "Genesis_User" 1000 "").receiver = "Genesis_User"
      ∧ (Transaction.new env now "System" "Genesis_User" 1000 "").amount = 1000 := by
  have h1 : Validator.isAddressFormatValid "System" = true := by decide
  have h2 : Validator.isAddressFormatValid "Genesis_User" = true := by decide
  refine ⟨?_, ?_, ?_⟩
  · simp [Transaction.new, h1]
  · simp [Transaction.new, h2]
  · simp [Transaction.new]

theorem genesis_snapshot (env : Env) (now : String) :
    Blockchain.snapshotFilter [Transaction.new env now "System" "Genesis_User" 1000 ""]
        (replay StdMap.empty [Transaction.new env now "System" "Genesis_User" 1000 ""])
      = (StdMap.empty : StdMap ℚ).insert "Genesis_User" 1000 := by
  obtain ⟨f1, f2, f3⟩ := genesis_fields env now
  apply StdMap.ext_find?
  intro k
  unfold Blockchain.snapshotFilter
  rw [StdMap.find?_filter]
  have hr : replay StdMap.empty [Transaction.new env now "System" "Genesis_User" 1000 ""]
      = replayTransaction StdMap.empty (Transaction.new env now "System" "Genesis_User" 1000 "") :=
    rfl
  rw [hr]
  unfold replayTransaction
  dsimp only
  rw [if_pos f1, f2, f3, StdMap.find?_insert, StdMap.find?_insert]
  have hc : (StdMap.empty : StdMap ℚ).contains "Genesis_User" = false := rfl
  by_cases hk : k = "Genesis_User"
  · subst hk
    simp [Option.filter, hc, StdMap.at0_insert]
  · simp [hk, hc, StdMap.find?_insert, StdMap.find?_empty, Option.filter]

set_option maxRecDepth 100000 in
unseal Rat.add Rat.sub Rat.mul Rat.inv in
/-- Claim C2 fails in the code on its own example: on a fresh ledger, after registering `Alice`
and appending the block with the single system transaction `System -> Alice` of 100 (the key
map must hold an entry for `System`, or nothing is appended), `Alice` has 100 and
`Genesis_User` 1000, the chain has two blocks, and `isChainValid` with the same key map
returns false. `addBlock` debits the sender of every transaction, `System` included, so the
balances and the snapshot of the new block hold `System = -100`; `isChainValid` credits the
receiver of a System transaction without debiting `System`, and its replayed balances differ
from the snapshot. The miner runs one worker here. With a key map that has no entry for
`System` the call returns early and nothing is appended. -/
theorem c2_system_block_fails_validation :
    Reachable demoEnv (fun keys => keys = demoKeysSystem) (fun _ => True) demoSystemPaid
      ∧ demoSystemPaid.chain.length = 2
      ∧ demoSystemPaid.balances.entries
          = [("Alice", 100), ("Genesis_User", 1000), ("System", -100)]
      ∧ Blockchain.isChainValid demoEnv demoSystemPaid demoKeysSystem = .ok false
      ∧ demoEnv.hardwareConcurrency = 1
      ∧ demoSystemPaid.getBalance "Alice" = 100
      ∧ demoSystemPaid.getBalance "Genesis_User" = 1000
      ∧ demoSystemPaid.chain.map (fun b => b.balanceSnapshot.entries)
          = [[("Genesis_User", 1000)],
             [("Alice", 100), ("Genesis_User", 1000), ("System", -100)]]
      ∧ Blockchain.filteredTemp [demoSystemToAlice]
            (replay ((StdMap.empty : StdMap ℚ).insert "Genesis_User" 1000)
              [demoSystemToAlice])
          = ((StdMap.empty : StdMap ℚ).insert "Genesis_User" 1000).insert "Alice" 100
      ∧ Blockchain.addBlock demoEnv 1 demoNow (demoFresh.addUser "Alice") [demoSystemToAlice]
            demoKeys
          = .aborted (demoFresh.addUser "Alice") :=
  have hfresh : Blockchain.new demoEnv 1 demoNow demoNow = some demoFresh := by decide
  have hrun : Blockchain.addBlock demoEnv 1 demoNow (demoFresh.addUser "Alice")
      [demoSystemToAlice] demoKeysSystem = .appended demoSystemPaid := by decide
  ⟨Reachable.appended (demoFresh.addUser "Alice") demoSystemPaid 1 demoNow [demoSystemToAlice]
      demoKeysSystem
      (Reachable.addUser demoFresh "Alice" (Reachable.fresh 1 demoNow demoNow demoFresh hfresh))
      rfl trivial hrun,
    by decide, by decide, by decide, rfl, by decide, by decide, by decide, by decide,
    by decide⟩

/-! ## Signing -/

theorem signTransaction_signed (env : Env) (tx : Transaction) (key : String)
    (h : tx.signature ≠ "") :
    tx.signTransaction env key = .error "Transaction already signed" := by
  unfold Transaction.signTransaction
  rw [if_pos h]

theorem signTransaction_invalid (env : Env) (tx : Transaction) (key : String)
    (hs : tx.signature = "") (h : tx.sender = "" ∨ tx.receiver = "" ∨ tx.amount ≤ 0) :
    tx.signTransaction env key = .error "Invalid transaction parameters" := by
  unfold Transaction.signTransaction
  rw [if_neg (not_not.mpr hs), if_pos h]

theorem signTransaction_valid (env : Env) (tx : Transaction) (key : String)
    (hs : tx.signature = "") (h : ¬ (tx.sender = "" ∨ tx.receiver = "" ∨ tx.amount ≤ 0)) :
    tx.signTransaction env key
      = .ok { tx with signature := CryptoUtils.signData env tx.getDataToSign key } := by
  unfold Transaction.signTransaction
  rw [if_neg (not_not.mpr hs), if_neg h]

theorem signCall_raises_again (env : Env) (tx : Transaction) (k1 k2 : String)
    (h : ¬ ((tx.signCall env k1).2 = none ∧ (tx.signCall env k1).1.signature = "")) :
    ∃ what, (tx.signCall env k1).1.signCall env k2 = ((tx.signCall env k1).1, some what) := by
  by_cases hs : tx.signature = ""
  · by_cases hi : tx.sender = "" ∨ tx.receiver = "" ∨ tx.amount ≤ 0
    · have e1 : tx.signCall env k1 = (tx, some "Invalid transaction parameters") := by
        unfold Transaction.signCall
        rw [signTransaction_invalid env tx k1 hs hi]
      rw [e1]
      refine ⟨"Invalid transaction parameters", ?_⟩
      unfold Transaction.signCall
      rw [signTransaction_invalid env tx k2 hs hi]
    · have e1 : tx.signCall env k1
          = ({ tx with signature := CryptoUtils.signData env tx.getDataToSign k1 }, none) := by
        unfold Transaction.signCall
        rw [signTransaction_valid env tx k1 hs hi]
      rw [e1] at h ⊢
      have hne : CryptoUtils.signData env tx.getDataToSign k1 ≠ "" := fun e => h ⟨rfl, e⟩
      refine ⟨"Transaction already signed", ?_⟩
      unfold Transaction.signCall
      rw [signTransaction_signed env _ k2 hne]
  · have e1 : tx.signCall env k1 = (tx, some "Transaction already signed") := by
      unfold Transaction.signCall
      rw [signTransaction_signed env tx k1 hs]
    rw [e1]
    refine ⟨"Transaction already signed", ?_⟩
    unfold Transaction.signCall
    rw [signTransaction_signed env tx k2 hs]

set_option maxRecDepth 100000 in
unseal Rat.add Rat.sub Rat.mul Rat.inv in
/-- Claim C11, as stated, fails: the transfer `Alice -> Bob` of 12 is first signed with a key
that cannot be parsed; the call returns normally and leaves the signature empty. The second
call, with a good key, returns normally as well and sets a signature. -/
theorem c11_second_sign_after_failed_first :
    (demoToBob.signCall demoEnvStrict "").2 = none
      ∧ (demoToBob.signCall demoEnvStrict "").1.signature = ""
      ∧ ((demoToBob.signCall demoEnvStrict "").1.signCall demoEnvStrict "kA").2 = none
      ∧ ((demoToBob.signCall demoEnvStrict "").1.signCall demoEnvStrict "kA").1.signature
          ≠ "" := by
  decide

/-- Claim C11, amended: for every transaction and every two private keys, unless the first
call of `signTransaction` returned normally and left the signature empty (the signing primitive
failed), the second call throws and leaves the object, its signature included, as it was after
the first call. -/
theorem second_sign_raises (env : Env) (tx : Transaction) (k1 k2 : String)
    (h : ¬ ((tx.signCall env k1).2 = none ∧ (tx.signCall env k1).1.signature = "")) :
    ∃ what, (tx.signCall env k1).1.signCall env k2 = ((tx.signCall env k1).1, some what) :=
  signCall_raises_again env tx k1 k2 h

set_option maxRecDepth 100000 in
unseal Rat.add Rat.sub Rat.mul Rat.inv in
/-- Witness for the amended claim C11: the transfer `Alice -> Bob` of 12, signed with the key
`kA` and then with the key `kG`. -/
theorem second_sign_raises_witness :
    ¬ ((demoToBob.signCall demoEnv "kA").2 = none
        ∧ (demoToBob.signCall demoEnv "kA").1.signature = "")
      ∧ ∃ what, (demoToBob.signCall demoEnv "kA").1.signCall demoEnv "kG"
          = ((demoToBob.signCall demoEnv "kA").1, some what) :=
  ⟨by decide, second_sign_raises demoEnv demoToBob "kA" "kG" (by decide)⟩

theorem signCall_invalid (env : Env) (tx : Transaction) (key : String)
    (h : tx.sender = "" ∨ tx.receiver = "" ∨ tx.amount ≤ 0) :
    ∃ what, tx.signCall env key = (tx, some what) := by
  unfold Transaction.signCall
  by_cases hs : tx.signature = ""
  · rw [signTransaction_invalid env tx key hs h]
    exact ⟨_, rfl⟩
  · rw [signTransaction_signed env tx key hs]
    exact ⟨_, rfl⟩

theorem signCall_keeps_fields (env : Env) (tx : Transaction) (key : String) :
    (tx.signCall env key).1.sender = tx.sender
      ∧ (tx.signCall env key).1.receiver = tx.receiver
      ∧ (tx.signCall env key).1.amount = tx.amount := by
  unfold Transaction.signCall Transaction.signTransaction
  by_cases hs : tx.signature = ""
  · by_cases hi : tx.sender = "" ∨ tx.receiver = "" ∨ tx.amount ≤ 0
    · rw [if_neg (not_not.mpr hs), if_pos hi]
      exact ⟨rfl, rfl, rfl⟩
    · rw [if_neg (not_not.mpr hs), if_neg hi]
      exact ⟨rfl, rfl, rfl⟩
  · rw [if_pos hs]
    exact ⟨rfl, rfl, rfl⟩

theorem signCall_signature (env : Env) (tx : Transaction) (key : String)
    (h : tx.sender = "" ∨ tx.receiver = "" ∨ tx.amount ≤ 0) :
    (tx.signCall env key).1.signature = tx.signature := by
  obtain ⟨what, e⟩ := signCall_invalid env tx key h
  rw [e]

theorem signCalls_invalid (env : Env) :
    ∀ (keys : List String) (tx : Transaction),
      (tx.sender = "" ∨ tx.receiver = "" ∨ tx.amount ≤ 0) →
        (tx.signCalls env keys).signature = tx.signature
          ∧ (tx.signCalls env keys).sender = tx.sender
          ∧ (tx.signCalls env keys).receiver = tx.receiver
          ∧ (tx.signCalls env keys).amount = tx.amount
  | [], _, _ => ⟨rfl, rfl, rfl, rfl⟩
  | key :: rest, tx, h => by
    have hstep : tx.signCalls env (key :: rest) = (tx.signCall env key).1.signCalls env rest :=
      rfl
    obtain ⟨f1, f2, f3⟩ := signCall_keeps_fields env tx key
    have h1 : (tx.signCall env key).1.sender = "" ∨ (tx.signCall env key).1.receiver = ""
        ∨ (tx.signCall env key).1.amount ≤ 0 := by
      rw [f1, f2, f3]
      exact h
    obtain ⟨i1, i2, i3, i4⟩ := signCalls_invalid env rest (tx.signCall env key).1 h1
    rw [hstep, i1, i2, i3, i4, f1, f2, f3, signCall_signature env tx key h]
    exact ⟨rfl, rfl, rfl, rfl⟩

theorem signCalls_keeps_fields (env : Env) :
    ∀ (keys : List String) (tx : Transaction),
      (tx.signCalls env keys).sender = tx.sender
        ∧ (tx.signCalls env keys).receiver = tx.receiver
        ∧ (tx.signCalls env keys).amount = tx.amount
  | [], _ => ⟨rfl, rfl, rfl⟩
  | key :: rest, tx => by
    have hstep : tx.signCalls env (key :: rest) = (tx.signCall env key).1.signCalls env rest :=
      rfl
    obtain ⟨f1, f2, f3⟩ := signCall_keeps_fields env tx key
    obtain ⟨i1, i2, i3⟩ := signCalls_keeps_fields env rest (tx.signCall env key).1
    rw [hstep, i1, i2, i3, f1, f2, f3]
    exact ⟨rfl, rfl, rfl⟩

theorem new_invalid_stored (env : Env) (now fromAddr toAddr : String) (value : ℚ)
    (meta : String)
    (h : Validator.isAddressFormatValid fromAddr = false
      ∨ Validator.isAddressFormatValid toAddr = false ∨ value ≤ 0) :
    (Transaction.new env now fromAddr toAddr value meta).sender = ""
      ∨ (Transaction.new env now fromAddr toAddr value meta).receiver = ""
      ∨ (Transaction.new env now fromAddr toAddr value meta).amount ≤ 0 := by
  rcases h with h | h | h
  · left
    simp [Transaction.new, h]
  · right
    left
    simp [Transaction.new, h]
  · right
    right
    have hv : ¬ value > 0 := not_lt.mpr h
    simp [Transaction.new, hv]

/-- Claim C12: a call of `signTransaction` on a transaction whose stored sender is empty, whose
stored receiver is empty or whose amount is not positive throws and leaves the object as it
was; on an object that came from the constructor and any calls of `signTransaction`, and has
such fields, the signature is empty; and an object constructed with an invalid sender, an
invalid receiver or a non-positive amount has an empty signature after any number of calls of
`signTransaction` with any keys. -/
theorem sign_rejects_invalid_transaction (env : Env) :
    (∀ (tx : Transaction) (key : String),
        (tx.sender = "" ∨ tx.receiver = "" ∨ tx.amount ≤ 0) →
          ∃ what, tx.signCall env key = (tx, some what))
      ∧ (∀ (now fromAddr toAddr : String) (value : ℚ) (meta : String) (keys : List String),
          (((Transaction.new env now fromAddr toAddr value meta).signCalls env keys).sender = ""
            ∨ ((Transaction.new env now fromAddr toAddr value meta).signCalls env keys).receiver
                = ""
            ∨ ((Transaction.new env now fromAddr toAddr value meta).signCalls env keys).amount
                ≤ 0) →
            ((Transaction.new env now fromAddr toAddr value meta).signCalls env keys).signature
              = "")
      ∧ (∀ (now fromAddr toAddr : String) (value : ℚ) (meta : String) (keys : List String),
          (Validator.isAddressFormatValid fromAddr = false
            ∨ Validator.isAddressFormatValid toAddr = false ∨ value ≤ 0) →
            ((Transaction.new env now fromAddr toAddr value meta).signCalls env keys).signature
              = "") := by
  refine ⟨fun tx key h => signCall_invalid env tx key h, ?_, ?_⟩
  · intro now fromAddr toAddr value meta keys h
    obtain ⟨f1, f2, f3⟩ :=
      signCalls_keeps_fields env keys (Transaction.new env now fromAddr toAddr value meta)
    rw [f1, f2, f3] at h
    exact (signCalls_invalid env keys _ h).1
  · intro now fromAddr toAddr value meta keys h
    exact (signCalls_invalid env keys _
      (new_invalid_stored env now fromAddr toAddr value meta h)).1

set_option maxRecDepth 100000 in
unseal Rat.add Rat.sub Rat.mul Rat.inv in
/-- Witness for claim C12: a transfer from `Alice` to the invalid address `ab` of 5, and a
transfer from `Alice` to `Bob` of 0, each signed twice. -/
theorem sign_rejects_invalid_transaction_witness :
    Validator.isAddressFormatValid "ab" = false
      ∧ ((Transaction.new demoEnv demoNow "Alice" "ab" 5 "").signCalls demoEnv
          ["kA", "kG"]).signature = ""
      ∧ (Transaction.new demoEnv demoNow "Alice" "Bob" 0 "").amount ≤ 0
      ∧ ∃ what, (Transaction.new demoEnv demoNow "Alice" "Bob" 0 "").signCall demoEnv "kA"
          = (Transaction.new demoEnv demoNow "Alice" "Bob" 0 "", some what) :=
  ⟨by decide,
    (sign_rejects_invalid_transaction demoEnv).2.2 demoNow "Alice" "ab" 5 "" ["kA", "kG"]
      (Or.inr (Or.inl (by decide))),
    by decide,
    (sign_rejects_invalid_transaction demoEnv).1
      (Transaction.new demoEnv demoNow "Alice" "Bob" 0 "") "kA" (Or.inr (Or.inr (by decide)))⟩

theorem signCall_failed_primitive (env : Env) (tx : Transaction) (key : String)
    (hs : tx.signature = "")
    (hf : tx.sender ≠ "" ∧ tx.receiver ≠ "" ∧ 0 < tx.amount)
    (he : env.evpSign tx.getDataToSign key = none) :
    tx.signTransaction env key = .ok tx ∧ tx.signCall env key = (tx, none) := by
  have hi : ¬ (tx.sender = "" ∨ tx.receiver = "" ∨ tx.amount ≤ 0) := by
    rintro (h | h | h)
    · exact hf.1 h
    · exact hf.2.1 h
    · exact absurd hf.2.2 (not_lt.mpr h)
  have hd : CryptoUtils.signData env tx.getDataToSign key = "" := by
    unfold CryptoUtils.signData
    rw [he]
  have e : tx.signTransaction env key = .ok tx := by
    rw [signTransaction_valid env tx key hs hi, hd, ← hs]
  refine ⟨e, ?_⟩
  unfold Transaction.signCall
  rw [e]

/-- Claim C13 fails in the code: when the signing primitive fails on the payload of an unsigned
transaction with non-empty sender and receiver and a positive amount (the private key cannot
be parsed, or an OpenSSL call fails), `signData` catches the error and returns the empty
string, and `signTransaction` returns normally, leaving the signature empty; no exception
reaches the caller. -/
theorem sign_returns_normally_when_signing_fails (env : Env) (tx : Transaction) (key : String)
    (hs : tx.signature = "")
    (hf : tx.sender ≠ "" ∧ tx.receiver ≠ "" ∧ 0 < tx.amount)
    (he : env.evpSign tx.getDataToSign key = none) :
    tx.signTransaction env key = .ok tx ∧ tx.signCall env key = (tx, none) :=
  signCall_failed_primitive env tx key hs hf he

set_option maxRecDepth 100000 in
unseal Rat.add Rat.sub Rat.mul Rat.inv in
/-- Witness for claim C13: the unsigned transfer `Alice -> Bob` of 12 and the empty string as
private key, in the environment where the empty string is not a key. -/
theorem sign_returns_normally_when_signing_fails_witness :
    demoToBob.signature = ""
      ∧ (demoToBob.sender ≠ "" ∧ demoToBob.receiver ≠ "" ∧ 0 < demoToBob.amount)
      ∧ demoEnvStrict.evpSign demoToBob.getDataToSign "" = none
      ∧ demoToBob.signTransaction demoEnvStrict "" = .ok demoToBob
      ∧ demoToBob.signCall demoEnvStrict "" = (demoToBob, none) :=
  ⟨by decide, by decide, rfl,
    sign_returns_normally_when_signing_fails demoEnvStrict demoToBob "" (by decide) (by decide)
      rfl⟩

/-! ## Verification -/

theorem hexToBytes_zz : CryptoUtils.hexToBytes "zz".toList = .error "std::invalid_argument" := by
  decide

/-- Claim C14 fails in the code: for every data string and every key string, verifying the
two-character signature `zz` ends in the exception `std::invalid_argument` that `std::stoi`
throws on a piece without a hexadecimal digit; no boolean is returned. -/
theorem verifySignature_raises_on_non_hex (env : Env) (data publicKeyPEM : String) :
    CryptoUtils.verifySignature env data "zz" publicKeyPEM = .error "std::invalid_argument" := by
  unfold CryptoUtils.verifySignature
  rw [hexToBytes_zz]

/-! ## The payload that is signed and verified -/

theorem getDataToSign_eq_payload (tx : Transaction) : tx.getDataToSign = signing_payload tx := by
  simp [Transaction.getDataToSign, signing_payload, String.join, String.append_assoc]

theorem isTransactionValid_verifies_payload (env : Env) (tx : Transaction)
    (publicKeyPEM : String) (tempBalances : StdMap ℚ)
    (hs : tx.sender ≠ "System") (hsig : tx.signature ≠ "")
    (hb : tempBalances.contains tx.sender = true ∧ tx.amount ≤ tempBalances.at0 tx.sender)
    (hn : 0 ≤ tx.amount) (hr : tx.receiver ≠ "") :
    Blockchain.isTransactionValid env tx publicKeyPEM tempBalances
      = CryptoUtils.verifySignature env (signing_payload tx) tx.signature publicKeyPEM := by
  rw [← getDataToSign_eq_payload]
  unfold Blockchain.isTransactionValid Transaction.getDataToSign
  have hb2 : ¬ tempBalances.at0 tx.sender < tx.amount := not_lt.mpr hb.2
  have hn2 : ¬ tx.amount < 0 := not_lt.mpr hn
  simp only [hs, hsig, hb.1, hb2, hn2, hr, if_false, Bool.not_true, Bool.false_or,
    decide_False, Bool.false_eq_true]
  cases hv : CryptoUtils.verifySignature env
      (tx.txId ++ tx.sender ++ tx.receiver ++ to_string tx.amount ++ tx.timestamp
        ++ tx.metadata) tx.signature publicKeyPEM with
  | error e => rfl
  | ok r => cases r <;> rfl

theorem validateTransactions_verifies_payload (env : Env) (publicKeys : StdMap String)
    (tx : Transaction) (rest : List Transaction) (temp : StdMap ℚ) (isValid : Bool)
    (key : String) (hs : tx.sender ≠ "System") (hk : publicKeys.find? tx.sender = some key) :
    Blockchain.validateTransactions env publicKeys (tx :: rest) temp isValid
      = match CryptoUtils.verifySignature env (signing_payload tx) tx.signature key with
        | .error e => .error e
        | .ok sigOk =>
          Blockchain.validateTransactions env publicKeys rest (replayTransaction temp tx)
            (isValid && sigOk && decide (tx.amount ≤ temp.at0 tx.sender)) := by
  rw [← getDataToSign_eq_payload]
  cases hv : CryptoUtils.verifySignature env tx.getDataToSign tx.signature key with
  | error e => exact validateTransactions_error env publicKeys tx rest temp isValid key e hs hk hv
  | ok sigOk =>
    exact validateTransactions_verified env publicKeys tx rest temp isValid key sigOk hs hk hv

/-- Claim C15: for every transaction, `signTransaction` signs the string
`tx_id ‖ sender ‖ receiver ‖ to_string(amount) ‖ timestamp ‖ metadata`, which is what
`getDataToSign` returns; a transaction that passes the earlier tests of `isTransactionValid`
gets as result the verification of its signature over that same string; and `isChainValid`
verifies the signature of every non-System transaction whose sender has a key over that same
string, the amount being rendered by the one function `to_string` in all three places. -/
theorem payload_same_at_signing_and_verification (env : Env) (tx : Transaction) :
    tx.getDataToSign = signing_payload tx
      ∧ (∀ (key : String) (signed : Transaction), tx.signTransaction env key = .ok signed →
          signed.signature = CryptoUtils.signData env (signing_payload tx) key
            ∧ signing_payload signed = signing_payload tx)
      ∧ (∀ (publicKeyPEM : String) (tempBalances : StdMap ℚ),
          tx.sender ≠ "System" → tx.signature ≠ "" →
          (tempBalances.contains tx.sender = true ∧ tx.amount ≤ tempBalances.at0 tx.sender) →
          0 ≤ tx.amount → tx.receiver ≠ "" →
            Blockchain.isTransactionValid env tx publicKeyPEM tempBalances
              = CryptoUtils.verifySignature env (signing_payload tx) tx.signature publicKeyPEM)
      ∧ (∀ (publicKeys : StdMap String) (rest : List Transaction) (temp : StdMap ℚ)
          (isValid : Bool) (key : String),
          tx.sender ≠ "System" → publicKeys.find? tx.sender = some key →
            Blockchain.validateTransactions env publicKeys (tx :: rest) temp isValid
              = match CryptoUtils.verifySignature env (signing_payload tx) tx.signature key with
                | .error e => .error e
                | .ok sigOk =>
                  Blockchain.validateTransactions env publicKeys rest
                    (replayTransaction temp tx)
                    (isValid && sigOk && decide (tx.amount ≤ temp.at0 tx.sender))) := by
  refine ⟨getDataToSign_eq_payload tx, ?_, ?_, ?_⟩
  · intro key signed h
    unfold Transaction.signTransaction at h
    split at h
    · cases h
    · split at h
      · cases h
      · injection h with h
        subst h
        exact ⟨by rw [getDataToSign_eq_payload], rfl⟩
  · intro publicKeyPEM tempBalances hs hsig hb hn hr
    exact isTransactionValid_verifies_payload env tx publicKeyPEM tempBalances hs hsig hb hn hr
  · intro publicKeys rest temp isValid key hs hk
    exact validateTransactions_verifies_payload env publicKeys tx rest temp isValid key hs hk

set_option maxRecDepth 100000 in
unseal Rat.add Rat.sub Rat.mul Rat.inv in
/-- Witness for claim C15: the transfer `Alice -> Bob` of 12, signed with the key `kA`. -/
theorem payload_same_at_signing_and_verification_witness :
    demoToBob.signTransaction demoEnv "kA" = .ok (demoSigned demoNow "Alice" "Bob" 12 "kA")
      ∧ (demoSigned demoNow "Alice" "Bob" 12 "kA").signature
          = CryptoUtils.signData demoEnv (signing_payload demoToBob) "kA" :=
  ⟨by decide,
    ((payload_same_at_signing_and_verification demoEnv demoToBob).2.1 "kA"
      (demoSigned demoNow "Alice" "Bob" 12 "kA") (by decide)).1⟩

/-! ## System transactions -/

theorem new_inv (env : Env) (fuel : Nat) (nowTx nowBlock : String) (s : Blockchain)
    (h : Blockchain.new env fuel nowTx nowBlock = some s) :
    ∃ b, Block.new env fuel nowBlock 0 "0"
          [Transaction.new env nowTx "System" "Genesis_User" 1000 ""]
          ((StdMap.empty : StdMap ℚ).insert "Genesis_User" 1000) 4 = some b
      ∧ s = { chain := [b], balances := (StdMap.empty : StdMap ℚ).insert "Genesis_User" 1000 } := by
  unfold Blockchain.new at h
  dsimp only at h
  cases hn : Block.new env fuel nowBlock 0 "0"
      [Transaction.new env nowTx "System" "Genesis_User" 1000 ""]
      ((StdMap.empty : StdMap ℚ).insert "Genesis_User" 1000) 4 with
  | none =>
    rw [hn] at h
    cases h
  | some b =>
    rw [hn] at h
    simp only [Option.some.injEq] at h
    exact ⟨b, rfl, h.symm⟩

theorem addUser_chain (s : Blockchain) (username : String) :
    (s.addUser username).chain = s.chain := by
  unfold Blockchain.addUser
  split
  · rfl
  · split <;> rfl

theorem addBlock_not_appended_chain (env : Env) (fuel : Nat) (now : String)
    (s s1 : Blockchain) (txs : List Transaction) (publicKeys : StdMap String)
    (ho : Blockchain.addBlock env fuel now s txs publicKeys = .aborted s1
      ∨ ∃ e, Blockchain.addBlock env fuel now s txs publicKeys = .raised s1 e) :
    s1.chain = s.chain := by
  unfold Blockchain.addBlock at ho
  cases hloop : Blockchain.addBlockLoop env publicKeys txs s.balances s.balances with
  | returned b =>
    rw [hloop] at ho
    dsimp only at ho
    rcases ho with ho | ⟨e, ho⟩
    · injection ho with ho
      subst ho
      rfl
    · cases ho
  | thrown b e =>
    rw [hloop] at ho
    dsimp only at ho
    rcases ho with ho | ⟨e1, ho⟩
    · cases ho
    · injection ho with ho
      subst ho
      rfl
  | finished b t =>
    rw [hloop] at ho
    dsimp only at ho
    cases hg : s.chain.getLast? with
    | none =>
      rw [hg] at ho
      rcases ho with ho | ⟨e1, ho⟩ <;> cases ho
    | some latest =>
      rw [hg] at ho
      dsimp only at ho
      split at ho
      · rcases ho with ho | ⟨e1, ho⟩ <;> cases ho
      · rcases ho with ho | ⟨e1, ho⟩ <;> cases ho

theorem batchAccepted_mem (env : Env) (publicKeys : StdMap String) :
    ∀ (txs : List Transaction) (w : StdMap ℚ), batchAccepted env publicKeys txs w →
      ∀ tx ∈ txs, ∃ key w1, publicKeys.find? tx.sender = some key
        ∧ Validator.isAddressFormatValid tx.receiver = true
        ∧ Blockchain.isTransactionValid env tx key w1 = .ok true
  | [], _, _ => fun tx h => by cases h
  | t :: rest, w, hacc => by
    intro tx hmem
    obtain ⟨⟨key, hk, hr, hv⟩, hrest⟩ := hacc
    rcases List.mem_cons.mp hmem with e | hm
    · subst e
      exact ⟨key, w, hk, hr, hv⟩
    · exact batchAccepted_mem env publicKeys rest _ hrest tx hm

theorem appended_accepted (env : Env) (fuel : Nat) (now : String) (s s1 : Blockchain)
    (txs : List Transaction) (publicKeys : StdMap String)
    (h : Blockchain.addBlock env fuel now s txs publicKeys = .appended s1) :
    batchAccepted env publicKeys txs s.balances
      ∧ ∃ newBlock, s1.chain = s.chain ++ [newBlock] ∧ newBlock.transactions = txs := by
  obtain ⟨b1, t1, latest, nb, hl, -, hn, hc, -⟩ :=
    addBlock_appended_inv env fuel now s s1 txs publicKeys h
  refine ⟨(addBlockLoop_finished env publicKeys txs _ _ _ _ hl).2.2.2, nb, hc, ?_⟩
  exact (Block.new_fields _ _ _ _ _ _ _ _ nb hn).2.2.1

theorem appended_without_system (env : Env) (fuel : Nat) (now : String) (s s1 : Blockchain)
    (txs : List Transaction) (publicKeys : StdMap String)
    (hk : publicKeys.find? "System" = none)
    (h : Blockchain.addBlock env fuel now s txs publicKeys = .appended s1) :
    ∀ tx ∈ txs, tx.sender ≠ "System" := by
  intro tx hmem hs
  obtain ⟨key, -, hkey, -, -⟩ :=
    batchAccepted_mem env publicKeys txs s.balances
      (appended_accepted env fuel now s s1 txs publicKeys h).1 tx hmem
  rw [hs, hk] at hkey
  cases hkey

theorem reachable_system_only_genesis (env : Env) (s : Blockchain)
    (h : Reachable env (fun keys => keys.find? "System" = none) (fun _ => True) s) :
    ∃ g rest nowTx, s.chain = g :: rest
      ∧ g.transactions = [Transaction.new env nowTx "System" "Genesis_User" 1000 ""]
      ∧ ∀ b ∈ rest, ∀ tx ∈ b.transactions, tx.sender ≠ "System" := by
  induction h with
  | fresh fuel nowTx nowBlock s hnew =>
    obtain ⟨b, hb, hs⟩ := new_inv env fuel nowTx nowBlock s hnew
    subst hs
    refine ⟨b, [], nowTx, rfl, (Block.new_fields _ _ _ _ _ _ _ _ b hb).2.2.1, ?_⟩
    intro b1 hb1
    cases hb1
  | addUser s username _ ih =>
    rw [addUser_chain]
    exact ih
  | appended s s1 fuel now txs publicKeys _ hkeys _ ha ih =>
    obtain ⟨g, rest, nowTx, hc, hg, hrest⟩ := ih
    obtain ⟨-, nb, hc1, htx⟩ := appended_accepted env fuel now s s1 txs publicKeys ha
    refine ⟨g, rest ++ [nb], nowTx, ?_, hg, ?_⟩
    · rw [hc1, hc]
      rfl
    · intro b hb tx htxmem
      rcases List.mem_append.mp hb with hb | hb
      · exact hrest b hb tx htxmem
      · rw [List.mem_singleton] at hb
        subst hb
        rw [htx] at htxmem
        exact appended_without_system env fuel now s s1 txs publicKeys hkeys ha tx htxmem
  | aborted s s1 fuel now txs publicKeys _ _ ha ih =>
    rw [addBlock_not_appended_chain env fuel now s s1 txs publicKeys (Or.inl ha)]
    exact ih
  | raised s s1 fuel now txs publicKeys what _ _ ha ih =>
    rw [addBlock_not_appended_chain env fuel now s s1 txs publicKeys (Or.inr ⟨what, ha⟩)]
    exact ih

set_option maxRecDepth 100000 in
unseal Rat.add Rat.sub Rat.mul Rat.inv in
/-- Claim C16, as stated, fails: with a key map that has an entry for `System`, `addBlock` on
the fresh ledger with `Alice` registered appends the block holding the system transaction
`System -> Alice` of 100, so the second block of the chain holds a System transaction too. -/
theorem c16_system_transaction_appended :
    Blockchain.addBlock demoEnv 1 demoNow (demoFresh.addUser "Alice") [demoSystemToAlice]
        demoKeysSystem = .appended demoSystemPaid
      ∧ demoSystemPaid.chain.map (fun b => b.transactions.map Transaction.sender)
          = [["System"], ["System"]] := by
  decide

/-- Claim C16, amended: called with a public-key map that has no entry for `System`, `addBlock`
never appends a block that contains a transaction whose sender is `System`; so in every ledger
reached from a freshly constructed one by calls of `addUser` and of `addBlock` with such key
maps, the first block holds the genesis transaction `System -> Genesis_User` of 1000 and no
other block holds a System transaction. -/
theorem system_transactions_only_at_genesis (env : Env) (s : Blockchain)
    (h : Reachable env (fun keys => keys.find? "System" = none) (fun _ => True) s) :
    (∀ (fuel : Nat) (now : String) (s0 s1 : Blockchain) (txs : List Transaction)
        (publicKeys : StdMap String), publicKeys.find? "System" = none →
        Blockchain.addBlock env fuel now s0 txs publicKeys = .appended s1 →
          ∀ tx ∈ txs, tx.sender ≠ "System")
      ∧ ∃ g rest nowTx, s.chain = g :: rest
          ∧ g.transactions = [Transaction.new env nowTx "System" "Genesis_User" 1000 ""]
          ∧ (Transaction.new env nowTx "System" "Genesis_User" 1000 "").sender = "System"
          ∧ ∀ b ∈ rest, ∀ tx ∈ b.transactions, tx.sender ≠ "System" := by
  refine ⟨fun fuel now s0 s1 txs publicKeys hk ha =>
    appended_without_system env fuel now s0 s1 txs publicKeys hk ha, ?_⟩
  obtain ⟨g, rest, nowTx, h1, h2, h3⟩ := reachable_system_only_genesis env s h
  exact ⟨g, rest, nowTx, h1, h2, (genesis_fields env nowTx).1, h3⟩

set_option maxRecDepth 100000 in
unseal Rat.add Rat.sub Rat.mul Rat.inv in
/-- Witness for the amended claim C16: the fresh ledger after registering `Alice` and appending
the signed transfer `Genesis_User -> Alice` of 250, with a key map that has no entry for
`System`. -/
theorem system_transactions_only_at_genesis_witness :
    Reachable demoEnv (fun keys => keys.find? "System" = none) (fun _ => True) demoReached
      ∧ demoReached.chain.length = 2
      ∧ ∃ g rest nowTx, demoReached.chain = g :: rest
          ∧ g.transactions = [Transaction.new demoEnv nowTx "System" "Genesis_User" 1000 ""]
          ∧ (Transaction.new demoEnv nowTx "System" "Genesis_User" 1000 "").sender = "System"
          ∧ ∀ b ∈ rest, ∀ tx ∈ b.transactions, tx.sender ≠ "System" :=
  have hfresh : Blockchain.new demoEnv 1 demoNow demoNow = some demoFresh := by decide
  have hrun : Blockchain.addBlock demoEnv 1 demoNow (demoFresh.addUser "Alice")
      [demoTransfer250] demoKeys = .appended demoReached := by decide
  have hkeys : demoKeys.find? "System" = none := by decide
  have hreach : Reachable demoEnv (fun keys => keys.find? "System" = none) (fun _ => True)
      demoReached :=
    Reachable.appended (demoFresh.addUser "Alice") demoReached 1 demoNow [demoTransfer250]
      demoKeys
      (Reachable.addUser demoFresh "Alice" (Reachable.fresh 1 demoNow demoNow demoFresh hfresh))
      hkeys trivial hrun
  ⟨hreach, by decide, (system_transactions_only_at_genesis demoEnv demoReached hreach).2⟩

/-! ## Batches with a non-positive amount -/

theorem signCall_signed_positive (env : Env) (tx : Transaction) (key : String)
    (h : tx.signature ≠ "" → 0 < tx.amount) :
    (tx.signCall env key).1.signature ≠ "" → 0 < (tx.signCall env key).1.amount := by
  unfold Transaction.signCall Transaction.signTransaction
  by_cases hs : tx.signature = ""
  · by_cases hi : tx.sender = "" ∨ tx.receiver = "" ∨ tx.amount ≤ 0
    · rw [if_neg (not_not.mpr hs), if_pos hi]
      exact h
    · rw [if_neg (not_not.mpr hs), if_neg hi]
      intro _
      exact not_le.mp (fun hle => hi (Or.inr (Or.inr hle)))
  · rw [if_pos hs]
    exact h

theorem signCalls_signed_positive (env : Env) :
    ∀ (keys : List String) (tx : Transaction), (tx.signature ≠ "" → 0 < tx.amount) →
      (tx.signCalls env keys).signature ≠ "" → 0 < (tx.signCalls env keys).amount
  | [], _, h => h
  | key :: rest, tx, h =>
    signCalls_signed_positive env rest (tx.signCall env key).1
      (signCall_signed_positive env tx key h)

theorem built_signed_positive (env : Env) (now fromAddr toAddr : String) (value : ℚ)
    (meta : String) (keys : List String) :
    ((Transaction.new env now fromAddr toAddr value meta).signCalls env keys).signature ≠ "" →
      0 < ((Transaction.new env now fromAddr toAddr value meta).signCalls env keys).amount :=
  signCalls_signed_positive env keys _ (fun hne => absurd rfl hne)

theorem not_appended_of_unsigned (env : Env) (fuel : Nat) (now : String) (s : Blockchain)
    (txs : List Transaction) (publicKeys : StdMap String) (tx : Transaction)
    (hmem : tx ∈ txs) (hs : tx.sender ≠ "System") (hsig : tx.signature = "") :
    ∃ s1, s1.chain = s.chain
      ∧ (Blockchain.addBlock env fuel now s txs publicKeys = .aborted s1
        ∨ ∃ e, Blockchain.addBlock env fuel now s txs publicKeys = .raised s1 e) := by
  apply addBlock_rejected
  intro hacc
  obtain ⟨key, w1, -, -, hv⟩ := batchAccepted_mem env publicKeys txs s.balances hacc tx hmem
  rcases (isTransactionValid_ok_true env tx key w1).mp hv with h | h
  · exact hs h
  · exact h.1 hsig

set_option maxRecDepth 100000 in
unseal Rat.add Rat.sub Rat.mul Rat.inv in
/-- Claim C17, as stated, fails: the system transaction `System -> Alice` constructed with the
amount 0 is appended when the key map has an entry for `System`; and the batch of a signed
transfer to the unregistered `Bob` followed by an unsigned transfer of 0 is aborted with the
chain unchanged, but leaves the new entry `Bob: 0` in the balances. -/
theorem c17_zero_amount_batches :
    Blockchain.addBlock demoEnv 1 demoNow (demoFresh.addUser "Alice") [demoSystemZero]
        demoKeysSystem = .appended demoZeroPaid
      ∧ demoZeroPaid.chain.map (fun b => b.transactions.map Transaction.amount)
          = [[1000], [0]]
      ∧ demoZeroToCarol.amount = 0
      ∧ demoFresh.balances.entries = [("Genesis_User", 1000)]
      ∧ Blockchain.addBlock demoEnv 1 demoNow demoFresh demoBatchZero demoKeys
          = .aborted { chain := demoFresh.chain, balances := demoFresh.balances.insert "Bob" 0 }
      ∧ (demoFresh.balances.insert "Bob" 0).entries = [("Bob", 0), ("Genesis_User", 1000)] := by
  decide

/-- Claim C17, amended: a batch containing a transaction that was built by the constructor and
any calls of `signTransaction`, whose sender is not `System` and whose amount is not positive,
is never appended: for every ledger state and public-key map `addBlock` ends by an early return
or by an exception, and the chain is unchanged. -/
theorem non_positive_amount_not_appended (env : Env) (fuel : Nat) (now : String)
    (s : Blockchain) (txs : List Transaction) (publicKeys : StdMap String)
    (nowTx fromAddr toAddr : String) (value : ℚ) (meta : String) (keys : List String)
    (hmem : (Transaction.new env nowTx fromAddr toAddr value meta).signCalls env keys ∈ txs)
    (hs : ((Transaction.new env nowTx fromAddr toAddr value meta).signCalls env keys).sender
      ≠ "System")
    (ha : ((Transaction.new env nowTx fromAddr toAddr value meta).signCalls env keys).amount
      ≤ 0) :
    ∃ s1, s1.chain = s.chain
      ∧ (Blockchain.addBlock env fuel now s txs publicKeys = .aborted s1
        ∨ ∃ e, Blockchain.addBlock env fuel now s txs publicKeys = .raised s1 e) := by
  apply not_appended_of_unsigned env fuel now s txs publicKeys _ hmem hs
  by_contra hne
  exact absurd (built_signed_positive env nowTx fromAddr toAddr value meta keys hne)
    (not_lt.mpr ha)

set_option maxRecDepth 100000 in
unseal Rat.add Rat.sub Rat.mul Rat.inv in
/-- Witness for the amended claim C17: the batch of a signed transfer to `Bob` and the transfer
`Genesis_User -> Carol` of 0, on which `signTransaction` was called once, on the fresh
ledger. -/
theorem non_positive_amount_not_appended_witness :
    (Transaction.new demoEnv demoNow "Genesis_User" "Carol" 0 "").signCalls demoEnv ["kG"]
        ∈ demoBatchZero
      ∧ ((Transaction.new demoEnv demoNow "Genesis_User" "Carol" 0 "").signCalls demoEnv
          ["kG"]).sender ≠ "System"
      ∧ ((Transaction.new demoEnv demoNow "Genesis_User" "Carol" 0 "").signCalls demoEnv
          ["kG"]).amount ≤ 0
      ∧ ∃ s1, s1.chain = demoFresh.chain
          ∧ (Blockchain.addBlock demoEnv 1 demoNow demoFresh demoBatchZero demoKeys
              = .aborted s1
            ∨ ∃ e, Blockchain.addBlock demoEnv 1 demoNow demoFresh demoBatchZero demoKeys
              = .raised s1 e) :=
  ⟨by decide, by decide, by decide,
    non_positive_amount_not_appended demoEnv 1 demoNow demoFresh demoBatchZero demoKeys
      demoNow "Genesis_User" "Carol" 0 "" ["kG"] (by decide) (by decide) (by decide)⟩

/-! ## The address rule -/

theorem isAlphanum_iff (c : Char) : c.isAlphanum = true ↔
    ((97 ≤ c.toNat ∧ c.toNat ≤ 122) ∨ (65 ≤ c.toNat ∧ c.toNat ≤ 90)
      ∨ (48 ≤ c.toNat ∧ c.toNat ≤ 57)) := by
  have e : c.val.toNat = c.val.toBitVec.toNat := rfl
  have h1 : (UInt32.toBitVec 65).toNat = 65 := rfl
  have h2 : (UInt32.toBitVec 90).toNat = 90 := rfl
  have h3 : (UInt32.toBitVec 97).toNat = 97 := rfl
  have h4 : (UInt32.toBitVec 122).toNat = 122 := rfl
  have h5 : (UInt32.toBitVec 48).toNat = 48 := rfl
  have h6 : (UInt32.toBitVec 57).toNat = 57 := rfl
  simp only [Char.isAlphanum, Char.isAlpha, Char.isUpper, Char.isLower, Char.isDigit,
    Bool.or_eq_true, Bool.and_eq_true, decide_eq_true_eq, Char.toNat, UInt32.le_def,
    BitVec.le_def, e, h1, h2, h3, h4, h5, h6]
  omega

theorem beq_underscore_iff (c : Char) : (c == '_') = true ↔ c.toNat = 95 := by
  rw [beq_iff_eq]
  constructor
  · intro h
    subst h
    rfl
  · intro h
    apply Char.ext
    apply UInt32.toNat.inj
    exact h

theorem wordChar_iff (c : Char) : (c.isAlphanum || c == '_') = true ↔ isAsciiWordChar c := by
  rw [Bool.or_eq_true, isAlphanum_iff, beq_underscore_iff]
  unfold isAsciiWordChar
  tauto

theorem isAddressFormatValid_iff (s : String) :
    Validator.isAddressFormatValid s = true ↔ is_valid s := by
  unfold Validator.isAddressFormatValid is_valid
  by_cases h : s.length < 3 ∨ s.length > 20
  · have hc : (decide (s.length < 3) || decide (s.length > 20)) = true := by
      simpa using h
    rw [if_pos hc]
    constructor
    · intro hf
      cases hf
    · rintro ⟨h1, h2, -⟩
      omega
  · have hc : ¬ (decide (s.length < 3) || decide (s.length > 20)) = true := by
      simpa using h
    rw [if_neg hc, List.all_eq_true]
    constructor
    · intro ha
      exact ⟨by omega, by omega, fun c hm => (wordChar_iff c).mp (ha c hm)⟩
    · rintro ⟨-, -, ha⟩
      exact fun c hm => (wordChar_iff c).mpr (ha c hm)

theorem utf8Size_ascii (c : Char) (h : c.toNat ≤ 127) : c.utf8Size = 1 := by
  have e : c.val.toNat = c.val.toBitVec.toNat := rfl
  have h1 : (UInt32.toBitVec 127).toNat = 127 := rfl
  have hle : c.val ≤ 127 := by
    rw [UInt32.le_def, BitVec.le_def, h1, ← e]
    exact h
  unfold Char.utf8Size
  dsimp only
  exact if_pos hle

theorem utf8ByteSize_go_ascii :
    ∀ cs : List Char, (∀ c ∈ cs, c.toNat ≤ 127) → String.utf8ByteSize.go cs = cs.length
  | [], _ => rfl
  | c :: cs, h => by
    unfold String.utf8ByteSize.go
    rw [utf8ByteSize_go_ascii cs (fun x hx => h x (List.mem_cons_of_mem _ hx)),
      utf8Size_ascii c (h c (List.mem_cons_self _ _))]
    rfl

theorem wordChar_ascii (c : Char) (h : isAsciiWordChar c) : c.toNat ≤ 127 := by
  unfold isAsciiWordChar at h
  omega

/-- Claim C18: for every string, `isAddressFormatValid` returns true exactly when the string
has between 3 and 20 characters and each of them is an ASCII letter, an ASCII digit or the
underscore (such a string has as many bytes as characters); `System` and `Genesis_User` are
valid, `ab` is not, and no string with a character outside ASCII is valid. -/
theorem isAddressFormatValid_iff_is_valid :
    (∀ s : String, Validator.isAddressFormatValid s = true ↔ is_valid s)
      ∧ (∀ s : String, Validator.isAddressFormatValid s = true ↔
          (3 ≤ s.utf8ByteSize ∧ s.utf8ByteSize ≤ 20 ∧ ∀ c ∈ s.toList, isAsciiWordChar c))
      ∧ Validator.isAddressFormatValid "System" = true
      ∧ Validator.isAddressFormatValid "Genesis_User" = true
      ∧ Validator.isAddressFormatValid "ab" = false
      ∧ (∀ s : String, (∃ c ∈ s.toList, 128 ≤ c.toNat) →
          Validator.isAddressFormatValid s = false) := by
  refine ⟨isAddressFormatValid_iff, ?_, by decide, by decide, by decide, ?_⟩
  · intro s
    rw [isAddressFormatValid_iff]
    unfold is_valid
    constructor
    · rintro ⟨h1, h2, h3⟩
      have hb : s.utf8ByteSize = s.length :=
        utf8ByteSize_go_ascii s.data (fun c hc => wordChar_ascii c (h3 c hc))
      rw [hb]
      exact ⟨h1, h2, h3⟩
    · rintro ⟨h1, h2, h3⟩
      have hb : s.utf8ByteSize = s.length :=
        utf8ByteSize_go_ascii s.data (fun c hc => wordChar_ascii c (h3 c hc))
      rw [hb] at h1 h2
      exact ⟨h1, h2, h3⟩
  · rintro s ⟨c, hc, h128⟩
    cases hv : Validator.isAddressFormatValid s with
    | false => rfl
    | true =>
      have hw := wordChar_ascii c (((isAddressFormatValid_iff s).mp hv).2.2 c hc)
      omega

/-! ## Registration -/

theorem addUser_new (s : Blockchain) (username : String)
    (hv : Validator.isAddressFormatValid username = true)
    (hc : s.balances.contains username = false) :
    s.addUser username = { s with balances := s.balances.insert username 0 } := by
  unfold Blockchain.addUser
  rw [if_neg (by simp [hc]), if_pos hv]

theorem addUser_same (s : Blockchain) (username : String)
    (h : Validator.isAddressFormatValid username = false ∨ s.balances.contains username = true) :
    s.addUser username = s := by
  unfold Blockchain.addUser
  by_cases hc : s.balances.contains username = true
  · rw [if_pos hc]
  · rcases h with h | h
    · rw [if_neg hc, if_neg (by simp [h])]
    · exact absurd h hc

/-- Claim C19: `addUser` never changes the chain; when the name is a valid address that is not
yet a key of the balances, the new balances are the old ones with the entry `name -> 0` added
(every other key reads as before); when the name is already a key or is not a valid address,
the ledger is unchanged, the balance of the name included. -/
theorem addUser_frame (s : Blockchain) (username : String) :
    (s.addUser username).chain = s.chain
      ∧ (Validator.isAddressFormatValid username = true
          ∧ s.balances.contains username = false →
          (s.addUser username).balances = s.balances.insert username 0
            ∧ (s.addUser username).balances.find? username = some 0
            ∧ ∀ k, k ≠ username →
                (s.addUser username).balances.find? k = s.balances.find? k)
      ∧ (Validator.isAddressFormatValid username = false
          ∨ s.balances.contains username = true →
          s.addUser username = s) := by
  refine ⟨addUser_chain s username, ?_, addUser_same s username⟩
  rintro ⟨hv, hc⟩
  rw [addUser_new s username hv hc]
  refine ⟨rfl, ?_, ?_⟩
  · show (s.balances.insert username 0).find? username = some 0
    rw [StdMap.find?_insert, if_pos rfl]
  · intro k hk
    show (s.balances.insert username 0).find? k = s.balances.find? k
    rw [StdMap.find?_insert, if_neg hk]

set_option maxRecDepth 100000 in
unseal Rat.add Rat.sub Rat.mul Rat.inv in
/-- Witness for claim C19: on the fresh ledger, registering `Alice` adds `Alice -> 0`, and
registering `Genesis_User` again changes nothing. -/
theorem addUser_frame_witness :
    (Validator.isAddressFormatValid "Alice" = true
        ∧ demoFresh.balances.contains "Alice" = false)
      ∧ (demoFresh.addUser "Alice").balances.entries = [("Alice", 0), ("Genesis_User", 1000)]
      ∧ (demoFresh.addUser "Alice").balances = demoFresh.balances.insert "Alice" 0
      ∧ demoFresh.addUser "Genesis_User" = demoFresh :=
  ⟨by decide, by decide,
    ((addUser_frame demoFresh "Alice").2.1 (by decide)).1,
    (addUser_frame demoFresh "Genesis_User").2.2 (Or.inr (by decide))⟩

/-! ## The genesis block -/

theorem new_facts (env : Env) (fuel : Nat) (nowTx nowBlock : String) (s : Blockchain)
    (h : Blockchain.new env fuel nowTx nowBlock = some s) :
    ∃ b, s.chain = [b] ∧ b.index = 0 ∧ b.previousHash = "0" ∧ b.difficulty = 4
      ∧ b.transactions = [Transaction.new env nowTx "System" "Genesis_User" 1000 ""]
      ∧ b.balanceSnapshot.entries = [("Genesis_User", 1000)]
      ∧ s.balances.entries = [("Genesis_User", 1000)]
      ∧ (0 < env.hardwareConcurrency → Block.meetsTarget b.hash 4 = true) := by
  obtain ⟨b, hb, hs⟩ := new_inv env fuel nowTx nowBlock s h
  subst hs
  obtain ⟨g1, -, g3, g4, g5, g6⟩ := Block.new_fields _ _ _ _ _ _ _ _ b hb
  refine ⟨b, rfl, g1, g4, g6, g3, ?_, rfl, ?_⟩
  · rw [g5]
    rfl
  · intro hc
    exact Block.new_mined _ _ _ _ _ _ _ _ b hc hb

theorem genesis_returns (env : Env) (nowTx nowBlock : String) (hm : Mineable env 4) :
    ∃ fuel0, ∀ fuel, fuel0 ≤ fuel → (Blockchain.new env fuel nowTx nowBlock).isSome = true := by
  obtain ⟨fuel0, hf⟩ := Block.new_returns env nowBlock 0 "0"
    [Transaction.new env nowTx "System" "Genesis_User" 1000 ""]
    ((StdMap.empty : StdMap ℚ).insert "Genesis_User" 1000) 4 hm
  refine ⟨fuel0, fun fuel hle => ?_⟩
  have h1 := hf fuel hle
  unfold Blockchain.new
  dsimp only
  cases hn : Block.new env fuel nowBlock 0 "0"
      [Transaction.new env nowTx "System" "Genesis_User" 1000 ""]
      ((StdMap.empty : StdMap ℚ).insert "Genesis_User" 1000) 4 with
  | none =>
    rw [hn] at h1
    cases h1
  | some b => rfl

set_option maxRecDepth 100000 in
unseal Rat.add Rat.sub Rat.mul Rat.inv in
/-- Claim C20 fails in the code on its last part: every constructed ledger has exactly one
block, with index 0, previous hash `0`, difficulty 4, the single transaction
`System -> Genesis_User` of 1000 and the snapshot `Genesis_User: 1000`, and the balances
`Genesis_User: 1000`; the construction returns for every large enough fuel when difficulty 4
can be met; and the hash begins with four characters `0` when at least one mining worker runs.
When `std::thread::hardware_concurrency()` returns 0 no worker is started, and the genesis
block keeps the hash of nonce 0, which here does not begin with `0`. -/
theorem genesis_unmined_without_workers :
    (∀ (env : Env) (fuel : Nat) (nowTx nowBlock : String) (s : Blockchain),
        Blockchain.new env fuel nowTx nowBlock = some s →
          ∃ b, s.chain = [b] ∧ b.index = 0 ∧ b.previousHash = "0" ∧ b.difficulty = 4
            ∧ b.transactions = [Transaction.new env nowTx "System" "Genesis_User" 1000 ""]
            ∧ b.transactions.map (fun tx => (tx.sender, tx.receiver, tx.amount))
                = [("System", "Genesis_User", 1000)]
            ∧ b.balanceSnapshot.entries = [("Genesis_User", 1000)]
            ∧ s.balances.entries = [("Genesis_User", 1000)]
            ∧ (0 < env.hardwareConcurrency → Block.meetsTarget b.hash 4 = true))
      ∧ (∀ (env : Env) (nowTx nowBlock : String), Mineable env 4 →
          ∃ fuel0, ∀ fuel, fuel0 ≤ fuel →
            (Blockchain.new env fuel nowTx nowBlock).isSome = true)
      ∧ demoEnvNoWorker.hardwareConcurrency = 0
      ∧ Blockchain.new demoEnvNoWorker 1 demoNow demoNow = some demoUnmined
      ∧ demoUnmined.chain.map (fun b => (b.nonce, b.hash.toList.take 4))
          = [(0, ['f', 'f', 'f', 'f'])]
      ∧ demoUnmined.chain.map (fun b => Block.meetsTarget b.hash 4) = [false] := by
  refine ⟨?_, fun env nowTx nowBlock hm => genesis_returns env nowTx nowBlock hm, rfl,
    by decide, by decide, by decide⟩
  intro env fuel nowTx nowBlock s h
  obtain ⟨b, h1, h2, h3, h4, h5, h6, h7, h8⟩ := new_facts env fuel nowTx nowBlock s h
  refine ⟨b, h1, h2, h3, h4, h5, ?_, h6, h7, h8⟩
  obtain ⟨f1, f2, f3⟩ := genesis_fields env nowTx
  rw [h5]
  simp only [List.map_cons, List.map_nil, f1, f2, f3]

set_option maxRecDepth 100000 in
unseal Rat.add Rat.sub Rat.mul Rat.inv in
/-- Witness for claim C20: the ledger constructed with one mining worker has a genesis block
whose hash begins with four characters `0`. -/
theorem genesis_unmined_without_workers_witness :
    Blockchain.new demoEnv 1 demoNow demoNow = some demoFresh
      ∧ 0 < demoEnv.hardwareConcurrency
      ∧ ∃ b, demoFresh.chain = [b] ∧ Block.meetsTarget b.hash 4 = true :=
  have hfresh : Blockchain.new demoEnv 1 demoNow demoNow = some demoFresh := by decide
  ⟨hfresh, by decide,
    match genesis_unmined_without_workers.1 demoEnv 1 demoNow demoNow demoFresh hfresh with
    | ⟨b, h1, _, _, _, _, _, _, _, h8⟩ => ⟨b, h1, h8 (by decide)⟩⟩

/-- Witness for claim C18: the five Cyrillic letters of `Алиса` have the right length, and
the name is rejected because of its characters. -/
theorem isAddressFormatValid_iff_is_valid_witness :
    "Алиса".length = 5
      ∧ (∃ c ∈ "Алиса".toList, 128 ≤ c.toNat)
      ∧ Validator.isAddressFormatValid "Алиса" = false :=
  ⟨by decide, ⟨'А', by decide, by decide⟩,
    isAddressFormatValid_iff_is_valid.2.2.2.2.2 "Алиса" ⟨'А', by decide, by decide⟩⟩

/-! ## Links between blocks -/

theorem chainLinked_append :
    ∀ (l : List Block) (latest nb : Block), chainLinked l → l.getLast? = some latest →
      blockLinked latest nb → chainLinked (l ++ [nb])
  | [], _, _, _, hg, _ => by cases hg
  | [a], latest, nb, _, hg, hl => by
    simp only [List.getLast?_singleton, Option.some.injEq] at hg
    subst hg
    exact ⟨hl, trivial⟩
  | a :: b :: rest, latest, nb, hc, hg, hl => by
    have hg1 : (b :: rest).getLast? = some latest := by
      rw [List.getLast?_cons_cons] at hg
      exact hg
    exact ⟨hc.1, chainLinked_append (b :: rest) latest nb hc.2 hg1 hl⟩

theorem chainLinked_get :
    ∀ (l : List Block) (i : Nat) (a b : Block), chainLinked l → l[i]? = some a →
      l[i + 1]? = some b → blockLinked a b
  | [], _, _, _, _, ha, _ => by simp at ha
  | [x], i, a, b, _, _, hb => by simp at hb
  | x :: y :: rest, 0, a, b, hc, ha, hb => by
    simp only [List.getElem?_cons_zero, Option.some.injEq] at ha
    simp only [List.getElem?_cons_succ, List.getElem?_cons_zero, Option.some.injEq] at hb
    subst ha
    subst hb
    exact hc.1
  | x :: y :: rest, i + 1, a, b, hc, ha, hb => by
    rw [List.getElem?_cons_succ] at ha hb
    exact chainLinked_get (y :: rest) i a b hc.2 ha hb

theorem chainLinked_index (l : List Block) (hc : chainLinked l)
    (h0 : ∀ g, l[0]? = some g → g.index = 0) :
    ∀ (i : Nat) (b : Block), l[i]? = some b → b.index = (i : Int)
  | 0, b, hb => by
    rw [h0 b hb]
    rfl
  | i + 1, b, hb => by
    have hlt : i + 1 < l.length := by
      by_contra hge
      rw [List.getElem?_eq_none (by omega)] at hb
      cases hb
    have hi : l[i]? = some (l[i]) := List.getElem?_eq_getElem (by omega)
    have ha := chainLinked_index l hc h0 i (l[i]) hi
    obtain ⟨-, h2, -⟩ := chainLinked_get l i (l[i]) b hc hi hb
    rw [h2, ha]
    push_cast
    rfl

theorem reachable_linked (env : Env) (keys : StdMap String → Prop)
    (allowed : List Transaction → Prop) (s : Blockchain) (h : Reachable env keys allowed s) :
    chainLinked s.chain ∧ ∃ g, s.chain[0]? = some g ∧ g.index = 0 := by
  induction h with
  | fresh fuel nowTx nowBlock s hnew =>
    obtain ⟨b, hb, hs⟩ := new_inv env fuel nowTx nowBlock s hnew
    subst hs
    exact ⟨trivial, b, rfl, (Block.new_fields _ _ _ _ _ _ _ _ b hb).1⟩
  | addUser s username _ ih =>
    rw [addUser_chain]
    exact ih
  | appended s s1 fuel now txs publicKeys _ _ _ ha ih =>
    obtain ⟨hc, g, hg, hg0⟩ := ih
    obtain ⟨b1, t1, latest, nb, -, hlast, hn, hchain, -⟩ :=
      addBlock_appended_inv env fuel now s s1 txs publicKeys ha
    obtain ⟨f1, -, -, f4, -, f6⟩ := Block.new_fields _ _ _ _ _ _ _ _ nb hn
    rw [hchain]
    refine ⟨chainLinked_append s.chain latest nb hc hlast ⟨f4, f1, f6⟩, g, ?_, hg0⟩
    have hlt : 0 < s.chain.length := by
      by_contra hge
      rw [List.getElem?_eq_none (by omega)] at hg
      cases hg
    rw [List.getElem?_append_left hlt]
    exact hg
  | aborted s s1 fuel now txs publicKeys _ _ ha ih =>
    rw [addBlock_not_appended_chain env fuel now s s1 txs publicKeys (Or.inl ha)]
    exact ih
  | raised s s1 fuel now txs publicKeys what _ _ ha ih =>
    rw [addBlock_not_appended_chain env fuel now s s1 txs publicKeys (Or.inr ⟨what, ha⟩)]
    exact ih

/-- Claim C21: in every ledger reached from a freshly constructed one by calls of `addUser` and
`addBlock` (any batches, any key maps, whatever way the calls end), every block after the
first has as previous hash the hash of the block before it, an index one above it and the same
difficulty, and the block at position `i` has index `i` (indices taken as integers). -/
theorem reachable_chain_linked (env : Env) (s : Blockchain)
    (h : Reachable env (fun _ => True) (fun _ => True) s) :
    (∀ (i : Nat) (a b : Block), s.chain[i]? = some a → s.chain[i + 1]? = some b →
        b.previousHash = a.hash ∧ b.index = a.index + 1 ∧ b.difficulty = a.difficulty)
      ∧ ∀ (i : Nat) (b : Block), s.chain[i]? = some b → b.index = (i : Int) := by
  obtain ⟨hc, g, hg, hg0⟩ := reachable_linked env _ _ s h
  refine ⟨fun i a b ha hb => chainLinked_get s.chain i a b hc ha hb, ?_⟩
  apply chainLinked_index s.chain hc
  intro g1 hg1
  rw [hg] at hg1
  injection hg1 with e
  rw [← e]
  exact hg0

set_option maxRecDepth 100000 in
unseal Rat.add Rat.sub Rat.mul Rat.inv in
/-- Witness for claim C21: the fresh ledger after registering `Alice` and appending the signed
transfer `Genesis_User -> Alice` of 250 has two blocks, with indices 0 and 1. -/
theorem reachable_chain_linked_witness :
    Reachable demoEnv (fun _ => True) (fun _ => True) demoReached
      ∧ demoReached.chain.map (fun b => b.index) = [0, 1]
      ∧ ∀ (i : Nat) (b : Block), demoReached.chain[i]? = some b → b.index = (i : Int) :=
  have hfresh : Blockchain.new demoEnv 1 demoNow demoNow = some demoFresh := by decide
  have hrun : Blockchain.addBlock demoEnv 1 demoNow (demoFresh.addUser "Alice")
      [demoTransfer250] demoKeys = .appended demoReached := by decide
  have hreach : Reachable demoEnv (fun _ => True) (fun _ => True) demoReached :=
    Reachable.appended (demoFresh.addUser "Alice") demoReached 1 demoNow [demoTransfer250]
      demoKeys
      (Reachable.addUser demoFresh "Alice" (Reachable.fresh 1 demoNow demoNow demoFresh hfresh))
      trivial trivial hrun
  ⟨hreach, by decide, (reachable_chain_linked demoEnv demoReached hreach).2⟩

/-! ## The snapshot filter, twice -/

theorem filterStageTwo_stageOne (txs : List Transaction) (m : StdMap ℚ) :
    filterStageTwo txs (filterStageOne txs m) = filterStageOne txs m := by
  apply StdMap.ext_entries
  show (m.entries.filter _).filter _ = m.entries.filter _
  rw [List.filter_filter]
  apply List.filter_congr
  intro x _
  cases h1 : (x.2 != 0) <;> cases h2 : isInvolved txs x.1 <;> simp_all

theorem snapshotFilter_idem (txs : List Transaction) (m : StdMap ℚ) :
    Blockchain.snapshotFilter txs (Blockchain.snapshotFilter txs m)
      = Blockchain.snapshotFilter txs m := by
  apply StdMap.ext_entries
  show (m.entries.filter _).filter _ = m.entries.filter _
  rw [List.filter_filter]
  apply List.filter_congr
  intro x _
  simp

/-- Claim C27: for every balance map and every transaction list, the two stages of the filter
of `isChainValid` together return exactly the map that the snapshot filter of `addBlock`
returns; the second stage removes nothing from what the first stage kept; and filtering a
second time changes nothing. -/
theorem two_stage_filter_is_snapshot_filter (txs : List Transaction) (m : StdMap ℚ) :
    Blockchain.filteredTemp txs m = Blockchain.snapshotFilter txs m
      ∧ Blockchain.filteredTemp txs m = filterStageTwo txs (filterStageOne txs m)
      ∧ filterStageOne txs m = Blockchain.snapshotFilter txs m
      ∧ filterStageTwo txs (filterStageOne txs m) = filterStageOne txs m
      ∧ Blockchain.snapshotFilter txs (Blockchain.snapshotFilter txs m)
          = Blockchain.snapshotFilter txs m
      ∧ Blockchain.filteredTemp txs (Blockchain.filteredTemp txs m)
          = Blockchain.filteredTemp txs m := by
  refine ⟨filteredTemp_eq_snapshotFilter txs m, rfl, rfl, filterStageTwo_stageOne txs m,
    snapshotFilter_idem txs m, ?_⟩
  rw [filteredTemp_eq_snapshotFilter, filteredTemp_eq_snapshotFilter, snapshotFilter_idem]

/-! ## The block loop reads only the block before -/

theorem validateBlocks_seed_unread (env : Env) (publicKeys : StdMap String) (p : Block)
    (t1 t2 : StdMap ℚ) (isValid : Bool) (blocks : List Block) :
    Blockchain.validateBlocks env publicKeys (some p) t1 isValid blocks
      = Blockchain.validateBlocks env publicKeys (some p) t2 isValid blocks := by
  cases blocks with
  | nil => rfl
  | cons current rest =>
    unfold Blockchain.validateBlocks
    rfl

theorem validateBlocksUnpropagated_step (env : Env) (publicKeys : StdMap String)
    (prev : Option Block) (temp : StdMap ℚ) (isValid : Bool) (current : Block)
    (rest : List Block) (h : ¬ current.hash.length < 56) :
    Blockchain.validateBlocksUnpropagated env publicKeys prev temp isValid (current :: rest)
      = match Blockchain.validateTransactions env publicKeys current.transactions
            (seedOr prev temp) (isValid && headerOk env prev current) with
        | .error e => .error e
        | .ok (t1, v4) =>
          Blockchain.validateBlocksUnpropagated env publicKeys (some current) t1
            (v4 && decide (current.balanceSnapshot
              = Blockchain.filteredTemp current.transactions t1)) rest := by
  cases prev with
  | none =>
    simp only [Blockchain.validateBlocksUnpropagated, h, if_false, seedOr, headerOk,
      Bool.and_true, Bool.and_assoc]
  | some p =>
    simp only [Blockchain.validateBlocksUnpropagated, h, if_false, seedOr, headerOk,
      Bool.and_assoc]

theorem validateBlocksUnpropagated_eq (env : Env) (publicKeys : StdMap String) :
    ∀ (blocks : List Block) (prev : Option Block) (temp : StdMap ℚ) (isValid : Bool),
      Blockchain.validateBlocksUnpropagated env publicKeys prev temp isValid blocks
        = Blockchain.validateBlocks env publicKeys prev temp isValid blocks
  | [], _, _, _ => rfl
  | current :: rest, prev, temp, isValid => by
    by_cases h : current.hash.length < 56
    · rw [validateBlocks_short env publicKeys prev temp isValid current rest h]
      simp only [Blockchain.validateBlocksUnpropagated, h, if_true]
    · rw [validateBlocks_step env publicKeys prev temp isValid current rest h,
        validateBlocksUnpropagated_step env publicKeys prev temp isValid current rest h]
      cases hv : Blockchain.validateTransactions env publicKeys current.transactions
          (seedOr prev temp) (isValid && headerOk env prev current) with
      | error e => rfl
      | ok r =>
        obtain ⟨t1, v4⟩ := r
        dsimp only
        rw [validateBlocksUnpropagated_eq env publicKeys rest (some current) t1 _]
        exact validateBlocks_seed_unread env publicKeys current _ _ _ rest

theorem validateBlocks_verdicts (env : Env) (publicKeys : StdMap String) :
    ∀ (blocks : List Block) (prev : Option Block) (temp : StdMap ℚ),
      (prev = none → temp = StdMap.empty) →
      Blockchain.validateBlocks env publicKeys prev temp true blocks
        = conjVerdicts (blockVerdicts env publicKeys prev blocks)
  | [], _, _, _ => rfl
  | current :: rest, prev, temp, hp => by
    have hseed : seedOr prev temp
        = (match prev.map (fun p => (p.hash, p.balanceSnapshot)) with
          | some p => p.2
          | none => StdMap.empty) := by
      cases prev with
      | none => exact hp rfl
      | some p => rfl
    have hhead : headerOk env prev current
        = (Block.meetsTarget current.hash current.difficulty
          && decide (current.hash = current.calculateBlockHash env)
          && (match prev.map (fun p => (p.hash, p.balanceSnapshot)) with
            | some p => decide (current.previousHash = p.1)
            | none => true)) := by
      cases prev <;> rfl
    by_cases h : current.hash.length < 56
    · rw [validateBlocks_short env publicKeys prev temp true current rest h]
      simp only [blockVerdicts, blockVerdict, h, if_true, conjVerdicts]
    · rw [validateBlocks_step env publicKeys prev temp true current rest h,
        validateTransactions_flag]
      simp only [blockVerdicts, blockVerdict, h, if_false]
      rw [← hseed, ← hhead]
      cases hv : Blockchain.validateTransactions env publicKeys current.transactions
          (seedOr prev temp) true with
      | error e => simp only [conjVerdicts]
      | ok r =>
        obtain ⟨t1, v⟩ := r
        dsimp only
        rw [validateBlocks_flag env publicKeys rest (some current) _ _,
          validateBlocks_verdicts env publicKeys rest (some current) _ (fun e => by cases e)]
        cases hc : conjVerdicts (blockVerdicts env publicKeys (some current) rest) with
        | error e => simp [conjVerdicts, hc]
        | ok w => simp [conjVerdicts, hc, Bool.and_assoc]

/-- Claim C28: for every chain and every key map, `isChainValid` without the assignment
`tempBalances = filteredTemp` at the end of each iteration returns (or raises) what
`isChainValid` does; from the second block on, the map carried by the loop is never read; and
the result of `isChainValid` is the conjunction, in chain order, of one verdict per block that
reads only that block, the hash and the snapshot of the block before it, and the public
keys. -/
theorem validate_reads_only_previous_block (env : Env) (s : Blockchain)
    (publicKeys : StdMap String) :
    Blockchain.isChainValidUnpropagated env s publicKeys
        = Blockchain.isChainValid env s publicKeys
      ∧ (∀ (p : Block) (t1 t2 : StdMap ℚ) (isValid : Bool) (blocks : List Block),
          Blockchain.validateBlocks env publicKeys (some p) t1 isValid blocks
            = Blockchain.validateBlocks env publicKeys (some p) t2 isValid blocks)
      ∧ Blockchain.isChainValid env s publicKeys
          = conjVerdicts (blockVerdicts env publicKeys none s.chain) :=
  ⟨validateBlocksUnpropagated_eq env publicKeys s.chain none StdMap.empty true,
    fun p t1 t2 isValid blocks =>
      validateBlocks_seed_unread env publicKeys p t1 t2 isValid blocks,
    validateBlocks_verdicts env publicKeys s.chain none StdMap.empty (fun _ => rfl)⟩

/-! ## What an aborted batch leaves behind -/

theorem getBalance_eq_at0 (s : Blockchain) (u : String) : s.getBalance u = s.balances.at0 u := by
  unfold Blockchain.getBalance StdMap.at0
  cases s.balances.find? u <;> rfl

theorem find?_ensure_zero (balances : StdMap ℚ) (r k : String) (tail : Bool) :
    (if (if (!balances.contains r) = true then balances.insert r 0 else balances).contains k
        = true
      then (if (!balances.contains r) = true then balances.insert r 0 else balances).find? k
      else if tail = true then some 0 else none)
      = if balances.contains k = true then balances.find? k
        else if ((r == k) || tail) = true then some 0 else none := by
  by_cases hr : balances.contains r = true
  · simp only [hr, Bool.not_true, Bool.false_eq_true, if_false]
    by_cases hk : balances.contains k = true
    · simp only [hk, if_true]
    · have hne : (r == k) = false := by
        rw [beq_eq_false_iff_ne]
        intro e
        rw [e] at hr
        exact hk hr
      simp only [hk, if_false, hne, Bool.false_or]
  · simp only [Bool.not_eq_true] at hr
    simp only [hr, Bool.not_false, if_true, StdMap.contains_insert, StdMap.find?_insert]
    by_cases e : k = r
    · subst e
      simp [hr]
    · have hne : (r == k) = false := by
        rw [beq_eq_false_iff_ne]
        exact fun e1 => e e1.symm
      simp only [e, decide_False, Bool.false_or, if_false, hne]

theorem addBlockLoop_stopped (env : Env) (publicKeys : StdMap String) :
    ∀ (txs : List Transaction) (balances temp b1 : StdMap ℚ),
      (Blockchain.addBlockLoop env publicKeys txs balances temp = .returned b1
        ∨ ∃ e, Blockchain.addBlockLoop env publicKeys txs balances temp = .thrown b1 e) →
      ∃ pre failing post, txs = pre ++ failing :: post
        ∧ batchAccepted env publicKeys pre temp
        ∧ ¬ batchAccepted env publicKeys [failing] (applyBatch temp pre)
        ∧ ∀ k, b1.find? k
            = if balances.contains k = true then balances.find? k
              else if pre.any (fun tx => tx.receiver == k) = true then some 0 else none
  | [], balances, temp, b1, h => by
    rcases h with h | ⟨e, h⟩ <;> cases h
  | tx :: rest, balances, temp, b1, h => by
    have base : ∀ k, balances.find? k
        = if balances.contains k = true then balances.find? k
          else if ([] : List Transaction).any (fun tx => tx.receiver == k) = true then some 0
            else none := by
      intro k
      by_cases hk : balances.contains k = true
      · rw [if_pos hk]
      · rw [if_neg hk]
        simp only [List.any_nil, Bool.false_eq_true, if_false]
        unfold StdMap.contains at hk
        cases hf : balances.find? k with
        | none => rfl
        | some v => simp [hf] at hk
    unfold Blockchain.addBlockLoop at h
    cases hk : publicKeys.find? tx.sender with
    | none =>
      rw [hk] at h
      dsimp only at h
      have e : b1 = balances := by
        rcases h with h | ⟨e, h⟩
        · injection h with h
          exact h.symm
        · cases h
      subst e
      refine ⟨[], tx, rest, rfl, trivial, ?_, base⟩
      rintro ⟨⟨key, hkey, -, -⟩, -⟩
      rw [hk] at hkey
      cases hkey
    | some key =>
      rw [hk] at h
      dsimp only at h
      by_cases ha : Validator.isAddressFormatValid tx.receiver = true
      · rw [if_neg (by simp [ha])] at h
        cases hv : Blockchain.isTransactionValid env tx key temp with
        | error e0 =>
          rw [hv] at h
          dsimp only at h
          have e : b1 = balances := by
            rcases h with h | ⟨e, h⟩
            · cases h
            · injection h with h
              exact h.symm
          subst e
          refine ⟨[], tx, rest, rfl, trivial, ?_, base⟩
          rintro ⟨⟨key1, hkey, -, hv1⟩, -⟩
          rw [hk] at hkey
          injection hkey with hkey
          subst hkey
          have hv2 : Blockchain.isTransactionValid env tx key temp = .ok true := hv1
          rw [hv] at hv2
          cases hv2
        | ok r =>
          cases r with
          | false =>
            rw [hv] at h
            dsimp only at h
            have e : b1 = balances := by
              rcases h with h | ⟨e, h⟩
              · injection h with h
                exact h.symm
              · cases h
            subst e
            refine ⟨[], tx, rest, rfl, trivial, ?_, base⟩
            rintro ⟨⟨key1, hkey, -, hv1⟩, -⟩
            rw [hk] at hkey
            injection hkey with hkey
            subst hkey
            have hv2 : Blockchain.isTransactionValid env tx key temp = .ok true := hv1
            rw [hv] at hv2
            cases hv2
          | true =>
            rw [hv] at h
            dsimp only at h
            obtain ⟨pre, failing, post, h1, h2, h3, h4⟩ :=
              addBlockLoop_stopped env publicKeys rest _ _ b1 h
            refine ⟨tx :: pre, failing, post, by rw [h1]; rfl, ⟨⟨key, hk, ha, hv⟩, h2⟩, h3, ?_⟩
            intro k
            rw [h4 k, List.any_cons]
            exact find?_ensure_zero balances tx.receiver k _
      · rw [if_pos (by simp [ha])] at h
        have e : b1 = balances := by
          rcases h with h | ⟨e, h⟩
          · injection h with h
            exact h.symm
          · cases h
        subst e
        refine ⟨[], tx, rest, rfl, trivial, ?_, base⟩
        rintro ⟨⟨key1, -, hr, -⟩, -⟩
        exact ha hr

theorem addBlock_stopped (env : Env) (fuel : Nat) (now : String) (s s1 : Blockchain)
    (txs : List Transaction) (publicKeys : StdMap String)
    (ho : Blockchain.addBlock env fuel now s txs publicKeys = .aborted s1
      ∨ ∃ e, Blockchain.addBlock env fuel now s txs publicKeys = .raised s1 e) :
    Blockchain.addBlockLoop env publicKeys txs s.balances s.balances = .returned s1.balances
      ∨ ∃ e, Blockchain.addBlockLoop env publicKeys txs s.balances s.balances
          = .thrown s1.balances e := by
  unfold Blockchain.addBlock at ho
  cases hloop : Blockchain.addBlockLoop env publicKeys txs s.balances s.balances with
  | returned b =>
    rw [hloop] at ho
    dsimp only at ho
    rcases ho with ho | ⟨e, ho⟩
    · injection ho with ho
      subst ho
      exact Or.inl rfl
    · cases ho
  | thrown b e =>
    rw [hloop] at ho
    dsimp only at ho
    rcases ho with ho | ⟨e1, ho⟩
    · cases ho
    · injection ho with ho he
      subst ho
      exact Or.inr ⟨e, rfl⟩
  | finished b t =>
    rw [hloop] at ho
    dsimp only at ho
    cases hg : s.chain.getLast? with
    | none =>
      rw [hg] at ho
      rcases ho with ho | ⟨e1, ho⟩ <;> cases ho
    | some latest =>
      rw [hg] at ho
      dsimp only at ho
      split at ho
      · rcases ho with ho | ⟨e1, ho⟩ <;> cases ho
      · rcases ho with ho | ⟨e1, ho⟩ <;> cases ho

theorem addBlock_stopped_frame (env : Env) (fuel : Nat) (now : String) (s s1 : Blockchain)
    (txs : List Transaction) (publicKeys : StdMap String)
    (ho : Blockchain.addBlock env fuel now s txs publicKeys = .aborted s1
      ∨ ∃ e, Blockchain.addBlock env fuel now s txs publicKeys = .raised s1 e) :
    s1.chain = s.chain
      ∧ (∀ u, s1.getBalance u = s.getBalance u)
      ∧ ∃ pre failing post, txs = pre ++ failing :: post
          ∧ (∀ tx ∈ pre, Validator.isAddressFormatValid tx.receiver = true)
          ∧ ∀ k, s1.balances.find? k
              = if s.balances.contains k = true then s.balances.find? k
                else if pre.any (fun tx => tx.receiver == k) = true then some 0 else none := by
  have hl := addBlock_stopped env fuel now s s1 txs publicKeys ho
  refine ⟨addBlock_not_appended_chain env fuel now s s1 txs publicKeys ho, ?_, ?_⟩
  · intro u
    rw [getBalance_eq_at0, getBalance_eq_at0]
    have h := addBlockLoop_live_at0 env publicKeys u txs s.balances s.balances
    rcases hl with hl | ⟨e, hl⟩
    · rw [hl] at h
      exact h
    · rw [hl] at h
      exact h
  · obtain ⟨pre, failing, post, h1, h2, -, h4⟩ :=
      addBlockLoop_stopped env publicKeys txs s.balances s.balances s1.balances hl
    refine ⟨pre, failing, post, h1, ?_, h4⟩
    intro tx htx
    obtain ⟨key, w1, -, hr, -⟩ := batchAccepted_mem env publicKeys pre s.balances h2 tx htx
    exact hr

/-- Claim C30: when `addBlock` ends without appending (early return, or an exception out of
the signature check), the chain is unchanged and `getBalance` returns for every name what it
returned before; the batch splits into the transactions before the failing one, the failing
one and the rest, the receivers of the former are valid addresses, and the balances map after
the call holds every entry it held before, with the same value, plus an entry with balance 0
for each receiver of a transaction before the failing one that was not a key, and nothing
else. -/
theorem aborted_addBlock_frame (env : Env) (fuel : Nat) (now : String) (s s1 : Blockchain)
    (txs : List Transaction) (publicKeys : StdMap String)
    (ho : Blockchain.addBlock env fuel now s txs publicKeys = .aborted s1
      ∨ ∃ e, Blockchain.addBlock env fuel now s txs publicKeys = .raised s1 e) :
    s1.chain = s.chain
      ∧ (∀ u, s1.getBalance u = s.getBalance u)
      ∧ ∃ pre failing post, txs = pre ++ failing :: post
          ∧ (∀ tx ∈ pre, Validator.isAddressFormatValid tx.receiver = true)
          ∧ ∀ k, s1.balances.find? k
              = if s.balances.contains k = true then s.balances.find? k
                else if pre.any (fun tx => tx.receiver == k) = true then some 0 else none :=
  addBlock_stopped_frame env fuel now s s1 txs publicKeys ho

set_option maxRecDepth 100000 in
unseal Rat.add Rat.sub Rat.mul Rat.inv in
/-- Witness for claim C30: on the fresh ledger, the batch of a transfer of 10 to the
unregistered `Bob` and an overdrawing transfer to `Carol` is aborted; the chain is unchanged
and the balances gain the entry `Bob: 0`. -/
theorem aborted_addBlock_frame_witness :
    Blockchain.addBlock demoEnv 1 demoNow demoFresh demoBatchOverdraw demoKeys
        = .aborted { chain := demoFresh.chain, balances := demoFresh.balances.insert "Bob" 0 }
      ∧ (demoFresh.balances.insert "Bob" 0).entries = [("Bob", 0), ("Genesis_User", 1000)]
      ∧ ∀ u, Blockchain.getBalance
          { chain := demoFresh.chain, balances := demoFresh.balances.insert "Bob" 0 } u
          = demoFresh.getBalance u :=
  have hrun : Blockchain.addBlock demoEnv 1 demoNow demoFresh demoBatchOverdraw demoKeys
      = .aborted { chain := demoFresh.chain, balances := demoFresh.balances.insert "Bob" 0 } := by
    decide
  ⟨hrun, by decide,
    (aborted_addBlock_frame demoEnv 1 demoNow demoFresh
      { chain := demoFresh.chain, balances := demoFresh.balances.insert "Bob" 0 }
      demoBatchOverdraw demoKeys (Or.inl hrun)).2.1⟩

/-! ## No overdraft -/

theorem nonNegative_at0 (m : StdMap ℚ) (h : nonNegative m) (k : String) (hk : k ≠ "System") :
    0 ≤ m.at0 k := by
  unfold StdMap.at0
  cases hf : m.find? k with
  | none => exact le_refl 0
  | some v => exact h k v hk hf

theorem nonNegative_insert (m : StdMap ℚ) (h : nonNegative m) (k : String) (v : ℚ)
    (hv : k ≠ "System" → 0 ≤ v) : nonNegative (m.insert k v) := by
  intro j w hj hf
  rw [StdMap.find?_insert] at hf
  by_cases e : j = k
  · rw [if_pos e] at hf
    injection hf with hf
    rw [← hf]
    exact hv (e ▸ hj)
  · rw [if_neg e] at hf
    exact h j w hj hf

theorem nonNegative_filter (m : StdMap ℚ) (h : nonNegative m) (p : String → ℚ → Bool) :
    nonNegative (m.filter p) := by
  intro j w hj hf
  rw [StdMap.find?_filter] at hf
  cases hm : m.find? j with
  | none =>
    rw [hm] at hf
    cases hf
  | some v =>
    rw [hm] at hf
    by_cases hp : p j v = true
    · simp only [Option.filter, hp, if_true, Option.some.injEq] at hf
      rw [← hf]
      exact h j v hj hm
    · simp only [Option.filter, hp] at hf
      cases hf

theorem nonNegative_applyTransaction (env : Env) (tx : Transaction) (key : String)
    (w : StdMap ℚ) (h : nonNegative w) (ha : 0 ≤ tx.amount)
    (hv : Blockchain.isTransactionValid env tx key w = .ok true) :
    nonNegative (applyTransaction w tx) := by
  unfold applyTransaction
  dsimp only
  have h1 : nonNegative (w.insert tx.sender (w.at0 tx.sender - tx.amount)) := by
    apply nonNegative_insert w h
    intro hs
    have := (accepted_sender_contained env tx key w hs hv).2.1
    linarith
  apply nonNegative_insert _ h1
  intro hr
  have := nonNegative_at0 _ h1 tx.receiver hr
  linarith

theorem nonNegative_applyBatch (env : Env) (publicKeys : StdMap String) :
    ∀ (txs : List Transaction) (w : StdMap ℚ), nonNegative w →
      (∀ tx ∈ txs, 0 ≤ tx.amount) → batchAccepted env publicKeys txs w →
        nonNegative (applyBatch w txs)
  | [], _, h, _, _ => h
  | tx :: rest, w, h, ha, hacc => by
    obtain ⟨⟨key, -, -, hv⟩, hrest⟩ := hacc
    exact nonNegative_applyBatch env publicKeys rest (applyTransaction w tx)
      (nonNegative_applyTransaction env tx key w h (ha tx (List.mem_cons_self _ _)) hv)
      (fun x hx => ha x (List.mem_cons_of_mem _ hx)) hrest

theorem nonNegative_stopped (env : Env) (fuel : Nat) (now : String) (s s1 : Blockchain)
    (txs : List Transaction) (publicKeys : StdMap String) (h : nonNegative s.balances)
    (ho : Blockchain.addBlock env fuel now s txs publicKeys = .aborted s1
      ∨ ∃ e, Blockchain.addBlock env fuel now s txs publicKeys = .raised s1 e) :
    nonNegative s1.balances := by
  obtain ⟨-, -, pre, failing, post, -, -, hf⟩ :=
    addBlock_stopped_frame env fuel now s s1 txs publicKeys ho
  intro k v hk hfind
  rw [hf k] at hfind
  by_cases hc : s.balances.contains k = true
  · rw [if_pos hc] at hfind
    exact h k v hk hfind
  · rw [if_neg hc] at hfind
    by_cases hp : pre.any (fun tx => tx.receiver == k) = true
    · rw [if_pos hp] at hfind
      injection hfind with hfind
      rw [← hfind]
    · rw [if_neg hp] at hfind
      cases hfind

theorem nonNegative_appended (env : Env) (fuel : Nat) (now : String) (s s1 : Blockchain)
    (txs : List Transaction) (publicKeys : StdMap String) (h : nonNegative s.balances)
    (ha : ∀ tx ∈ txs, 0 ≤ tx.amount)
    (ho : Blockchain.addBlock env fuel now s txs publicKeys = .appended s1) :
    nonNegative s1.balances := by
  obtain ⟨b1, t1, latest, nb, hl, -, -, -, hb⟩ :=
    addBlock_appended_inv env fuel now s s1 txs publicKeys ho
  obtain ⟨ht, -, -, hacc⟩ := addBlockLoop_finished env publicKeys txs _ _ _ _ hl
  rw [hb, ht]
  exact nonNegative_filter _ (nonNegative_applyBatch env publicKeys txs s.balances h ha hacc) _

theorem nonNegative_addUser (s : Blockchain) (username : String) (h : nonNegative s.balances) :
    nonNegative (s.addUser username).balances := by
  unfold Blockchain.addUser
  split
  · exact h
  · split
    · exact nonNegative_insert s.balances h username 0 (fun _ => le_refl 0)
    · exact h

theorem reachable_nonNegative (env : Env) (keys : StdMap String → Prop) (s : Blockchain)
    (h : Reachable env keys (fun txs => ∀ tx ∈ txs, 0 ≤ tx.amount) s) :
    nonNegative s.balances := by
  induction h with
  | fresh fuel nowTx nowBlock s hnew =>
    rw [new_balances env fuel nowTx nowBlock s hnew]
    apply nonNegative_insert
    · intro k v _ hf
      cases hf
    · intro _
      norm_num
  | addUser s username _ ih => exact nonNegative_addUser s username ih
  | appended s s1 fuel now txs publicKeys _ _ hal ha ih =>
    exact nonNegative_appended env fuel now s s1 txs publicKeys ih hal ha
  | aborted s s1 fuel now txs publicKeys _ _ ha ih =>
    exact nonNegative_stopped env fuel now s s1 txs publicKeys ih (Or.inl ha)
  | raised s s1 fuel now txs publicKeys what _ _ ha ih =>
    exact nonNegative_stopped env fuel now s s1 txs publicKeys ih (Or.inr ⟨what, ha⟩)

theorem new_amount_nonneg (env : Env) (now fromAddr toAddr : String) (value : ℚ)
    (meta : String) : 0 ≤ (Transaction.new env now fromAddr toAddr value meta).amount := by
  unfold Transaction.new
  dsimp only
  split
  · rename_i hv
    exact le_of_lt hv
  · exact le_refl 0

/-- Claim C29: with amounts as exact rationals, in every ledger reached from a freshly
constructed one by calls of `addUser` and `addBlock` (any key maps, any order and repetition of
transactions in a batch, whatever way the calls end), where the transactions of appended
batches have an amount of at least 0, as every transaction built by the constructor has, every
entry of the balances other than the entry of `System` is at least 0. -/
theorem balances_never_negative (env : Env) (s : Blockchain)
    (h : Reachable env (fun _ => True) (fun txs => ∀ tx ∈ txs, 0 ≤ tx.amount) s) :
    (∀ k v, k ≠ "System" → s.balances.find? k = some v → 0 ≤ v)
      ∧ (∀ u, u ≠ "System" → 0 ≤ s.getBalance u)
      ∧ ∀ (now fromAddr toAddr : String) (value : ℚ) (meta : String) (keys : List String),
          0 ≤ ((Transaction.new env now fromAddr toAddr value meta).signCalls env keys).amount := by
  have hn := reachable_nonNegative env _ s h
  refine ⟨hn, ?_, ?_⟩
  · intro u hu
    rw [getBalance_eq_at0]
    exact nonNegative_at0 _ hn u hu
  · intro now fromAddr toAddr value meta keys
    rw [(signCalls_keeps_fields env keys _).2.2]
    exact new_amount_nonneg env now fromAddr toAddr value meta

set_option maxRecDepth 100000 in
unseal Rat.add Rat.sub Rat.mul Rat.inv in
/-- Witness for claim C29: the fresh ledger after registering `Alice` and appending the signed
transfer `Genesis_User -> Alice` of 250. -/
theorem balances_never_negative_witness :
    Reachable demoEnv (fun _ => True) (fun txs => ∀ tx ∈ txs, 0 ≤ tx.amount) demoReached
      ∧ demoReached.balances.entries = [("Alice", 250), ("Genesis_User", 750)]
      ∧ ∀ k v, k ≠ "System" → demoReached.balances.find? k = some v → 0 ≤ v :=
  have hfresh : Blockchain.new demoEnv 1 demoNow demoNow = some demoFresh := by decide
  have hrun : Blockchain.addBlock demoEnv 1 demoNow (demoFresh.addUser "Alice")
      [demoTransfer250] demoKeys = .appended demoReached := by decide
  have hal : ∀ tx ∈ [demoTransfer250], 0 ≤ tx.amount := by decide
  have hreach : Reachable demoEnv (fun _ => True) (fun txs => ∀ tx ∈ txs, 0 ≤ tx.amount)
      demoReached :=
    Reachable.appended (demoFresh.addUser "Alice") demoReached 1 demoNow [demoTransfer250]
      demoKeys
      (Reachable.addUser demoFresh "Alice" (Reachable.fresh 1 demoNow demoNow demoFresh hfresh))
      trivial hal hrun
  ⟨hreach, by decide, (balances_never_negative demoEnv demoReached hreach).1⟩

/-! ## The worker pool -/

set_option maxRecDepth 100000 in
/-- Claim C24 fails in the code: the workers do not compete for `found`; each worker that finds
a satisfying hash assigns `nonce`, then `hash`, then stores `found`. With two workers that
fetch the nonces 0 and 1, both satisfying, and the schedule `demoRaceSchedule`, both workers
write, every worker returns, and the block is left with the nonce of the second worker and the
hash of the first one, which is not the hash of the stored nonce. -/
theorem c24_both_workers_write :
    (demoCandidate.mineBlockUnder demoEnvTwoWorkers 4 (demoRaceSchedule.take 5)).block.nonce = 0
      ∧ (demoCandidate.mineBlockUnder demoEnvTwoWorkers 4 (demoRaceSchedule.take 6)).block.nonce
          = 1
      ∧ (demoCandidate.mineBlockUnder demoEnvTwoWorkers 4 (demoRaceSchedule.take 6)).found
          = false
      ∧ (demoCandidate.mineBlockUnder demoEnvTwoWorkers 4 demoRaceSchedule).joined = true
      ∧ (demoCandidate.mineBlockUnder demoEnvTwoWorkers 4 demoRaceSchedule).block.nonce = 1
      ∧ (demoCandidate.mineBlockUnder demoEnvTwoWorkers 4 demoRaceSchedule).block.hash
          = demoCandidate.calculateBlockHashWithNonce demoEnvTwoWorkers 0
      ∧ (demoCandidate.mineBlockUnder demoEnvTwoWorkers 4 demoRaceSchedule).block.hash
          ≠ (demoCandidate.mineBlockUnder demoEnvTwoWorkers 4
              demoRaceSchedule).block.calculateBlockHashWithNonce demoEnvTwoWorkers
              (demoCandidate.mineBlockUnder demoEnvTwoWorkers 4 demoRaceSchedule).block.nonce := by
  decide

theorem meetsTarget_zero (hash : String) : Block.meetsTarget hash 0 = true := by
  simp [Block.meetsTarget]

theorem singleWorkerStage_late (env : Env) (b : Block) (n : Nat) :
    singleWorkerStage env b (n + 5) = singleWorkerStage env b 5 := rfl

theorem singleWorkerStage_step (env : Env) (b : Block) (k i : Nat) :
    (singleWorkerStage env b k).step env 0 i = singleWorkerStage env b k
      ∨ (singleWorkerStage env b k).step env 0 i = singleWorkerStage env b (k + 1) := by
  cases i with
  | succ j =>
    left
    match k with
    | 0 | 1 | 2 | 3 | 4 | n + 5 => rfl
  | zero =>
    match k with
    | 0 =>
      right
      rfl
    | 1 =>
      right
      have hw : wrapInt32 1 = 1 := by decide
      simp [singleWorkerStage, MinerState.step, meetsTarget_zero, hw]
    | 2 =>
      right
      rfl
    | 3 =>
      right
      rfl
    | 4 =>
      right
      rfl
    | n + 5 =>
      left
      rfl

theorem singleWorkerStage_run (env : Env) (b : Block) :
    ∀ (schedule : List Nat) (k : Nat),
      ∃ k1, k ≤ k1 ∧ MinerState.run env 0 (singleWorkerStage env b k) schedule
        = singleWorkerStage env b k1
  | [], k => ⟨k, le_refl k, rfl⟩
  | i :: rest, k => by
    have hstep : MinerState.run env 0 (singleWorkerStage env b k) (i :: rest)
        = MinerState.run env 0 ((singleWorkerStage env b k).step env 0 i) rest := rfl
    rw [hstep]
    rcases singleWorkerStage_step env b k i with h | h
    · rw [h]
      obtain ⟨k1, h1, h2⟩ := singleWorkerStage_run env b rest k
      exact ⟨k1, h1, h2⟩
    · rw [h]
      obtain ⟨k1, h1, h2⟩ := singleWorkerStage_run env b rest (k + 1)
      exact ⟨k1, by omega, h2⟩

theorem singleWorkerStage_joined (env : Env) (b : Block) (k : Nat)
    (h : (singleWorkerStage env b k).joined = true) :
    singleWorkerStage env b k = singleWorkerStage env b 5 := by
  match k with
  | 0 | 1 | 2 | 3 | 4 => simp [singleWorkerStage, MinerState.joined] at h
  | n + 5 => rfl

theorem single_worker_zero (env : Env) (b : Block) (schedule : List Nat)
    (h1 : env.hardwareConcurrency = 1) :
    ((b.mineBlockUnder env 0 schedule).joined = true →
        (b.mineBlockUnder env 0 schedule).block
            = { b with nonce := 0, hash := b.calculateBlockHashWithNonce env 0 }
          ∧ (b.mineBlockUnder env 0 schedule).atomicNonce = 1)
      ∧ (b.mineBlockUnder env 0 ([0, 0, 0, 0, 0] ++ schedule)).joined = true := by
  have hstart : ∀ sched, b.mineBlockUnder env 0 sched
      = MinerState.run env 0 (singleWorkerStage env b 0) sched := by
    intro sched
    unfold Block.mineBlockUnder Block.mineStart
    rw [h1]
    rfl
  constructor
  · intro hj
    rw [hstart] at hj ⊢
    obtain ⟨k1, -, hk⟩ := singleWorkerStage_run env b schedule 0
    rw [hk] at hj ⊢
    rw [singleWorkerStage_joined env b k1 hj]
    exact ⟨rfl, rfl⟩
  · rw [hstart]
    have h5 : MinerState.run env 0 (singleWorkerStage env b 0) ([0, 0, 0, 0, 0] ++ schedule)
        = MinerState.run env 0 (singleWorkerStage env b 5) schedule := by
      unfold MinerState.run
      rw [List.foldl_append]
      have hw : wrapInt32 1 = 1 := by decide
      simp [singleWorkerStage, MinerState.step, meetsTarget_zero, hw]
    rw [h5]
    obtain ⟨k1, hle, hk⟩ := singleWorkerStage_run env b schedule 5
    rw [hk]
    obtain ⟨n, rfl⟩ : ∃ n, k1 = n + 5 := ⟨k1 - 5, by omega⟩
    rfl

set_option maxRecDepth 100000 in
/-- Claim C23, as stated, fails: at difficulty 0 with two workers and the schedule
`demoLateSchedule`, both workers fetch a nonce before either has stored `found`; two
candidates are examined, both are written, and the block is left with nonce 1 and the hash of
nonce 1. -/
theorem c23_two_workers_leave_nonce_one :
    (demoCandidate.mineBlockUnder demoEnvTwoWorkers 0 demoLateSchedule).joined = true
      ∧ (demoCandidate.mineBlockUnder demoEnvTwoWorkers 0 demoLateSchedule).atomicNonce = 2
      ∧ (demoCandidate.mineBlockUnder demoEnvTwoWorkers 0 demoLateSchedule).block.nonce = 1
      ∧ (demoCandidate.mineBlockUnder demoEnvTwoWorkers 0 demoLateSchedule).block.hash
          = demoCandidate.calculateBlockHashWithNonce demoEnvTwoWorkers 1 := by
  decide

/-- Claim C23, amended: for difficulty 0 and a pool of exactly one worker, for every block
content, the miner completes without searching: once the worker has taken its five steps it has
returned, whatever the schedule, and when it has returned exactly one candidate has been
examined and the block holds nonce 0 and the hash of nonce 0. -/
theorem single_worker_mines_at_zero (env : Env) (b : Block) (schedule : List Nat)
    (h1 : env.hardwareConcurrency = 1) :
    ((b.mineBlockUnder env 0 schedule).joined = true →
        (b.mineBlockUnder env 0 schedule).block
            = { b with nonce := 0, hash := b.calculateBlockHashWithNonce env 0 }
          ∧ (b.mineBlockUnder env 0 schedule).atomicNonce = 1)
      ∧ (b.mineBlockUnder env 0 ([0, 0, 0, 0, 0] ++ schedule)).joined = true :=
  single_worker_zero env b schedule h1

set_option maxRecDepth 100000 in
/-- Witness for the amended claim C23: the block `demoCandidate`, one worker, and a schedule
that also names a worker that does not exist. -/
theorem single_worker_mines_at_zero_witness :
    demoEnv.hardwareConcurrency = 1
      ∧ (demoCandidate.mineBlockUnder demoEnv 0 [0, 1, 0, 0, 0, 0]).joined = true
      ∧ (demoCandidate.mineBlockUnder demoEnv 0 [0, 1, 0, 0, 0, 0]).block
          = { demoCandidate with
              nonce := 0, hash := demoCandidate.calculateBlockHashWithNonce demoEnv 0 }
      ∧ (demoCandidate.mineBlockUnder demoEnv 0 [0, 1, 0, 0, 0, 0]).atomicNonce = 1 :=
  ⟨rfl, by decide,
    (single_worker_mines_at_zero demoEnv demoCandidate [0, 1, 0, 0, 0, 0] rfl).1 (by decide)⟩

/-! ## A pool without workers -/

theorem new_without_workers (env : Env) (fuel : Nat) (now : String) (idx : Int)
    (prevHash : String) (txs : List Transaction) (snapshot : StdMap ℚ) (diff : Nat)
    (h0 : env.hardwareConcurrency = 0) :
    Block.new env fuel now idx prevHash txs snapshot diff
      = some
          { index := idx, timestamp := now, transactions := txs, previousHash := prevHash,
            hash := Block.calculateBlockHashWithNonce env
              { index := idx, timestamp := now, transactions := txs, previousHash := prevHash,
                hash := "", nonce := 0, balanceSnapshot := snapshot, difficulty := diff } 0,
            nonce := 0, balanceSnapshot := snapshot, difficulty := diff } := by
  unfold Block.new Block.mineBlock
  rw [if_pos h0]
  rfl

/-- Claim C22 fails in the code: when `std::thread::hardware_concurrency()` returns 0 no worker
is started, and the constructor returns the block with nonce 0 and the hash of nonce 0;
whenever that hash does not begin with `difficulty` characters `0`, the stored hash does not
either. -/
theorem unmined_block_without_workers (env : Env) (fuel : Nat) (now : String) (idx : Int)
    (prevHash : String) (txs : List Transaction) (snapshot : StdMap ℚ) (diff : Nat)
    (h0 : env.hardwareConcurrency = 0)
    (hmiss : Block.meetsTarget
        (Block.calculateBlockHashWithNonce env
          { index := idx, timestamp := now, transactions := txs, previousHash := prevHash,
            hash := "", nonce := 0, balanceSnapshot := snapshot, difficulty := diff } 0)
        diff = false) :
    ∃ b, Block.new env fuel now idx prevHash txs snapshot diff = some b
      ∧ b.nonce = 0
      ∧ b.hash = b.calculateBlockHashWithNonce env b.nonce
      ∧ Block.meetsTarget b.hash b.difficulty = false :=
  ⟨_, new_without_workers env fuel now idx prevHash txs snapshot diff h0, rfl, rfl, hmiss⟩

set_option maxRecDepth 100000 in
/-- Witness for claim C22: a block of difficulty 4 constructed in the environment without
workers, whose digests begin with `f`. -/
theorem unmined_block_without_workers_witness :
    demoEnvNoWorker.hardwareConcurrency = 0
      ∧ ∃ b, Block.new demoEnvNoWorker 1 demoNow 1 "0" [] StdMap.empty 4 = some b
          ∧ b.nonce = 0
          ∧ b.hash = b.calculateBlockHashWithNonce demoEnvNoWorker b.nonce
          ∧ Block.meetsTarget b.hash b.difficulty = false :=
  ⟨rfl,
    unmined_block_without_workers demoEnvNoWorker 1 demoNow 1 "0" [] StdMap.empty 4 rfl
      (by decide)⟩

/-! ## The sequential miner is one execution of the pool -/

theorem run_append (env : Env) (d : Nat) (st : MinerState) (s1 s2 : List Nat) :
    MinerState.run env d st (s1 ++ s2) = MinerState.run env d (MinerState.run env d st s1) s2 := by
  unfold MinerState.run
  rw [List.foldl_append]

theorem first_worker_searches (env : Env) (b : Block) (d : Nat) (ws : List WorkerPoint) :
    ∀ (fuel : Nat) (n m : Int) (h : String), Block.mineLoop env b d fuel n = some (m, h) →
      ∃ schedule,
        MinerState.run env d
            { found := false, atomicNonce := n, block := b, workers := .loopTest :: ws } schedule
          = { found := true, atomicNonce := wrapInt32 (m + 1),
              block := { b with nonce := m, hash := h }, workers := .finished :: ws }
  | 0, _, _, _, hl => by cases hl
  | fuel + 1, n, m, h, hl => by
    unfold Block.mineLoop at hl
    dsimp only at hl
    by_cases ht : Block.meetsTarget (b.calculateBlockHashWithNonce env n) d = true
    · rw [if_pos ht] at hl
      simp only [Option.some.injEq, Prod.mk.injEq] at hl
      obtain ⟨e1, e2⟩ := hl
      subst e1
      subst e2
      refine ⟨[0, 0, 0, 0, 0], ?_⟩
      simp [MinerState.run, MinerState.step, ht]
    · rw [if_neg ht] at hl
      obtain ⟨schedule, hs⟩ := first_worker_searches env b d ws fuel (wrapInt32 (n + 1)) m h hl
      refine ⟨[0, 0] ++ schedule, ?_⟩
      rw [run_append]
      have h2 : MinerState.run env d
          { found := false, atomicNonce := n, block := b, workers := .loopTest :: ws } [0, 0]
          = { found := false, atomicNonce := wrapInt32 (n + 1), block := b,
              workers := .loopTest :: ws } := by
        simp [MinerState.run, MinerState.step, ht]
      rw [h2]
      exact hs

theorem other_workers_leave (env : Env) (d : Nat) (a : Int) (blk : Block) :
    ∀ (n : Nat) (done : List WorkerPoint),
      MinerState.run env d
          { found := true, atomicNonce := a, block := blk,
            workers := done ++ List.replicate n .loopTest }
          (List.range' done.length n)
        = { found := true, atomicNonce := a, block := blk,
            workers := done ++ List.replicate n .finished }
  | 0, done => rfl
  | n + 1, done => by
    have hget : (done ++ List.replicate (n + 1) WorkerPoint.loopTest)[done.length]?
        = some WorkerPoint.loopTest := by
      rw [List.getElem?_append_right (le_refl _), Nat.sub_self, List.replicate_succ,
        List.getElem?_cons_zero]
    have hset : (done ++ List.replicate (n + 1) WorkerPoint.loopTest).set done.length
          WorkerPoint.finished
        = (done ++ [WorkerPoint.finished]) ++ List.replicate n WorkerPoint.loopTest := by
      rw [List.set_append_right _ _ (le_refl _), Nat.sub_self, List.replicate_succ,
        List.set_cons_zero, List.append_assoc]
      rfl
    have hstep : MinerState.step env d
        { found := true, atomicNonce := a, block := blk,
          workers := done ++ List.replicate (n + 1) WorkerPoint.loopTest } done.length
        = { found := true, atomicNonce := a, block := blk,
            workers := (done ++ [WorkerPoint.finished])
              ++ List.replicate n WorkerPoint.loopTest } := by
      unfold MinerState.step
      dsimp only
      rw [hget]
      dsimp only
      rw [if_pos rfl, hset]
    have hr : List.range' done.length (n + 1)
        = done.length :: List.range' (done ++ [WorkerPoint.finished]).length n := by
      simp [List.range'_succ]
    rw [hr]
    show MinerState.run env d (MinerState.step env d _ done.length) _ = _
    rw [hstep, other_workers_leave env d a blk n (done ++ [WorkerPoint.finished])]
    simp [List.replicate_succ]

theorem mineBlock_is_an_execution (env : Env) (fuel : Nat) (b b1 : Block) (d : Nat)
    (hc : 0 < env.hardwareConcurrency) (h : Block.mineBlock env fuel b d = some b1) :
    ∃ schedule, (b.mineBlockUnder env d schedule).joined = true
      ∧ (b.mineBlockUnder env d schedule).block = b1 := by
  unfold Block.mineBlock at h
  rw [if_neg (by omega)] at h
  cases hl : Block.mineLoop env b d fuel 0 with
  | none =>
    rw [hl] at h
    cases h
  | some r =>
    obtain ⟨m, hh⟩ := r
    rw [hl] at h
    simp only [Option.some.injEq] at h
    obtain ⟨n, hn⟩ : ∃ n, env.hardwareConcurrency = n + 1 :=
      ⟨env.hardwareConcurrency - 1, by omega⟩
    obtain ⟨s1, hs1⟩ :=
      first_worker_searches env b d (List.replicate n .loopTest) fuel 0 m hh hl
    have h2 := other_workers_leave env d (wrapInt32 (m + 1)) { b with nonce := m, hash := hh } n
      [WorkerPoint.finished]
    have hrun : b.mineBlockUnder env d (s1 ++ List.range' 1 n)
        = { found := true, atomicNonce := wrapInt32 (m + 1),
            block := { b with nonce := m, hash := hh },
            workers := [.finished] ++ List.replicate n .finished } := by
      unfold Block.mineBlockUnder Block.mineStart
      rw [hn, run_append, List.replicate_succ, hs1]
      exact h2
    refine ⟨s1 ++ List.range' 1 n, ?_, ?_⟩
    · rw [hrun]
      simp [MinerState.joined]
    · rw [hrun]
      exact h

/-! ## Encryption framing -/

theorem wrapInt32_small (n : Nat) (h : n < 2147483648) : wrapInt32 (n : Int) = (n : Int) := by
  unfold wrapInt32
  omega

theorem encryptString_framing (cenv : CipherEnv) (plaintext key keyBytes updated final : List Nat)
    (hctx : cenv.ctxNew = true)
    (hsize : plaintext.length + cenv.blockSize < 2147483648)
    (hkey : keyBytesRead key cenv.keyLength = some keyBytes)
    (hiv : (cenv.randBytes cenv.ivLength).length = cenv.ivLength)
    (hinit : cenv.encryptInit keyBytes (cenv.randBytes cenv.ivLength) = true)
    (hupd : cenv.encryptUpdate keyBytes (cenv.randBytes cenv.ivLength) plaintext = some updated)
    (hfin : cenv.encryptFinal keyBytes (cenv.randBytes cenv.ivLength) plaintext = some final) :
    PersistenceManager.encryptString cenv plaintext key
      = .ok (cenv.randBytes cenv.ivLength ++ (updated ++ final)) := by
  have hw : wrapInt32 (plaintext.length : Int) = (plaintext.length : Int) :=
    wrapInt32_small _ (by omega)
  unfold PersistenceManager.encryptString
  dsimp only
  rw [hw, hkey]
  have h1 : ¬ ((plaintext.length : Int) + (cenv.blockSize : Int) > 2147483647) := by omega
  have h2 : ¬ ((plaintext.length : Int) + (cenv.blockSize : Int) < 0) := by omega
  have h3 : ¬ ((plaintext.length : Int) < 0) := by omega
  have ht : plaintext.take (plaintext.length : Int).toNat = plaintext := by
    rw [Int.toNat_ofNat, List.take_length]
  have hivt : (cenv.randBytes cenv.ivLength).take cenv.ivLength = cenv.randBytes cenv.ivLength := by
    exact List.take_of_length_le (le_of_eq hiv)
  simp only [hctx, Bool.not_true, Bool.false_eq_true, if_false, h1, h2, h3, hinit, ht, hupd,
    hfin, hivt]

theorem keyBytesRead_exact (key : List Nat) : keyBytesRead key key.length = some key := by
  unfold keyBytesRead
  rw [if_pos (Nat.le_succ _), List.take_left]

theorem encryptString_huge :
    PersistenceManager.encryptString demoCipher demoHugePlaintext demoKey32
      = PersistenceManager.encryptString demoCipher (List.replicate 5 0) demoKey32 := by
  have hl : demoHugePlaintext.length = 4294967301 := List.length_replicate _ _
  have hl5 : (List.replicate 5 (0 : Nat)).length = 5 := List.length_replicate _ _
  have hw : wrapInt32 ((4294967301 : Nat) : Int) = 5 := by decide
  have hw5 : wrapInt32 ((5 : Nat) : Int) = 5 := by decide
  have h5 : (5 : Int).toNat = 5 := rfl
  have ht : demoHugePlaintext.take 5 = List.replicate 5 0 := by
    unfold demoHugePlaintext
    rw [List.take_replicate]
    rfl
  have ht5 : (List.replicate 5 (0 : Nat)).take 5 = List.replicate 5 0 := by
    exact List.take_of_length_le (le_of_eq hl5)
  unfold PersistenceManager.encryptString
  dsimp only
  rw [hl, hl5, hw, hw5, h5, ht, ht5]

/-- Claim C25 fails in the code for a plaintext of `2^32` bytes or more. For a plaintext whose
length plus the block size is below `2^31`, a key of the length the cipher reads, and cipher
calls that succeed, `encryptString` returns the IV followed by the output of the update and
final calls for that plaintext, key and IV: the first `ivLength` bytes are the IV, the rest is
the cipher output, and the result is at least as long as the plaintext when the cipher output
is. But the length passes through `static_cast<int>`: a plaintext of `2^32 + 5` bytes is
encrypted as its first 5 bytes, and the result has 32 bytes. -/
theorem huge_plaintext_encrypted_in_part :
    (∀ (cenv : CipherEnv) (plaintext key updated final : List Nat),
        cenv.ctxNew = true → plaintext.length + cenv.blockSize < 2147483648 →
        key.length = cenv.keyLength →
        (cenv.randBytes cenv.ivLength).length = cenv.ivLength →
        cenv.encryptInit key (cenv.randBytes cenv.ivLength) = true →
        cenv.encryptUpdate key (cenv.randBytes cenv.ivLength) plaintext = some updated →
        cenv.encryptFinal key (cenv.randBytes cenv.ivLength) plaintext = some final →
          PersistenceManager.encryptString cenv plaintext key
              = .ok (cenv.randBytes cenv.ivLength ++ (updated ++ final))
            ∧ (cenv.randBytes cenv.ivLength ++ (updated ++ final)).take cenv.ivLength
                = cenv.randBytes cenv.ivLength
            ∧ (cenv.randBytes cenv.ivLength ++ (updated ++ final)).drop cenv.ivLength
                = updated ++ final
            ∧ (plaintext.length ≤ updated.length + final.length →
                plaintext.length
                  ≤ (cenv.randBytes cenv.ivLength ++ (updated ++ final)).length))
      ∧ demoKey32.length = 32
      ∧ demoHugePlaintext.length = 4294967301
      ∧ PersistenceManager.encryptString demoCipher demoHugePlaintext demoKey32
          = PersistenceManager.encryptString demoCipher (List.replicate 5 0) demoKey32
      ∧ ∃ result, PersistenceManager.encryptString demoCipher demoHugePlaintext demoKey32
            = .ok result
          ∧ result.length = 32 := by
  refine ⟨?_, by decide, List.length_replicate _ _, encryptString_huge, ?_⟩
  · intro cenv plaintext key updated final hctx hsize hk hiv hinit hupd hfin
    have hkey : keyBytesRead key cenv.keyLength = some key := by
      rw [← hk]
      exact keyBytesRead_exact key
    refine ⟨encryptString_framing cenv plaintext key key updated final hctx hsize hkey hiv hinit
      hupd hfin, ?_, ?_, ?_⟩
    · exact List.take_left' hiv
    · exact List.drop_left' hiv
    · intro hle
      simp only [List.length_append]
      omega
  · rw [encryptString_huge]
    exact ⟨List.replicate 16 7 ++ ([1, 1, 1, 1, 1] ++ List.replicate 11 12), by decide,
      by decide⟩

/-- Witness for claim C25: three bytes encrypted with the stand-in cipher and a key of 32
bytes. -/
theorem huge_plaintext_encrypted_in_part_witness :
    PersistenceManager.encryptString demoCipher [1, 2, 3] demoKey32
      = .ok (demoCipher.randBytes demoCipher.ivLength
          ++ ([] ++ [2, 3, 4, 14, 14, 14, 14, 14, 14, 14, 14, 14, 14, 14, 14, 14])) :=
  (huge_plaintext_encrypted_in_part.1 demoCipher [1, 2, 3] demoKey32 []
    [2, 3, 4, 14, 14, 14, 14, 14, 14, 14, 14, 14, 14, 14, 14, 14]
    rfl (by decide) (by decide) (by decide) (by decide) (by decide) (by decide)).1

/-! ## The key of the save action -/

theorem saveAction_key (cenv : CipherEnv) (blockchainData : List Nat)
    (h : cenv.keyLength = 32) :
    main.saveAction cenv blockchainData
      = PersistenceManager.encryptString cenv blockchainData
          (stringBytes "mysecretkeymysecretkeymysecretke") := by
  have e1 : keyBytesRead (stringBytes main.encryptionKey) 32
      = keyBytesRead (stringBytes "mysecretkeymysecretkeymysecretke") 32 := by decide
  unfold main.saveAction BlockchainController.saveBlockchain
    BlockchainController.saveBlockchainToFile PersistenceManager.encryptString
  dsimp only
  rw [h, e1]

/-- Claim C26 fails in the code: the key that case 6 of `main` passes through
`saveBlockchain` to `encryptString` has 35 bytes, not 32; `encryptString` reads its first 32
bytes, so the call returns what it returns for the key cut to 32 bytes, and the last three
bytes of the key play no part. -/
theorem save_action_key_has_35_bytes :
    (stringBytes main.encryptionKey).length = 35
      ∧ (∀ (cenv : CipherEnv) (blockchainData : List Nat),
          main.saveAction cenv blockchainData
            = PersistenceManager.encryptString cenv blockchainData
                (stringBytes main.encryptionKey))
      ∧ keyBytesRead (stringBytes main.encryptionKey) 32
          = some (stringBytes "mysecretkeymysecretkeymysecretke")
      ∧ (stringBytes "mysecretkeymysecretkeymysecretke").length = 32
      ∧ ∀ (cenv : CipherEnv) (blockchainData : List Nat), cenv.keyLength = 32 →
          main.saveAction cenv blockchainData
            = PersistenceManager.encryptString cenv blockchainData
                (stringBytes "mysecretkeymysecretkeymysecretke") :=
  ⟨by decide, fun _ _ => rfl, by decide, by decide,
    fun cenv blockchainData h => saveAction_key cenv blockchainData h⟩

/-- Witness for claim C26: the save action with the stand-in cipher on three bytes. -/
theorem save_action_key_has_35_bytes_witness :
    demoCipher.keyLength = 32
      ∧ main.saveAction demoCipher [1, 2, 3]
          = PersistenceManager.encryptString demoCipher [1, 2, 3]
              (stringBytes "mysecretkeymysecretkeymysecretke") :=
  ⟨rfl, save_action_key_has_35_bytes.2.2.2.2 demoCipher [1, 2, 3] rfl⟩


/-! ## Cancellation in concatenated strings -/

theorem string_append_left_cancel {a x y : String} (h : a ++ x = a ++ y) : x = y :=
  (string_append_inj h rfl).2

theorem string_append_right_cancel {x y c : String} (h : x ++ c = y ++ c) : x = y := by
  have h0 := congrArg String.data h
  rw [String.data_append, String.data_append] at h0
  exact String.ext (List.append_cancel_right h0)

theorem string_mid_cancel {a x y c : String} (h : a ++ x ++ c = a ++ y ++ c) : x = y :=
  string_append_left_cancel (string_append_right_cancel h)

theorem string_foldl_append (l : List String) :
    ∀ acc : String, l.foldl (fun r s => r ++ s) acc = acc ++ l.foldl (fun r s => r ++ s) "" := by
  induction l with
  | nil =>
    intro acc
    simp
  | cons s rest ih =>
    intro acc
    rw [List.foldl_cons, List.foldl_cons, ih (acc ++ s), ih ("" ++ s), String.empty_append,
      String.append_assoc]

theorem string_join_cons (s : String) (l : List String) :
    String.join (s :: l) = s ++ String.join l := by
  unfold String.join
  rw [List.foldl_cons, string_foldl_append, String.empty_append]

theorem string_join_append (l1 l2 : List String) :
    String.join (l1 ++ l2) = String.join l1 ++ String.join l2 := by
  induction l1 with
  | nil =>
    show String.join l2 = String.join [] ++ String.join l2
    have : String.join [] = "" := rfl
    rw [this, String.empty_append]
  | cons s rest ih =>
    rw [List.cons_append, string_join_cons, string_join_cons, ih, String.append_assoc]

theorem toString_amount_split (tx : Transaction) :
    tx.toString
      = ("txId: " ++ tx.txId ++ ", " ++ "From: " ++ tx.sender ++ ", " ++ "To: " ++ tx.receiver
          ++ ", " ++ "Amount: ")
        ++ to_string tx.amount
        ++ (" BTC\n" ++ ", " ++ "Timestamp: " ++ tx.timestamp ++ ", " ++ "Metadata: "
          ++ tx.metadata ++ ", " ++ "Signature: " ++ tx.signature) := by
  simp only [Transaction.toString, String.append_assoc]

theorem toString_amount_changed (tx : Transaction) (a : ℚ)
    (h : to_string a ≠ to_string tx.amount) :
    Transaction.toString { tx with amount := a } ≠ tx.toString := by
  intro e
  rw [toString_amount_split, toString_amount_split] at e
  exact h (string_mid_cancel e)

theorem hashInput_amount_changed (b : Block) (tpre tpost : List Transaction) (tx : Transaction)
    (a : ℚ) (n : Int) (hb : b.transactions = tpre ++ tx :: tpost)
    (h : to_string a ≠ to_string tx.amount) :
    Block.hashInput { b with transactions := tpre ++ { tx with amount := a } :: tpost } n
      ≠ b.hashInput n := by
  intro e
  unfold Block.hashInput at e
  rw [hb] at e
  have e1 := string_append_left_cancel e
  simp only [List.map_append, List.map_cons, string_join_append, string_join_cons] at e1
  have e2 := string_append_right_cancel (string_append_left_cancel e1)
  exact toString_amount_changed tx a h e2

theorem calculateBlockHashWithNonce_eq (env : Env) (b : Block) (n : Int) :
    b.calculateBlockHashWithNonce env n = env.calculateHash (b.hashInput n) := rfl

theorem demoEnv_noCollision (x y : String) : noCollision demoEnv x y := by
  intro h
  exact string_append_left_cancel h


/-! ## Tampering with a stored amount: the hash check -/

theorem blocksReadable_amount (publicKeys : StdMap String) (pre post : List Block) (b : Block)
    (tpre tpost : List Transaction) (tx : Transaction) (a : ℚ)
    (hb : b.transactions = tpre ++ tx :: tpost)
    (hread : blocksReadable publicKeys (pre ++ b :: post)) :
    blocksReadable publicKeys
      (pre ++ { b with transactions := tpre ++ { tx with amount := a } :: tpost } :: post) := by
  intro x hx
  rcases List.mem_append.mp hx with hx | hx
  · exact hread x (List.mem_append_left _ hx)
  · rcases List.mem_cons.mp hx with hx | hx
    · subst hx
      have hbr := hread b (List.mem_append_right _ (List.mem_cons_self _ _))
      refine ⟨hbr.1, ?_⟩
      intro t1 ht1 hs1 key hk
      rcases List.mem_append.mp ht1 with ht1 | ht1
      · exact hbr.2 t1 (by rw [hb]; exact List.mem_append_left _ ht1) hs1 key hk
      · rcases List.mem_cons.mp ht1 with ht1 | ht1
        · subst ht1
          exact hbr.2 tx
            (by rw [hb]; exact List.mem_append_right _ (List.mem_cons_self _ _)) hs1 key hk
        · exact hbr.2 t1
            (by rw [hb]; exact List.mem_append_right _ (List.mem_cons_of_mem _ ht1)) hs1 key hk
    · exact hread x (List.mem_append_right _ (List.mem_cons_of_mem _ hx))

theorem tampered_rendering_detected (env : Env) (publicKeys : StdMap String)
    (pre post : List Block) (b : Block) (tpre tpost : List Transaction) (tx : Transaction)
    (a : ℚ) (balances : StdMap ℚ)
    (hb : b.transactions = tpre ++ tx :: tpost)
    (hread : blocksReadable publicKeys (pre ++ b :: post))
    (hhash : b.hash = b.calculateBlockHashWithNonce env b.nonce)
    (hr : to_string a ≠ to_string tx.amount)
    (hnc : noCollision env
      (Block.hashInput { b with transactions := tpre ++ { tx with amount := a } :: tpost }
        b.nonce)
      (b.hashInput b.nonce)) :
    Blockchain.isChainValid env
      { chain :=
          pre ++ { b with transactions := tpre ++ { tx with amount := a } :: tpost } :: post
        balances := balances } publicKeys = .ok false := by
  have hread1 := blocksReadable_amount publicKeys pre post b tpre tpost tx a hb hread
  obtain ⟨v, hv⟩ := (validateBlocks_returns env publicKeys _ none StdMap.empty true).mpr hread1
  cases v with
  | false => exact hv
  | true =>
    exfalso
    have hc1 := chainChecks_block env publicKeys pre none
      { b with transactions := tpre ++ { tx with amount := a } :: tpost } post
      (validateBlocks_true env publicKeys _ none StdMap.empty true (fun _ => rfl) hv).2
    obtain ⟨-, e1, -⟩ := hc1
    have e2 : env.calculateHash
          (Block.hashInput { b with transactions := tpre ++ { tx with amount := a } :: tpost }
            b.nonce)
        = env.calculateHash (b.hashInput b.nonce) := by
      rw [← calculateBlockHashWithNonce_eq, ← calculateBlockHashWithNonce_eq, ← hhash]
      exact e1.symm
    exact hashInput_amount_changed b tpre tpost tx a b.nonce hb hr (hnc e2)

theorem valid_chain_readable (env : Env) (publicKeys : StdMap String) (pre post : List Block)
    (b : Block) (balances : StdMap ℚ)
    (hvalid : Blockchain.isChainValid env { chain := pre ++ b :: post, balances := balances }
      publicKeys = .ok true) :
    blocksReadable publicKeys (pre ++ b :: post)
      ∧ b.hash = b.calculateBlockHashWithNonce env b.nonce :=
  ⟨(validateBlocks_returns env publicKeys _ none StdMap.empty true).mp ⟨true, hvalid⟩,
    (chainChecks_block env publicKeys pre none b post
      (validateBlocks_true env publicKeys _ none StdMap.empty true (fun _ => rfl) hvalid).2).2.1⟩

/-- Claim C8, amended: for every chain on which `isChainValid` returns true, replacing the
amount of one stored transaction by a value whose rendering with six decimals differs from
that of the stored amount (2500 for 250), everything else as stored, makes `isChainValid`
return false, provided the hash does not collide on the content of the block before and after
the change: the recomputed block hash no longer equals the stored one. The proof reads nothing
of the chain but that validation raises no exception and that the stored hash of the block was
its computed hash; no arithmetic on amounts enters. -/
theorem tampered_rendering_fails_validation (env : Env) (publicKeys : StdMap String)
    (pre post : List Block) (b : Block) (tpre tpost : List Transaction) (tx : Transaction)
    (a : ℚ) (balances : StdMap ℚ)
    (hb : b.transactions = tpre ++ tx :: tpost)
    (hvalid : Blockchain.isChainValid env { chain := pre ++ b :: post, balances := balances }
      publicKeys = .ok true)
    (hr : to_string a ≠ to_string tx.amount)
    (hnc : noCollision env
      (Block.hashInput { b with transactions := tpre ++ { tx with amount := a } :: tpost }
        b.nonce)
      (b.hashInput b.nonce)) :
    Blockchain.isChainValid env
      { chain :=
          pre ++ { b with transactions := tpre ++ { tx with amount := a } :: tpost } :: post
        balances := balances } publicKeys = .ok false :=
  tampered_rendering_detected env publicKeys pre post b tpre tpost tx a balances hb
    (valid_chain_readable env publicKeys pre post b balances hvalid).1
    (valid_chain_readable env publicKeys pre post b balances hvalid).2 hr hnc

set_option maxRecDepth 100000 in
unseal Rat.add Rat.sub Rat.mul Rat.inv in
/-- Witness for the amended claim C8: in the valid chain of `demoReached`, replacing the amount
250 of the signed transfer `Genesis_User -> Alice` by 2500 makes validation fail. -/
theorem tampered_rendering_fails_validation_witness :
    (demoReachedBlock.transactions = [] ++ demoTransfer250 :: []
      ∧ Blockchain.isChainValid demoEnv
          { chain := [demoGenesisBlock] ++ demoReachedBlock :: [],
            balances := demoReached.balances } demoKeys = .ok true
      ∧ demoTransfer250.amount = 250
      ∧ to_string (2500 : ℚ) ≠ to_string demoTransfer250.amount)
      ∧ Blockchain.isChainValid demoEnv
          { chain :=
              [demoGenesisBlock]
                ++ { demoReachedBlock with
                     transactions := [] ++ { demoTransfer250 with amount := 2500 } :: [] } :: []
            balances := demoReached.balances } demoKeys = .ok false :=
  have hyp : demoReachedBlock.transactions = [] ++ demoTransfer250 :: []
      ∧ Blockchain.isChainValid demoEnv
          { chain := [demoGenesisBlock] ++ demoReachedBlock :: [],
            balances := demoReached.balances } demoKeys = .ok true
      ∧ demoTransfer250.amount = 250
      ∧ to_string (2500 : ℚ) ≠ to_string demoTransfer250.amount := by decide
  ⟨hyp,
    tampered_rendering_fails_validation demoEnv demoKeys [demoGenesisBlock] []
      demoReachedBlock [] [] demoTransfer250 2500 demoReached.balances hyp.1 hyp.2.1
      hyp.2.2.2 (demoEnv_noCollision _ _)⟩


/-! ## Exceptions out of isChainValid -/

set_option maxRecDepth 100000 in
unseal Rat.add Rat.sub Rat.mul Rat.inv in
/-- Claim C7 fails in the code on its second sentence. When digests have at least 56
characters, `isChainValid` returns true if and only if every block passes every sub-check, and
the flag is only ever and-ed with the verdict on the remaining blocks; a boolean is returned if
and only if every hash has at least 56 characters and every signature that is verified decodes
as hexadecimal. But a failing check can raise instead of clearing the flag: on the chain
`demoRaising`, whose second block holds the signature `zz` and whose third block has a broken
link, `std::stoi` throws out of `isChainValid` while the second block is checked and the third
block is never looked at, although its broken link alone makes the chain `demoUnlinked`
invalid; a stored hash of eight characters raises in the same way. -/
theorem isChainValid_raises_before_later_blocks :
    (∀ (env : Env) (s : Blockchain) (publicKeys : StdMap String), WideDigest env →
        (Blockchain.isChainValid env s publicKeys = .ok true
          ↔ chainChecks env publicKeys none s.chain))
      ∧ (∀ (env : Env) (publicKeys : StdMap String) (prev : Option Block) (temp : StdMap ℚ)
          (isValid : Bool) (blocks : List Block),
          Blockchain.validateBlocks env publicKeys prev temp isValid blocks
            = match Blockchain.validateBlocks env publicKeys prev temp true blocks with
              | .error e => .error e
              | .ok v => .ok (isValid && v))
      ∧ (∀ (env : Env) (s : Blockchain) (publicKeys : StdMap String),
          (∃ r, Blockchain.isChainValid env s publicKeys = .ok r)
            ↔ blocksReadable publicKeys s.chain)
      ∧ Blockchain.isChainValid demoEnv demoUnlinked demoKeys = .ok false
      ∧ Blockchain.isChainValid demoEnv
          { chain := [demoGenesisBlock, demoReachedBlock], balances := demoReached.balances }
          demoKeys = .ok true
      ∧ Blockchain.isChainValid demoEnv demoRaising demoKeys = .error "std::invalid_argument"
      ∧ Blockchain.isChainValid demoEnv demoShortHash demoKeys = .error "std::out_of_range" :=
  ⟨fun env s publicKeys hw => isChainValid_ok_true_iff env hw s publicKeys,
    fun env publicKeys prev temp isValid blocks =>
      validateBlocks_flag env publicKeys blocks prev temp isValid,
    fun env s publicKeys => validateBlocks_returns env publicKeys s.chain none StdMap.empty true,
    by decide, by decide, by decide, by decide⟩

set_option maxRecDepth 100000 in
unseal Rat.add Rat.sub Rat.mul Rat.inv in
/-- Witness for claim C7: on the ledger `demoReached`, which validates, every block passes
every sub-check. -/
theorem isChainValid_raises_before_later_blocks_witness :
    WideDigest demoEnv
      ∧ Blockchain.isChainValid demoEnv demoReached demoKeys = .ok true
      ∧ chainChecks demoEnv demoKeys none demoReached.chain :=
  have hv : Blockchain.isChainValid demoEnv demoReached demoKeys = .ok true := by decide
  ⟨demoEnv_wide, hv,
    (isChainValid_raises_before_later_blocks.1 demoEnv demoReached demoKeys demoEnv_wide).mp hv⟩


/-! ## Mutating one signed field -/

theorem payload_mid_cancel {a x y c : String} (h : x ≠ y) : a ++ x ++ c ≠ a ++ y ++ c :=
  fun e => h (string_mid_cancel e)

